import Mathlib

/-!
# Verification of the Supernote notebook codec and OCR injection pipeline

This development embeds the core of `app/note_processor.py` (the notebook
binary codec: parsing, rebuilding with recognition data, footer preservation,
OCR-result conversion and injection) and proves the spec's testable
properties about it.

The container's exact low-level byte layout is an open question of the spec
(§9): only the block/address structure is observable.  Files are therefore
modelled as lists of atomic tokens (`Atom`), blocks as length-prefixed token
runs, and block addresses as token offsets — faithful to §6's "ordered
sequence of named, addressable blocks; every block reference is the byte
offset at which that block began".
-/
/-- One atomic token of the modelled wire format.  The spec leaves the byte
layout open (§9), so a token is either a number or a string; a real
implementation would serialize these into raw bytes. -/
inductive Atom where
  | n (v : ℕ)
  | s (v : String)
deriving DecidableEq

/-- A modelled byte string: a list of atomic tokens. -/
abbrev Bytes := List Atom

deriving instance DecidableEq for Except

/-- Python's `str.startswith`, modelled structurally (the core library's
`String.startsWith` walks byte positions and does not reduce in the
kernel). -/
def strStartsWith (s q : String) : Bool := q.data.isPrefixOf s.data

/-- Python's `str.strip()`, modelled structurally for the same reason. -/
def strTrim (s : String) : String :=
  ⟨((s.data.dropWhile Char.isWhitespace).reverse.dropWhile Char.isWhitespace).reverse⟩

/-- A metadata value: numbers (addresses), strings, or lists of addresses
(the footer records a list when a label was appended multiple times). -/
inductive MVal where
  | nat (v : ℕ)
  | str (v : String)
  | natList (vs : List ℕ)
deriving DecidableEq

/-- Keys of the footer metadata block.  The source uses strings
(`PAGE3`, `TITLE_7`, `COVER_2`, `FILE_FEATURE`, `STYLE_...`, `DIRTY`, ...);
the model renders the structured ones as constructors and keeps a string
escape hatch (`extra`) for fields the codec does not interpret. -/
inductive FKey where
  | page (i : ℕ)
  | title (i : ℕ)
  | keyword (i : ℕ)
  | link (i : ℕ)
  | cover0
  | cover2
  | fileFeature
  | styleKey (s : String)
  | extra (s : String)
deriving DecidableEq

/-- Labels of the builder's address table.  The source uses strings
(`__header__`, `PAGE3/MAINLAYER/metadata`, `STYLE_xxx`, ...); the model
renders them as constructors (an isomorphic representation that replaces
the source's regular-expression matching by pattern matching). -/
inductive Label where
  | typeMark
  | signatureL
  | headerL
  | cover2L
  | titleMeta (i : ℕ)
  | keywordMeta (i : ℕ)
  | linkMeta (i : ℕ)
  | style (s : String)
  | pageLayerBitmap (p : ℕ) (name : String)
  | pageLayerMeta (p : ℕ) (name : String)
  | pageTotalPath (p : ℕ)
  | pageRecognText (p : ℕ)
  | pageRecognFile (p : ℕ)
  | pageMeta (p : ℕ)
  | footerL
  | tailL
deriving DecidableEq

/-- String-keyed metadata (headers, page metadata, layer metadata). -/
abbrev SKVs := List (String × MVal)

/-- Footer metadata. -/
abbrev FKVs := List (FKey × MVal)

/-! ## Ordered key-value mappings (Python `dict` semantics)

Python dicts preserve insertion order; assignment to an existing key updates
it in place, assignment to a fresh key appends at the end. -/
/-- `m[k]` lookup: first occurrence. -/
def kvLookup {K V : Type} [DecidableEq K] : List (K × V) → K → Option V
  | [], _ => none
  | (k', v) :: rest, k => if k = k' then some v else kvLookup rest k

/-- `k in m`. -/
def kvContains {K V : Type} [DecidableEq K] (m : List (K × V)) (k : K) : Bool :=
  (kvLookup m k).isSome

/-- `m[k] = v`: replace the first occurrence in place, else append. -/
def kvUpdate {K V : Type} [DecidableEq K] : List (K × V) → K → V → List (K × V)
  | [], k, v => [(k, v)]
  | (k', v') :: rest, k, v =>
    if k = k' then (k', v) :: rest else (k', v') :: kvUpdate rest k v

/-- `m.setdefault(k, v)` (the source only uses its effect). -/
def kvSetdefault {K V : Type} [DecidableEq K] (m : List (K × V)) (k : K) (v : V) : List (K × V) :=
  if kvContains m k then m else m ++ [(k, v)]

/-- Remove every pair whose key is in `ks`. -/
def kvStripKeys {K V : Type} [DecidableEq K] (ks : List K) (m : List (K × V)) : List (K × V) :=
  m.filter (fun p => ¬ p.1 ∈ ks)

/-! ## Token-level encoding of metadata blocks

Modelled from the spec (§6): "Metadata blocks are themselves serialized
key→value records."  The exact serialization is left open (§9), so the
model uses a length-delimited token encoding with a total decoder. -/
def encodeMVal : MVal → Bytes
  | .nat v => [.n 0, .n v]
  | .str v => [.n 1, .s v]
  | .natList vs => .n 2 :: .n vs.length :: vs.map .n

def decodeNatRun : ℕ → Bytes → Option (List ℕ × Bytes)
  | 0, b => some ([], b)
  | k + 1, .n v :: b =>
    match decodeNatRun k b with
    | some (vs, rest) => some (v :: vs, rest)
    | none => none
  | _ + 1, _ => none

def decodeMVal : Bytes → Option (MVal × Bytes)
  | .n 0 :: .n v :: b => some (.nat v, b)
  | .n 1 :: .s v :: b => some (.str v, b)
  | .n 2 :: .n k :: b =>
    match decodeNatRun k b with
    | some (vs, rest) => some (.natList vs, rest)
    | none => none
  | _ => none

def encodeFKey : FKey → Bytes
  | .page i => [.n 0, .n i]
  | .title i => [.n 1, .n i]
  | .keyword i => [.n 2, .n i]
  | .link i => [.n 3, .n i]
  | .cover0 => [.n 4]
  | .cover2 => [.n 5]
  | .fileFeature => [.n 6]
  | .styleKey s => [.n 7, .s s]
  | .extra s => [.n 8, .s s]

def decodeFKey : Bytes → Option (FKey × Bytes)
  | .n 0 :: .n i :: b => some (.page i, b)
  | .n 1 :: .n i :: b => some (.title i, b)
  | .n 2 :: .n i :: b => some (.keyword i, b)
  | .n 3 :: .n i :: b => some (.link i, b)
  | .n 4 :: b => some (.cover0, b)
  | .n 5 :: b => some (.cover2, b)
  | .n 6 :: b => some (.fileFeature, b)
  | .n 7 :: .s s :: b => some (.styleKey s, b)
  | .n 8 :: .s s :: b => some (.extra s, b)
  | _ => none

/-- Serialize a string-keyed metadata record: pair count, then each pair. -/
def encodeMetaS (m : SKVs) : Bytes :=
  .n m.length :: (m.map (fun p => Atom.s p.1 :: encodeMVal p.2)).flatten

def decodeSPairs : ℕ → Bytes → Option (SKVs × Bytes)
  | 0, b => some ([], b)
  | k + 1, .s key :: b =>
    match decodeMVal b with
    | some (v, rest) =>
      match decodeSPairs k rest with
      | some (m, rest') => some ((key, v) :: m, rest')
      | none => none
    | none => none
  | _ + 1, _ => none

def decodeMetaS : Bytes → Option SKVs
  | .n k :: b =>
    match decodeSPairs k b with
    | some (m, _) => some m
    | none => none
  | _ => none

/-- Serialize the footer metadata record. -/
def encodeMetaF (m : FKVs) : Bytes :=
  .n m.length :: (m.map (fun p => encodeFKey p.1 ++ encodeMVal p.2)).flatten

def decodeFPairs : ℕ → Bytes → Option (FKVs × Bytes)
  | 0, b => some ([], b)
  | k + 1, b =>
    match decodeFKey b with
    | some (key, b₁) =>
      match decodeMVal b₁ with
      | some (v, rest) =>
        match decodeFPairs k rest with
        | some (m, rest') => some ((key, v) :: m, rest')
        | none => none
      | none => none
    | none => none

def decodeMetaF : Bytes → Option FKVs
  | .n k :: b =>
    match decodeFPairs k b with
    | some (m, _) => some m
    | none => none
  | _ => none

/-! ## The append-only notebook builder

Modelled from the spec (§4.4): "Append-only byte buffer plus a label→offset
address table (`append(label, bytes) -> offset`, `addressOf(label) ->
integer or 0 if absent`)."  Each appended block is stored as a length
prefix followed by its content; the recorded address is the offset at which
the block begins.  The entry list additionally remembers each block's
content — a proof-side ghost field that `get_block_address` ignores. -/
structure BEntry where
  label : Label
  addr : ℕ
  content : Bytes
deriving DecidableEq

structure NotebookBuilder where
  data : Bytes
  entries : List BEntry
deriving DecidableEq

/-- A block as laid out in the file: length prefix, then content. -/
def blockBytes (c : Bytes) : Bytes := .n c.length :: c

def NotebookBuilder.emptyB : NotebookBuilder := ⟨[], []⟩

def NotebookBuilder.append (b : NotebookBuilder) (l : Label) (c : Bytes) :
    NotebookBuilder :=
  ⟨b.data ++ blockBytes c, b.entries ++ [⟨l, b.data.length, c⟩]⟩

/-- Append raw tokens with no length prefix and no address-table entry
(used only for the trailing footer-address; the source's
`_pack_footer_address` writes the raw offset at the end of the file). -/
def NotebookBuilder.rawAppend (b : NotebookBuilder) (a : Atom) : NotebookBuilder :=
  ⟨b.data ++ [a], b.entries⟩

/-- `builder.get_block_address(label)`: the address of the most recent block
appended under `label`, or 0 if absent (dict-overwrite semantics). -/
def NotebookBuilder.get_block_address (b : NotebookBuilder) (l : Label) : ℕ :=
  match (b.entries.filter (fun e => e.label = l)).getLast? with
  | some e => e.addr
  | none => 0

/-- `builder.get_duplicate_block_address_list(label)`: every address appended
under `label`, in append order. -/
def NotebookBuilder.get_duplicate_block_address_list
    (b : NotebookBuilder) (l : Label) : List ℕ :=
  (b.entries.filter (fun e => e.label = l)).map (fun e => e.addr)

/-- `builder.get_labels()` in append order. -/
def NotebookBuilder.get_labels (b : NotebookBuilder) : List Label :=
  b.entries.map (fun e => e.label)

/-- `builder.build()`: the accumulated buffer. -/
def NotebookBuilder.build (b : NotebookBuilder) : Bytes := b.data

/-- The numeric payload of a token, if any. -/
def atomNat : Atom → Option ℕ
  | .n v => some v
  | .s _ => none

/-- Read the block starting at offset `a`: length prefix, then that many
tokens, which must all be present. -/
def readBlock (f : Bytes) (a : ℕ) : Option Bytes :=
  ((f.get? a).bind atomNat).bind fun len =>
    if a + 1 + len ≤ f.length then some ((f.drop (a + 1)).take len) else none

/-! ## The notebook data model (spec §3)

A `Layer`'s name is carried in its metadata (`LAYERNAME`), as in
`supernotelib`; `get_name` reads it back.  `RecText` models the value of
`page.get_recogn_text()`: besides real data it can be a literal `'None'`
placeholder string, which the source treats as "no data". -/
structure Layer where
  content : Bytes
  metadata : SKVs
deriving DecidableEq

def Layer.get_name (l : Layer) : Option String :=
  match kvLookup l.metadata "LAYERNAME" with
  | some (.str s) => some s
  | _ => none

inductive RecText where
  | absent
  | placeholder
  | data (b : Bytes)
deriving DecidableEq

/-- `recogn_text and recogn_text != 'None' and len(recogn_text) > 0`:
the bytes to append, if the source's guard passes. -/
def rtGuard : RecText → Option Bytes
  | .data b => if 0 < b.length then some b else none
  | _ => none

/-- Whether the recognition text is present and non-empty (the placeholder
counting as absent). -/
def rtIsNonempty (rt : RecText) : Bool :=
  (rtGuard rt).isSome

structure Page where
  metadata : SKVs
  layers : List Layer
  totalpath : Option Bytes
  recogn_text : RecText
  recogn_file : Option Bytes
deriving DecidableEq

def Page.get_style (p : Page) : Option String :=
  match kvLookup p.metadata "PAGESTYLE" with
  | some (.str s) => some s
  | _ => none

def Page.get_style_hash (p : Page) : Option String :=
  match kvLookup p.metadata "PAGESTYLEMD5" with
  | some (.str s) => some s
  | _ => none

/-- The BACKGROUND layer's bitmap content (shared style template content). -/
def bgContent (p : Page) : Bytes :=
  match p.layers.find? (fun l => l.get_name = some "BGLAYER") with
  | some l => l.content
  | none => []

structure Notebook where
  typeMark : Bytes
  signature : String
  header : SKVs
  cover : Option Bytes
  keywords : List (ℕ × Bytes)
  titles : List (ℕ × Bytes)
  links : List (ℕ × Bytes)
  pages : List Page
  footer : FKVs
deriving DecidableEq

/-- `parser.SupernoteXParser.SN_SIGNATURES`: the format versions the parser
accepts (modelled with two entries; `reconstruct_with_recognition` supports
only the last). -/
def SN_SIGNATURES : List String := ["SN_FILE_VER_20220011", "SN_FILE_VER_20230015"]

/-- `SN_SIGNATURES[-1]`, the only signature the codec will rebuild. -/
def expectedSignature : String := "SN_FILE_VER_20230015"

/-- The five layer slots of a page, in the fixed order the source uses. -/
def LAYER_KEYS : List String := ["MAINLAYER", "LAYER1", "LAYER2", "LAYER3", "BGLAYER"]

/-- Page-metadata keys that hold rebuilt block addresses; these are the
fields whose raw values legitimately differ between two builds. -/
def ADDR_KEYS : List String :=
  ["MAINLAYER", "LAYER1", "LAYER2", "LAYER3", "BGLAYER",
   "TOTALPATH", "RECOGNTEXT", "RECOGNFILE"]

/-- The page number carried by a label, if it is a per-page label. -/
def Label.pageNum : Label → Option ℕ
  | .pageLayerBitmap p _ => some p
  | .pageLayerMeta p _ => some p
  | .pageTotalPath p => some p
  | .pageRecognText p => some p
  | .pageRecognFile p => some p
  | .pageMeta p => some p
  | _ => none

/-! ## The format parser (spec-modelled)

Modelled from the spec: `supernotelib.parser.SupernoteXParser` is an
external library, not part of this repository.  §4.1/§6 describe it: decode
the footer via the trailing footer address, the header via the footer's
`FILE_FEATURE` entry, the signature from the fixed region after the type
marker, then every page (five layer slots, total path, recognition data)
through the addresses in its metadata block.  A malformed recognition block
is non-fatal (§4.1); auxiliary collections (cover, keywords, titles, links)
are read leniently, pages strictly. -/
def readMetaS (f : Bytes) (a : ℕ) : Option SKVs :=
  (readBlock f a).bind decodeMetaS

def readMetaF (f : Bytes) (a : ℕ) : Option FKVs :=
  (readBlock f a).bind decodeMetaF

def parseOneLayer (f : Bytes) (la : ℕ) : Option Layer :=
  match readMetaS f la with
  | none => none
  | some lm =>
    match kvLookup lm "LAYERBITMAP" with
    | some (.nat lb) =>
      if 0 < lb then
        match readBlock f lb with
        | some c => some ⟨c, lm⟩
        | none => none
      else some ⟨[], lm⟩
    | _ => none

def parseSlots (f : Bytes) (meta : SKVs) : List String → Option (List Layer)
  | [] => some []
  | prop :: rest =>
    match kvLookup meta prop with
    | some (.nat la) =>
      if 0 < la then
        match parseOneLayer f la with
        | none => none
        | some l =>
          match parseSlots f meta rest with
          | none => none
          | some ls => some (l :: ls)
      else parseSlots f meta rest
    | _ => parseSlots f meta rest

def parseTotalpath (f : Bytes) (meta : SKVs) : Option (Option Bytes) :=
  match kvLookup meta "TOTALPATH" with
  | some (.nat t) =>
    if 0 < t then (readBlock f t).map some else some none
  | none => some none
  | _ => none

/-- Recognition text is read leniently: a block that cannot be read is
treated as "no existing recognition data" (§4.1). -/
def parseRecText (f : Bytes) (meta : SKVs) : RecText :=
  match kvLookup meta "RECOGNTEXT" with
  | some (.nat r) =>
    if 0 < r then
      match readBlock f r with
      | some c => .data c
      | none => .absent
    else .absent
  | _ => .absent

def parseRecFile (f : Bytes) (meta : SKVs) : Option Bytes :=
  match kvLookup meta "RECOGNFILE" with
  | some (.nat r) => if 0 < r then readBlock f r else none
  | _ => none

def parsePageAt (f : Bytes) (a : ℕ) : Option Page :=
  match readMetaS f a with
  | none => none
  | some meta =>
    match parseSlots f meta LAYER_KEYS with
    | none => none
    | some layers =>
      match parseTotalpath f meta with
      | none => none
      | some tp => some ⟨meta, layers, tp, parseRecText f meta, parseRecFile f meta⟩

def parsePagesFrom (f : Bytes) (footer : FKVs) : ℕ → ℕ → Option (List Page)
  | 0, _ => some []
  | fuel + 1, i =>
    match kvLookup footer (.page i) with
    | some (.nat a) =>
      match parsePageAt f a with
      | none => none
      | some p =>
        match parsePagesFrom f footer fuel (i + 1) with
        | none => none
        | some ps => some (p :: ps)
    | some _ => none
    | none => some []

/-- Lenient collection of title/keyword/link blocks referenced from the
footer (a duplicated label is recorded as an address list). -/
def collectRefs (f : Bytes) (footer : FKVs) (sel : FKey → Option ℕ) :
    List (ℕ × Bytes) :=
  footer.flatMap fun kv =>
    match sel kv.1 with
    | some nidx =>
      match kv.2 with
      | .nat a => [(nidx, (readBlock f a).getD [])]
      | .natList addrs => addrs.map (fun a => (nidx, (readBlock f a).getD []))
      | .str _ => []
    | none => []

def parseNotebook (f : Bytes) : Except String Notebook :=
  match f.getLast? with
  | some (.n fa) =>
    match readMetaF f fa with
    | some footer =>
      match readBlock f 0 with
      | some tm =>
        match readBlock f (tm.length + 1) with
        | some [.s sig] =>
          if SN_SIGNATURES.contains sig then
            match kvLookup footer .fileFeature with
            | some (.nat ha) =>
              match readMetaS f ha with
              | some header =>
                match parsePagesFrom f footer (footer.length + 1) 1 with
                | some pages =>
                  Except.ok
                    { typeMark := tm, signature := sig, header := header
                      cover := match kvLookup footer .cover2 with
                        | some (.nat a) => readBlock f a
                        | _ => none
                      keywords := collectRefs f footer
                        (fun k => match k with | .keyword i => some i | _ => none)
                      titles := collectRefs f footer
                        (fun k => match k with | .title i => some i | _ => none)
                      links := collectRefs f footer
                        (fun k => match k with | .link i => some i | _ => none)
                      pages := pages, footer := footer }
                | none => Except.error "unreadable page"
              | none => Except.error "unreadable header"
            | _ => Except.error "missing FILE_FEATURE"
          else Except.error "FormatVersionError: unsupported signature"
        | _ => Except.error "unreadable signature block"
      | none => Except.error "unreadable file type block"
    | none => Except.error "unreadable footer"
  | _ => Except.error "missing footer address"

/-! ## The pack pipeline

`_pack_type` … `_pack_backgrounds`, `_pack_tail`, `_pack_footer_address`
and `_construct_metadata_block` live in `supernotelib.manipulator`, outside
this repository; they are modelled from the spec (§4.4 fixed pack order,
per-page packing, shared style templates).  `pack_pages_with_recognition`
and `pack_footer_preserving_extras` are embedded from
`app/note_processor.py` itself. -/
def pack_type (b : NotebookBuilder) (nb : Notebook) : NotebookBuilder :=
  b.append .typeMark nb.typeMark

def pack_signature (b : NotebookBuilder) (nb : Notebook) : NotebookBuilder :=
  b.append .signatureL [.s nb.signature]

def pack_header (b : NotebookBuilder) (nb : Notebook) : NotebookBuilder :=
  b.append .headerL (encodeMetaS nb.header)

def pack_cover (b : NotebookBuilder) (nb : Notebook) : NotebookBuilder :=
  match nb.cover with
  | some c => b.append .cover2L c
  | none => b

def pack_keywords (b : NotebookBuilder) (nb : Notebook) : NotebookBuilder :=
  nb.keywords.foldl (fun b kc => b.append (.keywordMeta kc.1) kc.2) b

def pack_titles (b : NotebookBuilder) (nb : Notebook) : NotebookBuilder :=
  nb.titles.foldl (fun b kc => b.append (.titleMeta kc.1) kc.2) b

def pack_links (b : NotebookBuilder) (nb : Notebook) : NotebookBuilder :=
  nb.links.foldl (fun b kc => b.append (.linkMeta kc.1) kc.2) b

/-- The style-template label a page's BACKGROUND layer references:
`page.get_style()`, suffixed with `page.get_style_hash()` for `user_`
styles.  A missing style or missing hash raises in the source
(`style.startswith` on `None` / string concatenation with `None`). -/
def styleLabelOf (p : Page) : Except String String :=
  match p.get_style with
  | none => .error "AttributeError: NoneType object has no attribute startswith"
  | some st =>
    if strStartsWith st "user_" then
      match p.get_style_hash with
      | some h => .ok (st ++ h)
      | none => .error "TypeError: can only concatenate str to str"
    else .ok st

/-- Modelled from the spec (§4.4): append each referenced background style
template once, the first time a page uses it.  Pages without a style are
skipped here (their BACKGROUND layer, if any, fails later in per-page
packing, as in the source). -/
def packOneBackground (b : NotebookBuilder) (p : Page) :
    Except String NotebookBuilder :=
  match p.get_style with
  | none => Except.ok b
  | some _ =>
    match styleLabelOf p with
    | .error e => Except.error e
    | .ok lbl =>
      if b.get_block_address (.style lbl) = 0 then
        Except.ok (b.append (.style lbl) (bgContent p))
      else
        Except.ok b

def packBackgroundsFold (b : NotebookBuilder) : List Page →
    Except String NotebookBuilder
  | [] => Except.ok b
  | p :: ps =>
    match packOneBackground b p with
    | .error e => Except.error e
    | .ok b1 => packBackgroundsFold b1 ps

def pack_backgrounds (b : NotebookBuilder) (nb : Notebook) :
    Except String NotebookBuilder :=
  packBackgroundsFold b nb.pages

/-- One layer of `pack_pages_with_recognition`'s layer loop
(`note_processor.py:403-423`).  The source stringifies the bitmap address
(`str(builder.get_block_address(...))`); the model stores the tagged
numeral, since the textual layout is an open question of the spec. -/
def packLayer (pn : ℕ) (page : Page) (b : NotebookBuilder) (layer : Layer) :
    Except String NotebookBuilder :=
  match layer.get_name with
  | none => Except.ok b
  | some layer_name =>
    if layer_name = "BGLAYER" then
      match styleLabelOf page with
      | .error e => Except.error e
      | .ok style =>
        let lm := kvUpdate (kvUpdate layer.metadata "LAYERNAME" (.str layer_name))
          "LAYERBITMAP" (.nat (b.get_block_address (.style style)))
        Except.ok (b.append (.pageLayerMeta pn layer_name) (encodeMetaS lm))
    else
      let b1 := b.append (.pageLayerBitmap pn layer_name) layer.content
      let lm := kvUpdate (kvUpdate layer.metadata "LAYERNAME" (.str layer_name))
        "LAYERBITMAP" (.nat (b1.get_block_address (.pageLayerBitmap pn layer_name)))
      Except.ok (b1.append (.pageLayerMeta pn layer_name) (encodeMetaS lm))

/-- The page metadata assembled at `note_processor.py:445-463`: the page's
own metadata (`dict(page.metadata)` less the in-memory `__layers__` entry,
which this model keeps in the separate `layers` field), with the five layer
addresses, the total-path address, and — when recognition blocks were
appended (address > 0) — the recognition addresses and the
recognition-status "done" flag. -/
def pageMetaKVs (b : NotebookBuilder) (pn : ℕ) (page : Page) : SKVs :=
  let m := LAYER_KEYS.foldl
    (fun m prop => kvUpdate m prop (.nat (b.get_block_address (.pageLayerMeta pn prop))))
    page.metadata
  let m := kvUpdate m "TOTALPATH" (.nat (b.get_block_address (.pageTotalPath pn)))
  let rt := b.get_block_address (.pageRecognText pn)
  let rf := b.get_block_address (.pageRecognFile pn)
  let m := if 0 < rt then
      kvUpdate (kvUpdate m "RECOGNTEXT" (.nat rt)) "RECOGNSTATUS" (.nat 1)
    else m
  if 0 < rf then kvUpdate m "RECOGNFILE" (.nat rf) else m

/-- The appends after a page's layer loop: total path, recognition text
(only if present, non-placeholder and non-empty), recognition file (only
if present and non-empty). -/
def packPageBlocks (b : NotebookBuilder) (pn : ℕ) (page : Page) :
    NotebookBuilder :=
  let b := match page.totalpath with
    | some tp => b.append (.pageTotalPath pn) tp
    | none => b
  let b := match rtGuard page.recogn_text with
    | some rt => b.append (.pageRecognText pn) rt
    | none => b
  match page.recogn_file with
  | some rf => if 0 < rf.length then b.append (.pageRecognFile pn) rf else b
  | none => b

/-- The layer loop of one page (the source's `for layer in layers`). -/
def packLayersFold (pn : ℕ) (page : Page) (b : NotebookBuilder) :
    List Layer → Except String NotebookBuilder
  | [] => Except.ok b
  | layer :: rest =>
    match packLayer pn page b layer with
    | .error e => Except.error e
    | .ok b1 => packLayersFold pn page b1 rest

def packPage (b : NotebookBuilder) (pn : ℕ) (page : Page) :
    Except String NotebookBuilder :=
  match packLayersFold pn page b page.layers with
  | .error e => Except.error e
  | .ok b1 =>
    let b2 := packPageBlocks b1 pn page
    Except.ok (b2.append (.pageMeta pn) (encodeMetaS (pageMetaKVs b2 pn page)))

def packPagesFrom (pn : ℕ) (pages : List Page) (b : NotebookBuilder) :
    Except String NotebookBuilder :=
  match pages with
  | [] => Except.ok b
  | p :: ps =>
    match packPage b pn p with
    | .error e => Except.error e
    | .ok b2 => packPagesFrom (pn + 1) ps b2

/-- `pack_pages_with_recognition(builder, notebook, offset=0)`
(`note_processor.py:391-466`): page numbers start at `1 + offset`. -/
def pack_pages_with_recognition (b : NotebookBuilder) (nb : Notebook)
    (offset : ℕ) : Except String NotebookBuilder :=
  packPagesFrom (1 + offset) nb.pages b

/-- The footer record assembled by `pack_footer_preserving_extras`
(`note_processor.py:28-93`): `FILE_FEATURE`, one entry per page-metadata
block, title/keyword/link addresses (lists when duplicated), the cover,
every style template, and — alone among the original footer's
uninterpreted fields — `DIRTY`, copied verbatim when present. -/
def footerKVsOf (b : NotebookBuilder) (nb : Notebook) : FKVs :=
  let original_footer := nb.footer
  let mf : FKVs := kvSetdefault [] .fileFeature (.nat (b.get_block_address .headerL))
  let mf := b.get_labels.foldl
    (fun mf l => match l with
      | .pageMeta nidx =>
        kvSetdefault mf (.page nidx) (.nat (b.get_block_address (.pageMeta nidx)))
      | _ => mf) mf
  let mf := b.get_labels.foldl
    (fun mf l => match l with
      | .titleMeta nidx =>
        let addrs := b.get_duplicate_block_address_list (.titleMeta nidx)
        if addrs.length = 1 then kvSetdefault mf (.title nidx) (.nat (addrs.headD 0))
        else kvUpdate mf (.title nidx) (.natList addrs)
      | _ => mf) mf
  let mf := b.get_labels.foldl
    (fun mf l => match l with
      | .keywordMeta nidx =>
        let addrs := b.get_duplicate_block_address_list (.keywordMeta nidx)
        if addrs.length = 1 then kvSetdefault mf (.keyword nidx) (.nat (addrs.headD 0))
        else kvUpdate mf (.keyword nidx) (.natList addrs)
      | _ => mf) mf
  let mf := b.get_labels.foldl
    (fun mf l => match l with
      | .linkMeta nidx =>
        let addrs := b.get_duplicate_block_address_list (.linkMeta nidx)
        if addrs.length = 1 then kvSetdefault mf (.link nidx) (.nat (addrs.headD 0))
        else kvUpdate mf (.link nidx) (.natList addrs)
      | _ => mf) mf
  let ca := b.get_block_address .cover2L
  let mf := if ca = 0 then kvUpdate mf .cover0 (.nat 0) else kvUpdate mf .cover2 (.nat ca)
  let mf := b.get_labels.foldl
    (fun mf l => match l with
      | .style s => kvSetdefault mf (.styleKey s) (.nat (b.get_block_address (.style s)))
      | _ => mf) mf
  match kvLookup original_footer (.extra "DIRTY") with
  | some v => kvUpdate mf (.extra "DIRTY") v
  | none => mf

def pack_footer_preserving_extras (b : NotebookBuilder) (nb : Notebook) :
    NotebookBuilder :=
  b.append .footerL (encodeMetaF (footerKVsOf b nb))

/-- Modelled from the spec (§4.4): the tail block (content unspecified by
the spec and unused by the parser). -/
def pack_tail (b : NotebookBuilder) : NotebookBuilder :=
  b.append .tailL []

/-- Modelled from the spec (§4.4): the trailing pointer to the footer's own
address, written raw at the very end of the file. -/
def pack_footer_address (b : NotebookBuilder) : NotebookBuilder :=
  b.rawAppend (.n (b.get_block_address .footerL))

/-- The header normalization step of `reconstruct_with_recognition`
(`note_processor.py:501-519`): force the recognition language to `en_US`,
then apply the tri-state recognition-type input.  Returns the new header
and the warnings logged (the invalid-input branch warns and falls back to
`"1"`). -/
def normalizeHeader (header : SKVs) (recogn_type : String) :
    SKVs × List String :=
  let h1 :=
    if kvLookup header "FILE_RECOGN_LANGUAGE" ≠ some (.str "en_US") then
      kvUpdate header "FILE_RECOGN_LANGUAGE" (.str "en_US")
    else header
  let current := (kvLookup h1 "FILE_RECOGN_TYPE").getD (.str "1")
  if recogn_type = "keep" then (h1, [])
  else if recogn_type = "0" ∨ recogn_type = "1" then
    (if current ≠ .str recogn_type then
        kvUpdate h1 "FILE_RECOGN_TYPE" (.str recogn_type)
      else h1, [])
  else
    (kvUpdate h1 "FILE_RECOGN_TYPE" (.str "1"),
     ["Invalid recogn_type " ++ recogn_type ++ ", defaulting to 1"])

/-- The builder state after the fixed prefix of pack steps of
`reconstruct_with_recognition` (`note_processor.py:521-529`): type marker,
signature, header, cover, keywords, titles, links. -/
def packPrefix (nb : Notebook) : NotebookBuilder :=
  pack_links
    (pack_titles
      (pack_keywords
        (pack_cover (pack_header (pack_signature (pack_type .emptyB nb) nb) nb) nb)
        nb) nb) nb

/-- The builder state after the footer, tail and footer address. -/
def packSuffix (b : NotebookBuilder) (nb : Notebook) : NotebookBuilder :=
  pack_footer_address (pack_tail (pack_footer_preserving_extras b nb))

def buildNotebookBytes (nb : Notebook) : Except String Bytes :=
  match pack_backgrounds (packPrefix nb) nb with
  | .error e => Except.error e
  | .ok b =>
    match pack_pages_with_recognition b nb 0 with
    | .error e => Except.error e
    | .ok b2 => Except.ok (packSuffix b2 nb).build

/-- `reconstruct_with_recognition(notebook, recogn_type)`
(`note_processor.py:469-549`): refuse non-latest signatures, normalize the
header flags, build, then validate by re-parsing the freshly built bytes;
any parse failure aborts with an error and nothing is returned. -/
def reconstruct_with_recognition (nb : Notebook) (recogn_type : String) :
    Except String Bytes :=
  if nb.signature ≠ expectedSignature then
    Except.error "Only latest file format version is supported"
  else
    match buildNotebookBytes
        { nb with header := (normalizeHeader nb.header recogn_type).1 } with
    | .error e => Except.error e
    | .ok bytes =>
      match parseNotebook bytes with
      | .ok _ => Except.ok bytes
      | .error e => Except.error ("Generated file fails validation: " ++ e)

/-! ## The coordinate mapper and recognition encoder (spec §4.2, §4.3)

`ocr_client.TextBlock` carries `text`, a bounding box
`[left, top, right, bottom]` and a confidence; coordinates are modelled as
rationals (the source uses Python floats on small pixel values). -/
structure TextBlock where
  text : String
  left : ℚ
  top : ℚ
  right : ℚ
  bottom : ℚ
  confidence : ℚ
deriving DecidableEq

/-- `ocr_client.OCRResult`, restricted to the field the codec consumes. -/
structure OCRResult where
  text_blocks : List TextBlock
deriving DecidableEq

/-- Python's stable `list.sort(key=...)`, realized by a stable merge sort. -/
def sortByTop (xs : List (TextBlock × ℚ)) : List (TextBlock × ℚ) :=
  xs.mergeSort (fun a b => a.2 ≤ b.2)

def sortByLeft (xs : List TextBlock) : List TextBlock :=
  xs.mergeSort (fun a b => a.left ≤ b.left)

/-- The walk of `_group_words_into_lines` (`note_processor.py:279-295`):
start a new line when the top-Y differs from the running line Y by more
than the threshold, else append and average the running Y. -/
def groupLoop (thr : ℚ) : List TextBlock → ℚ → List (TextBlock × ℚ) →
    List (List TextBlock)
  | cur, _, [] => if cur.isEmpty then [] else [sortByLeft cur]
  | cur, curY, (b, y) :: rest =>
    if thr < |y - curY| then sortByLeft cur :: groupLoop thr [b] y rest
    else groupLoop thr (cur ++ [b]) ((curY + y) / 2) rest

/-- The non-blank blocks paired with their top-Y coordinate
(`note_processor.py:262`). -/
def validPairs (text_blocks : List TextBlock) : List (TextBlock × ℚ) :=
  (text_blocks.filter (fun b => strTrim b.text ≠ "")).map (fun b => (b, b.top))

/-- The average block height, defaulting to 20 on an empty list
(`note_processor.py:270-271`). -/
def groupAvgHeight (sorted : List (TextBlock × ℚ)) : ℚ :=
  if (sorted.map (fun p => p.1.bottom - p.1.top)).isEmpty then 20
  else (sorted.map (fun p => p.1.bottom - p.1.top)).sum /
    ((sorted.map (fun p => p.1.bottom - p.1.top)).length : ℚ)

/-- `_group_words_into_lines(text_blocks, line_threshold_ratio)`
(`note_processor.py:247-297`). -/
def group_words_into_lines (text_blocks : List TextBlock) (ratio : ℚ) :
    List (List TextBlock) :=
  if (validPairs text_blocks).isEmpty then []
  else
    match sortByTop (validPairs text_blocks) with
    | [] => []
    | (b0, y0) :: rest =>
      groupLoop (groupAvgHeight (sortByTop (validPairs text_blocks)) * ratio)
        [b0] y0 rest

/-- `SUPERNOTE_SCALE_FACTOR = 11.9` (`note_processor.py:326`). -/
def SUPERNOTE_SCALE_FACTOR : ℚ := 119 / 10

/-- Round to the nearest integer, ties to even — Python's `round`.
(Python rounds binary floats; no value in this development sits on an
exact tie, so the tie rule is never exercised.) -/
def roundHalfEven (q : ℚ) : ℤ :=
  let fl := ⌊q⌋
  let r := q - fl
  if r < 1 / 2 then fl
  else if 1 / 2 < r then fl + 1
  else if fl % 2 = 0 then fl else fl + 1

/-- Python's `round(q, 2)`. -/
def round2 (q : ℚ) : ℚ := (roundHalfEven (q * 100) : ℚ) / 100

structure GlyphBox where
  x : ℚ
  y : ℚ
  width : ℚ
  height : ℚ
deriving DecidableEq

/-- A word of the recognition payload: a spacer (`{"label": " "}`) or a
glyph with a bounding box. -/
inductive Word where
  | spacer
  | glyph (box : GlyphBox) (label : String)
deriving DecidableEq

/-- An element of the recognition payload: the leading raw-content marker
or a text line. -/
inductive Element where
  | rawContent
  | textLine (label : String) (words : List Word)
deriving DecidableEq

/-- Map a box into the device's coordinate space
(`note_processor.py:349-360`): divide by the scale factor, round to two
decimals. -/
def mapToDeviceBox (b : TextBlock) : GlyphBox :=
  { x := round2 (b.left / SUPERNOTE_SCALE_FACTOR)
    y := round2 (b.top / SUPERNOTE_SCALE_FACTOR)
    width := round2 ((b.right - b.left) / SUPERNOTE_SCALE_FACTOR)
    height := round2 ((b.bottom - b.top) / SUPERNOTE_SCALE_FACTOR) }

/-- The per-line word walk (`note_processor.py:338-366`): skip blank
blocks, emit a glyph per block, and a spacer after every block except the
line's last (by index). -/
def lineWordsAndTexts (line : List TextBlock) : List Word × List String :=
  line.enum.foldl
    (fun acc p =>
      let text := strTrim p.2.text
      if text = "" then acc
      else
        (acc.1 ++ [Word.glyph (mapToDeviceBox p.2) text] ++
           (if p.1 < line.length - 1 then [Word.spacer] else []),
         acc.2 ++ [text]))
    ([], [])

/-- The element list and line texts assembled by
`convert_ocr_to_supernote_format` (`note_processor.py:331-375`): the raw
marker first, then one text element per non-empty line, its label the
space-joined member texts. -/
def convertElements (blocks : List TextBlock) : List Element × List String :=
  (group_words_into_lines blocks (1 / 2)).foldl
    (fun acc line =>
      let ws := lineWordsAndTexts line
      if ws.1.isEmpty then acc
      else
        let lineText := String.intercalate " " ws.2
        (acc.1 ++ [Element.textLine lineText ws.1], acc.2 ++ [lineText]))
    ([Element.rawContent], [])

/-- Modelled from the spec (§6): the payload's base64+JSON wire encoding is
opaque to this development; an injective token encoding stands for it. -/
def encodeQ (q : ℚ) : Bytes :=
  [.n (if q < 0 then 1 else 0), .n q.num.natAbs, .n q.den]

def encodeWord : Word → Bytes
  | .spacer => [.n 0]
  | .glyph box lbl =>
    .n 1 :: .s lbl ::
      (encodeQ box.x ++ encodeQ box.y ++ encodeQ box.width ++ encodeQ box.height)

def encodeElement : Element → Bytes
  | .rawContent => [.n 0]
  | .textLine lbl ws => .n 1 :: .s lbl :: .n ws.length :: (ws.map encodeWord).flatten

/-- `convert_ocr_to_supernote_format(ocr_result, original_width,
original_height)` (`note_processor.py:300-388`).  The dimensions are
accepted and unused, as in the source. -/
def convert_ocr_to_supernote_format (res : OCRResult) (origWidth origHeight : ℕ) :
    Bytes :=
  let elems := (convertElements res.text_blocks).1
  .n elems.length :: (elems.map encodeElement).flatten

/-! ## The injection orchestrator (`inject_ocr_results`)

The filesystem is modelled as the target file's content plus the optional
backup copy; the timestamp adjustment (`os.utime`) has no observable
effect on the file contents and is not modelled. -/
structure PageResult where
  idx : ℤ
  res : OCRResult
  width : ℕ
  height : ℕ
deriving DecidableEq

structure FileState where
  target : Bytes
  backup : Option Bytes
deriving DecidableEq

inductive LogEv where
  | createdBackup
  | warnedOutOfRange (p : ℤ)
  | wrote
  | restoredBackup
deriving DecidableEq

/-- Python list indexing: negative indices count from the end; out of
range on either side is an `IndexError`. -/
def pyIdx (len : ℕ) (i : ℤ) : Option ℕ :=
  let j := if i < 0 then (len : ℤ) + i else i
  if 0 ≤ j ∧ j < (len : ℤ) then some j.toNat else none

/-- `notebook.pages[j].set_recogn_text(recogn_data)`. -/
def setPageRecogn (pages : List Page) (j : ℕ) (d : Bytes) : List Page :=
  pages.mapIdx (fun k p => if k = j then { p with recogn_text := .data d } else p)

/-- The per-page injection loop (`note_processor.py:582-593`): indices at
or past the page count are warned about and skipped; the rest overwrite
that page's recognition text (negative indices go through Python's
wrap-around indexing). -/
def applyResults (nb : Notebook) :
    List PageResult → Except String (Notebook × List LogEv)
  | [] => Except.ok (nb, [])
  | pr :: rest =>
    if (nb.pages.length : ℤ) ≤ pr.idx then
      match applyResults nb rest with
      | .error e => Except.error e
      | .ok r => Except.ok (r.1, .warnedOutOfRange pr.idx :: r.2)
    else
      match pyIdx nb.pages.length pr.idx with
      | none => Except.error "IndexError: list index out of range"
      | some j =>
        let d := convert_ocr_to_supernote_format pr.res pr.width pr.height
        applyResults { nb with pages := setPageRecogn nb.pages j d } rest

structure InjectArgs where
  page_results : List PageResult
  use_backup : Bool
  recogn_type : String
deriving DecidableEq

/-- `inject_ocr_results(note_path, page_results, backup_dir, recogn_type)`
(`note_processor.py:552-626`): back up, load, inject per page, rebuild and
validate; on success overwrite the target, on rebuild/validation failure
restore the backup if one exists and re-raise.  Loading and the injection
loop sit outside the `try`, so their failures propagate without a
restore. -/
def injectCore (fs1 : FileState) (log1 : List LogEv) (args : InjectArgs) :
    Except String Bool × FileState × List LogEv :=
  match parseNotebook fs1.target with
  | .error e => (.error e, fs1, log1)
  | .ok nb =>
    match applyResults nb args.page_results with
    | .error e => (.error e, fs1, log1)
    | .ok r =>
      match reconstruct_with_recognition r.1 args.recogn_type with
      | .ok bytes => (.ok true, { fs1 with target := bytes }, log1 ++ r.2 ++ [.wrote])
      | .error e =>
        match (if args.use_backup then fs1.backup else none) with
        | some bk => (.error e, { fs1 with target := bk }, log1 ++ r.2 ++ [.restoredBackup])
        | none => (.error e, fs1, log1 ++ r.2)

def inject_ocr_results (fs : FileState) (args : InjectArgs) :
    Except String Bool × FileState × List LogEv :=
  injectCore (if args.use_backup then { fs with backup := some fs.target } else fs)
    (if args.use_backup then [LogEv.createdBackup] else []) args

/-! ## Builder lemmas: extension, address stability, block readability -/
/-- `b'` extends `b` by appends whose labels all satisfy `P`. -/
def ExtOnly (P : Label → Prop) (b b' : NotebookBuilder) : Prop :=
  ∃ d e, b'.data = b.data ++ d ∧ b'.entries = b.entries ++ e ∧
    ∀ x ∈ e, P x.label

/-- Every recorded entry's block can be read back from the final buffer,
under any later extension of the buffer. -/
def EntriesReadable (b : NotebookBuilder) : Prop :=
  ∀ x ∈ b.entries, ∀ t, readBlock (b.data ++ t) x.addr = some x.content

/-! ## Extension lemmas for the pack functions -/
def isLayerLabel (pn : ℕ) (l : Label) : Prop :=
  (∃ nm, l = .pageLayerBitmap pn nm) ∨ (∃ nm, l = .pageLayerMeta pn nm)

def isPageLabel (pn : ℕ) (l : Label) : Prop := l.pageNum = some pn

/-- The recognition-status value decoded from the very last block a
`packPage` call appends (the page's metadata block). -/
def builtPageMetaStatus (b : NotebookBuilder) (pn : ℕ) (page : Page) :
    Option MVal :=
  match packPage b pn page with
  | .ok b2 =>
    match b2.entries.getLast? with
    | some e =>
      match decodeMetaS e.content with
      | some m => kvLookup m "RECOGNSTATUS"
      | none => none
    | none => none
  | .error _ => none

/-! ## Concrete fixtures for counterexamples and witnesses -/
def bFix : NotebookBuilder := NotebookBuilder.emptyB.append .typeMark [.s "note"]

/-- A page whose original metadata carries a recognition-status flag
although its recognition text is absent. -/
def pgStale : Page :=
  { metadata := [("RECOGNSTATUS", .nat 1)], layers := [], totalpath := none
    recogn_text := .absent, recogn_file := none }

/-- A page with non-empty recognition text. -/
def pgWithRec : Page :=
  { metadata := [("RECOGNSTATUS", .nat 1)], layers := [], totalpath := none
    recogn_text := .data [.s "rec"], recogn_file := none }

def nbFooterFix : Notebook :=
  { typeMark := [.s "note"], signature := expectedSignature, header := []
    cover := none, keywords := [], titles := [], links := [], pages := []
    footer := [(.extra "FOOBAR", .str "x"), (.extra "DIRTY", .str "7")] }

/-! ## Concrete notebook fixtures for injection claims -/
def mkLayer (nm : String) (c : Bytes) : Layer :=
  ⟨c, [("LAYERTYPE", .str "NOTE"), ("LAYERNAME", .str nm)]⟩

def pgFixA : Page :=
  { metadata := [("PAGESTYLE", .str "style_white"), ("PAGESTYLEMD5", .str "0"),
                 ("RECOGNSTATUS", .nat 1)]
    layers := [mkLayer "MAINLAYER" [.n 9, .n 8], mkLayer "LAYER1" [],
               mkLayer "LAYER2" [], mkLayer "LAYER3" [],
               mkLayer "BGLAYER" [.n 7]]
    totalpath := some [.n 1, .n 2]
    recogn_text := .data [.s "rec"]
    recogn_file := none }

def pgFixB : Page :=
  { metadata := [("PAGESTYLE", .str "user_pdf"), ("PAGESTYLEMD5", .str "abc")]
    layers := [mkLayer "MAINLAYER" [.n 1], mkLayer "LAYER1" [],
               mkLayer "LAYER2" [], mkLayer "LAYER3" [],
               mkLayer "BGLAYER" [.n 77, .n 78]]
    totalpath := none
    recogn_text := .absent
    recogn_file := none }

/-- A two-page notebook in the supported format version. -/
def nbFix2 : Notebook :=
  { typeMark := [.s "note"]
    signature := expectedSignature
    header := [("MODULE_LABEL", .str "snfile"), ("FILE_RECOGN_TYPE", .str "0")]
    cover := none
    keywords := []
    titles := [(3, [.n 5])]
    links := []
    pages := [pgFixA, pgFixB]
    footer := [(.extra "DIRTY", .str "0"), (.extra "FOOBAR", .str "x")] }

def fileFix : Bytes :=
  match buildNotebookBytes nbFix2 with
  | .ok f => f
  | .error _ => []

def fsFix : FileState := ⟨fileFix, none⟩

/-- An empty OCR result (payload with only the raw marker). -/
def emptyOCR : OCRResult := ⟨[]⟩

def argsTwoPages : InjectArgs :=
  ⟨[⟨0, emptyOCR, 5, 5⟩, ⟨1, emptyOCR, 5, 5⟩], false, "keep"⟩

/-- The same notebook carrying an older format signature: the parser
accepts it, the codec refuses to rebuild it. -/
def nbOld : Notebook := { nbFix2 with signature := "SN_FILE_VER_20220011" }

def fileOld : Bytes :=
  match buildNotebookBytes nbOld with
  | .ok f => f
  | .error _ => []

def fsOld : FileState := ⟨fileOld, none⟩

def fsOldB : FileState := ⟨fileOld, none⟩

def argsOld : InjectArgs := ⟨[], true, "keep"⟩

/-! ## Claim C7 — the return value of a successful injection -/
/-- The spec's notion of the result: "the count of pages actually updated"
(a definition following the spec's words, for comparison with the
source's return value). -/
def pagesActuallyUpdated (nb : Notebook) (rs : List PageResult) : ℕ :=
  (rs.filter (fun pr => !decide ((nb.pages.length : ℤ) ≤ pr.idx) &&
    (pyIdx nb.pages.length pr.idx).isSome)).length

/-- Python's numeric reading of a boolean (`True == 1`, `False == 0`). -/
def pyBoolToNat (b : Bool) : ℕ := cond b 1 0

/-! ## Claim C8 — the two-block same-row scenario -/
def helloBlock : TextBlock :=
  { text := "Hello", left := 10, top := 10, right := 50, bottom := 30, confidence := 1 }

def worldBlock : TextBlock :=
  { text := "World", left := 60, top := 10, right := 100, bottom := 30, confidence := 1 }

/-! ## Claim C9 — separated blocks yield one line per block -/
/-- Vertical separation of two blocks' `[top, bottom]` ranges by more than
`thr`. -/
def sepBy (thr : ℚ) (a b : TextBlock) : Prop :=
  a.bottom + thr < b.top ∨ b.bottom + thr < a.top

/-- The claim's computed threshold: half the mean block height. -/
def groupThreshold (blocks : List TextBlock) : ℚ :=
  (if (blocks.map (fun b => b.bottom - b.top)).isEmpty then 20
   else (blocks.map (fun b => b.bottom - b.top)).sum /
     ((blocks.map (fun b => b.bottom - b.top)).length : ℚ)) * (1 / 2)

instance (thr : ℚ) (a b : TextBlock) : Decidable (sepBy thr a b) := by
  unfold sepBy
  infer_instance

def blkA : TextBlock :=
  { text := "a", left := 0, top := 0, right := 10, bottom := 10, confidence := 1 }

def blkB : TextBlock :=
  { text := "b", left := 0, top := 100, right := 10, bottom := 110, confidence := 1 }

/-! ## Claim C1 — structural round trip: definitions

`pageCore` is the claim's structural view of a page: layer names and
contents, total path, recognition payloads, and every metadata field that
is not a rebuilt block address (`ADDR_KEYS`). -/
def layerCore (l : Layer) : Option String × Bytes × SKVs :=
  (l.get_name, l.content, kvStripKeys ["LAYERBITMAP"] l.metadata)

def pageCore (p : Page) :
    List (Option String × Bytes × SKVs) × Option Bytes × RecText ×
      Option Bytes × SKVs :=
  (p.layers.map layerCore, p.totalpath, p.recogn_text, p.recogn_file,
   kvStripKeys ADDR_KEYS p.metadata)

/-- The §3 invariants of a valid page: the five named layer slots in fixed
order; a style (with hash for `user_` styles); a recognition-status flag
and stored recognition addresses consistent with the actual recognition
data; no placeholder or empty payloads. -/
def validPage (p : Page) : Bool :=
  decide (p.layers.map Layer.get_name = LAYER_KEYS.map some)
  && (match p.get_style with
      | some st => !(strStartsWith st "user_") || (p.get_style_hash).isSome
      | none => false)
  && (if rtIsNonempty p.recogn_text then
        decide (kvLookup p.metadata "RECOGNSTATUS" = some (.nat 1))
      else
        (match kvLookup p.metadata "RECOGNTEXT" with
         | none => true
         | some (.nat 0) => true
         | _ => false))
  && (match p.recogn_text with
      | .placeholder => false
      | .data b => decide (0 < b.length)
      | .absent => true)
  && (match p.recogn_file with
      | some rf => decide (0 < rf.length)
      | none => true)
  && (if p.recogn_file.isSome then true
      else (match kvLookup p.metadata "RECOGNFILE" with
         | none => true
         | some (.nat 0) => true
         | _ => false))

/-- Pages that share a style-template label share the template content (in
a well-formed file both reference the same block). -/
def styleCoherent (nb : Notebook) : Bool :=
  nb.pages.all fun p => nb.pages.all fun q =>
    match styleLabelOf p, styleLabelOf q with
    | .ok lp, .ok lq => decide (lp ≠ lq) || decide (bgContent p = bgContent q)
    | _, _ => true

/-- A valid notebook (§3): supported signature, valid pages, coherent
style templates. -/
def validNb (nb : Notebook) : Bool :=
  decide (nb.signature = expectedSignature)
    && nb.pages.all validPage && styleCoherent nb

def kvEraseFirst {K V : Type} [DecidableEq K] : List (K × V) → K → List (K × V)
  | [], _ => []
  | (k', v) :: rest, k => if k = k' then rest else (k', v) :: kvEraseFirst rest k

/-! ## C1 infrastructure: stable read facts and label classes -/
/-- Offset `a` of the growing buffer reads back block content `c`, under
any later extension. -/
def ReadsAt (b : NotebookBuilder) (a : ℕ) (c : Bytes) : Prop :=
  ∀ t, readBlock (b.data ++ t) a = some c

/-- The block most recently filed under `l` is at a positive offset and
reads back `c`, under any later extension. -/
def AddrRead (b : NotebookBuilder) (l : Label) (c : Bytes) : Prop :=
  0 < b.get_block_address l ∧ ReadsAt b (b.get_block_address l) c

/-- Labels appended by the fixed prefix of pack steps (type marker through
links). -/
def headLabel : Label → Prop
  | .typeMark => True
  | .signatureL => True
  | .headerL => True
  | .cover2L => True
  | .titleMeta _ => True
  | .keywordMeta _ => True
  | .linkMeta _ => True
  | _ => False

/-- No entry filed under a label of page `pn` or later. -/
def NoPageLabelsFrom (pn : ℕ) (b : NotebookBuilder) : Prop :=
  ∀ x ∈ b.entries, ∀ m, x.label.pageNum = some m → m < pn

/-- Labels appended after the header within the fixed prefix (cover,
keywords, titles, links). -/
def auxLabel : Label → Prop
  | .cover2L => True
  | .titleMeta _ => True
  | .keywordMeta _ => True
  | .linkMeta _ => True
  | _ => False

/-! ## C1: the backgrounds stage -/
def styleOnly : Label → Prop
  | .style _ => True
  | _ => False

/-- The backgrounds-fold invariant: every filed style template reads back
the background content of some notebook page carrying that style label. -/
def BgInv (nb : Notebook) (b : NotebookBuilder) : Prop :=
  ∀ s, 0 < b.get_block_address (.style s) →
    ∃ q ∈ nb.pages, styleLabelOf q = .ok s ∧
      ReadsAt b (b.get_block_address (.style s)) (bgContent q)

/-- The style facts carried into per-page packing: every valid page's style
template is filed at a positive address and reads back that page's
background content. -/
def StyleFacts (nb : Notebook) (b : NotebookBuilder) : Prop :=
  ∀ p ∈ nb.pages, ∀ lbl, styleLabelOf p = .ok lbl →
    0 < b.get_block_address (.style lbl) ∧
    ReadsAt b (b.get_block_address (.style lbl)) (bgContent p)

/-! ## C1: per-layer packing and parse-back -/
/-- After packing, the layer filed under `(pn, name)` has a metadata block
that parses back to the original layer: same content (through the bitmap
address `lb`), metadata equal to the original updated at `LAYERNAME` and
`LAYERBITMAP`. -/
def LayerParsed (b : NotebookBuilder) (pn : ℕ) (name : String)
    (layer : Layer) : Prop :=
  0 < b.get_block_address (.pageLayerMeta pn name) ∧
  ∃ lb, ReadsAt b (b.get_block_address (.pageLayerMeta pn name))
      (encodeMetaS (kvUpdate (kvUpdate layer.metadata "LAYERNAME" (.str name))
        "LAYERBITMAP" (.nat lb))) ∧
    0 < lb ∧ ReadsAt b lb layer.content

/-- Labels a page's layer loop may append. -/
def layerLabelsOf (pn : ℕ) (names : List String) (l : Label) : Prop :=
  (∃ nm ∈ names, l = .pageLayerBitmap pn nm) ∨
    (∃ nm ∈ names, l = .pageLayerMeta pn nm)

/-- Labels the post-layer page appends may use. -/
def pblockLabel (pn : ℕ) (l : Label) : Prop :=
  l = .pageTotalPath pn ∨ l = .pageRecognText pn ∨ l = .pageRecognFile pn

/-- Default page used only for total list indexing in proofs. -/
def emptyPage : Page := ⟨[], [], none, .absent, none⟩

/-- The notebook parsed back from the two-page fixture file. -/
def nbParsedFix : Notebook :=
  match parseNotebook fileFix with
  | .ok nb => nb
  | .error _ => nbFix2

theorem kvLookup_kvUpdate_self {K V : Type} [DecidableEq K] (m : List (K × V)) (k : K) (v : V) :
    kvLookup (kvUpdate m k v) k = some v := by
  induction m with
  | nil => simp [kvUpdate, kvLookup]
  | cons p rest ih =>
    by_cases h : k = p.1
    · simp [kvUpdate, kvLookup, h]
    · simp [kvUpdate, kvLookup, h, ih]

theorem kvLookup_kvUpdate_ne {K V : Type} [DecidableEq K] (m : List (K × V)) (k k' : K) (v : V) (h : k' ≠ k) :
    kvLookup (kvUpdate m k v) k' = kvLookup m k' := by
  induction m with
  | nil => simp [kvUpdate, kvLookup, h]
  | cons p rest ih =>
    by_cases hk : k = p.1
    · subst hk
      simp [kvUpdate, kvLookup, h]
    · by_cases hk' : k' = p.1
      · simp [kvUpdate, kvLookup, hk, hk']
      · simp [kvUpdate, kvLookup, hk, hk', ih]

/-- Updating a key with the value it already has is the identity. -/
theorem kvUpdate_self {K V : Type} [DecidableEq K] (m : List (K × V)) (k : K) (v : V)
    (h : kvLookup m k = some v) : kvUpdate m k v = m := by
  induction m with
  | nil => simp [kvLookup] at h
  | cons p rest ih =>
    by_cases hk : k = p.1
    · simp [kvLookup, hk] at h
      simp [kvUpdate, hk, ← h]
    · simp [kvLookup, hk] at h
      simp [kvUpdate, hk, ih h]

/-- Stripping a key absorbs an update at that key. -/
theorem kvStripKeys_kvUpdate {K V : Type} [DecidableEq K] (ks : List K) (m : List (K × V)) (k : K) (v : V)
    (hk : k ∈ ks) : kvStripKeys ks (kvUpdate m k v) = kvStripKeys ks m := by
  induction m with
  | nil => simp [kvUpdate, kvStripKeys, hk]
  | cons p rest ih =>
    by_cases h : k = p.1
    · subst h
      simp [kvUpdate, kvStripKeys, hk]
    · simp only [kvUpdate, if_neg h, kvStripKeys, List.filter_cons]
      by_cases hp : p.1 ∈ ks
      · simpa [hp, kvStripKeys] using ih
      · simpa [hp, kvStripKeys] using ih

theorem kvLookup_append_left {K V : Type} [DecidableEq K] (m₁ m₂ : List (K × V)) (k : K)
    (h : (kvLookup m₁ k).isSome) :
    kvLookup (m₁ ++ m₂) k = kvLookup m₁ k := by
  induction m₁ with
  | nil => simp [kvLookup] at h
  | cons p rest ih =>
    by_cases hk : k = p.1
    · simp [kvLookup, hk]
    · simp [kvLookup, hk] at h ⊢
      exact ih h

theorem kvLookup_append_right {K V : Type} [DecidableEq K] (m₁ m₂ : List (K × V)) (k : K)
    (h : kvLookup m₁ k = none) :
    kvLookup (m₁ ++ m₂) k = kvLookup m₂ k := by
  induction m₁ with
  | nil => simp
  | cons p rest ih =>
    by_cases hk : k = p.1
    · simp [kvLookup, hk] at h
    · simp [kvLookup, hk] at h ⊢
      exact ih h

theorem kvUpdate_length_mono {K V : Type} [DecidableEq K] (m : List (K × V)) (k : K) (v : V) :
    m.length ≤ (kvUpdate m k v).length := by
  induction m with
  | nil => simp [kvUpdate]
  | cons p rest ih =>
    by_cases h : k = p.1
    · simp [kvUpdate, h]
    · simp only [kvUpdate, if_neg h, List.length_cons]
      omega

theorem kvSetdefault_length_mono {K V : Type} [DecidableEq K] (m : List (K × V)) (k : K) (v : V) :
    m.length ≤ (kvSetdefault m k v).length := by
  unfold kvSetdefault
  by_cases h : kvContains m k <;> simp [h]

theorem decodeNatRun_map (vs : List ℕ) (r : Bytes) :
    decodeNatRun vs.length (vs.map .n ++ r) = some (vs, r) := by
  induction vs with
  | nil => simp [decodeNatRun]
  | cons v vs ih => simp [decodeNatRun, ih]

theorem decodeMVal_encodeMVal (v : MVal) (r : Bytes) :
    decodeMVal (encodeMVal v ++ r) = some (v, r) := by
  cases v with
  | nat v => rfl
  | str v => rfl
  | natList vs =>
    have h : encodeMVal (MVal.natList vs) ++ r
        = .n 2 :: .n vs.length :: (vs.map .n ++ r) := by
      simp [encodeMVal]
    rw [h]
    simp only [decodeMVal, decodeNatRun_map]

theorem decodeFKey_encodeFKey (k : FKey) (r : Bytes) :
    decodeFKey (encodeFKey k ++ r) = some (k, r) := by
  cases k <;> rfl

theorem decodeSPairs_encode (m : SKVs) (r : Bytes) :
    decodeSPairs m.length ((m.map (fun p => Atom.s p.1 :: encodeMVal p.2)).flatten ++ r) =
      some (m, r) := by
  induction m with
  | nil => simp [decodeSPairs]
  | cons p rest ih =>
    have h : ((p :: rest).map (fun p => Atom.s p.1 :: encodeMVal p.2)).flatten ++ r
        = .s p.1 :: (encodeMVal p.2 ++
            ((rest.map (fun p => Atom.s p.1 :: encodeMVal p.2)).flatten ++ r)) := by
      simp
    rw [h]
    simp only [List.length_cons, decodeSPairs, decodeMVal_encodeMVal, ih]

theorem decodeMetaS_encodeMetaS (m : SKVs) :
    decodeMetaS (encodeMetaS m) = some m := by
  have h := decodeSPairs_encode m []
  simp only [List.append_nil] at h
  simp [encodeMetaS, decodeMetaS, h]

theorem decodeFPairs_encode (m : FKVs) (r : Bytes) :
    decodeFPairs m.length ((m.map (fun p => encodeFKey p.1 ++ encodeMVal p.2)).flatten ++ r) =
      some (m, r) := by
  induction m with
  | nil => simp [decodeFPairs]
  | cons p rest ih =>
    have h : ((p :: rest).map (fun p => encodeFKey p.1 ++ encodeMVal p.2)).flatten ++ r
        = encodeFKey p.1 ++ (encodeMVal p.2 ++
            ((rest.map (fun p => encodeFKey p.1 ++ encodeMVal p.2)).flatten ++ r)) := by
      simp
    rw [h]
    rw [decodeFPairs.eq_def]
    simp only [List.length_cons, decodeFKey_encodeFKey, decodeMVal_encodeMVal, ih]

theorem decodeMetaF_encodeMetaF (m : FKVs) :
    decodeMetaF (encodeMetaF m) = some m := by
  have h := decodeFPairs_encode m []
  simp only [List.append_nil] at h
  simp [encodeMetaF, decodeMetaF, h]

theorem readBlock_mono {f : Bytes} {a : ℕ} {c : Bytes} (g : Bytes)
    (h : readBlock f a = some c) : readBlock (f ++ g) a = some c := by
  unfold readBlock at h ⊢
  cases hget : f.get? a with
  | none => rw [hget] at h; simp at h
  | some atom =>
    rw [hget] at h
    have hlt : a < f.length := by
      by_contra hya
      rw [List.get?_eq_none.mpr (by omega)] at hget
      cases hget
    cases atom with
    | s v => simp [atomNat] at h
    | n len =>
      simp only [Option.bind, atomNat] at h
      by_cases hle : a + 1 + len ≤ f.length
      · rw [if_pos hle] at h
        have hget' : (f ++ g).get? a = some (.n len) := by
          rw [List.get?_append hlt]; exact hget
        rw [hget']
        simp only [Option.bind, atomNat]
        have hle' : a + 1 + len ≤ (f ++ g).length := by
          simp only [List.length_append]; omega
        rw [if_pos hle']
        rw [← h]
        congr 1
        have hdl : (List.drop (a + 1) f).length = f.length - (a + 1) := by simp
        rw [List.drop_append_of_le_length (by omega)]
        rw [List.take_append_of_le_length (by omega)]
      · rw [if_neg hle] at h
        simp at h

theorem readBlock_at_append (d c r : Bytes) :
    readBlock (d ++ blockBytes c ++ r) d.length = some c := by
  have h0 : readBlock (d ++ blockBytes c) d.length = some c := by
    unfold readBlock
    have hget : (d ++ blockBytes c).get? d.length = some (.n c.length) := by
      rw [List.get?_append_right (Nat.le_refl _)]
      simp [blockBytes]
    rw [hget]
    simp only [Option.bind, atomNat]
    have hle : d.length + 1 + c.length ≤ (d ++ blockBytes c).length := by
      simp [blockBytes]
      omega
    rw [if_pos hle]
    have hdrop : (d ++ blockBytes c).drop (d.length + 1) = c := by
      have hsplit : d ++ blockBytes c = (d ++ [.n c.length]) ++ c := by
        simp [blockBytes]
      rw [hsplit]
      have hlen : (d ++ [Atom.n c.length]).length = d.length + 1 := by simp
      rw [← hlen, List.drop_left]
    rw [hdrop, List.take_length]
  exact readBlock_mono r h0

theorem extOnly_refl (P : Label → Prop) (b : NotebookBuilder) : ExtOnly P b b :=
  ⟨[], [], by simp, by simp, by simp⟩

theorem extOnly_trans {P : Label → Prop} {b b' b'' : NotebookBuilder}
    (h1 : ExtOnly P b b') (h2 : ExtOnly P b' b'') : ExtOnly P b b'' := by
  obtain ⟨d1, e1, hd1, he1, hp1⟩ := h1
  obtain ⟨d2, e2, hd2, he2, hp2⟩ := h2
  refine ⟨d1 ++ d2, e1 ++ e2, ?_, ?_, ?_⟩
  · rw [hd2, hd1, List.append_assoc]
  · rw [he2, he1, List.append_assoc]
  · intro x hx
    rcases List.mem_append.mp hx with h | h
    · exact hp1 x h
    · exact hp2 x h

theorem extOnly_mono {P Q : Label → Prop} {b b' : NotebookBuilder}
    (hpq : ∀ l, P l → Q l) (h : ExtOnly P b b') : ExtOnly Q b b' := by
  obtain ⟨d, e, hd, he, hp⟩ := h
  exact ⟨d, e, hd, he, fun x hx => hpq _ (hp x hx)⟩

theorem extOnly_append (P : Label → Prop) (b : NotebookBuilder) (l : Label)
    (c : Bytes) (hl : P l) : ExtOnly P b (b.append l c) :=
  ⟨blockBytes c, [⟨l, b.data.length, c⟩], rfl, rfl, by simpa⟩

theorem extOnly_rawAppend (P : Label → Prop) (b : NotebookBuilder) (a : Atom) :
    ExtOnly P b (b.rawAppend a) :=
  ⟨[a], [], rfl, by simp [NotebookBuilder.rawAppend], by simp⟩

theorem extOnly_data_length {P : Label → Prop} {b b' : NotebookBuilder}
    (h : ExtOnly P b b') : b.data.length ≤ b'.data.length := by
  obtain ⟨d, _, hd, _, _⟩ := h
  simp [hd]

/-- A label no appended entry carries keeps its address across an
extension. -/
theorem gba_of_extOnly {P : Label → Prop} {b b' : NotebookBuilder}
    (h : ExtOnly P b b') (l : Label) (hne : ∀ l', P l' → l' ≠ l) :
    b'.get_block_address l = b.get_block_address l := by
  obtain ⟨d, e, _, he, hp⟩ := h
  unfold NotebookBuilder.get_block_address
  rw [he, List.filter_append]
  have hef : e.filter (fun x => x.label = l) = [] := by
    rw [List.filter_eq_nil]
    intro x hx
    simpa using hne x.label (hp x hx)
  rw [hef, List.append_nil]

theorem dup_list_of_extOnly {P : Label → Prop} {b b' : NotebookBuilder}
    (h : ExtOnly P b b') (l : Label) (hne : ∀ l', P l' → l' ≠ l) :
    b'.get_duplicate_block_address_list l = b.get_duplicate_block_address_list l := by
  obtain ⟨d, e, _, he, hp⟩ := h
  unfold NotebookBuilder.get_duplicate_block_address_list
  rw [he, List.filter_append]
  have hef : e.filter (fun x => x.label = l) = [] := by
    rw [List.filter_eq_nil]
    intro x hx
    simpa using hne x.label (hp x hx)
  rw [hef, List.append_nil]

theorem gba_append_self (b : NotebookBuilder) (l : Label) (c : Bytes) :
    (b.append l c).get_block_address l = b.data.length := by
  unfold NotebookBuilder.get_block_address NotebookBuilder.append
  rw [List.filter_append]
  simp [List.getLast?_concat]

theorem gba_append_ne (b : NotebookBuilder) (l l' : Label) (c : Bytes)
    (h : l' ≠ l) : (b.append l c).get_block_address l' = b.get_block_address l' := by
  exact gba_of_extOnly (extOnly_append (· = l) b l c rfl) l'
    (fun x hx => hx ▸ fun he => h he.symm)

theorem entriesReadable_empty : EntriesReadable .emptyB := by
  intro x hx
  simp [NotebookBuilder.emptyB] at hx

theorem entriesReadable_append {b : NotebookBuilder} (h : EntriesReadable b)
    (l : Label) (c : Bytes) : EntriesReadable (b.append l c) := by
  intro x hx t
  unfold NotebookBuilder.append at hx ⊢
  simp only at hx ⊢
  rcases List.mem_append.mp hx with hmem | hmem
  · rw [List.append_assoc]
    exact h x hmem (blockBytes c ++ t)
  · simp at hmem
    subst hmem
    simp only
    rw [List.append_assoc]
    have := readBlock_at_append b.data c t
    rw [List.append_assoc] at this
    exact this

theorem entriesReadable_rawAppend {b : NotebookBuilder} (h : EntriesReadable b)
    (a : Atom) : EntriesReadable (b.rawAppend a) := by
  intro x hx t
  unfold NotebookBuilder.rawAppend at hx ⊢
  simp only at hx ⊢
  rw [List.append_assoc]
  exact h x hx ([a] ++ t)

/-- An address recorded under an extension-stable label is positive as soon
as something was already in the buffer when it was appended. -/
theorem gba_append_self_pos (b : NotebookBuilder) (l : Label) (c : Bytes)
    (h : b.data ≠ []) : 0 < (b.append l c).get_block_address l := by
  rw [gba_append_self]
  exact List.length_pos.mpr h

theorem packLayer_extOnly {pn : ℕ} {page : Page} {b : NotebookBuilder}
    {layer : Layer} {b2 : NotebookBuilder}
    (h : packLayer pn page b layer = .ok b2) :
    ExtOnly (isLayerLabel pn) b b2 := by
  unfold packLayer at h
  split at h
  · cases h
    exact extOnly_refl _ _
  · split at h
    · split at h
      · cases h
      · cases h
        exact extOnly_append _ _ _ _ (Or.inr ⟨_, rfl⟩)
    · cases h
      exact extOnly_trans
        (extOnly_append _ _ _ _ (Or.inl ⟨_, rfl⟩))
        (extOnly_append _ _ _ _ (Or.inr ⟨_, rfl⟩))

theorem packLayers_extOnly {pn : ℕ} {page : Page} :
    ∀ {layers : List Layer} {b b2 : NotebookBuilder},
    packLayersFold pn page b layers = .ok b2 →
    ExtOnly (isLayerLabel pn) b b2 := by
  intro layers
  induction layers with
  | nil =>
    intro b b2 h
    cases h
    exact extOnly_refl _ _
  | cons layer rest ih =>
    intro b b2 h
    unfold packLayersFold at h
    cases hl : packLayer pn page b layer with
    | error e => rw [hl] at h; cases h
    | ok b1 =>
      rw [hl] at h
      exact extOnly_trans (packLayer_extOnly hl) (ih h)

theorem isLayerLabel_isPageLabel {pn : ℕ} {l : Label} (h : isLayerLabel pn l) :
    isPageLabel pn l := by
  rcases h with ⟨nm, rfl⟩ | ⟨nm, rfl⟩ <;> rfl

theorem packPageBlocks_extOnly (b : NotebookBuilder) (pn : ℕ) (page : Page) :
    ExtOnly (isPageLabel pn) b (packPageBlocks b pn page) := by
  have h1 : ∀ b0 : NotebookBuilder, ExtOnly (isPageLabel pn) b0
      (match page.totalpath with
       | some tp => b0.append (.pageTotalPath pn) tp
       | none => b0) := by
    intro b0
    cases page.totalpath
    · exact extOnly_refl _ _
    · exact extOnly_append _ _ _ _ rfl
  have h2 : ∀ b0 : NotebookBuilder, ExtOnly (isPageLabel pn) b0
      (match rtGuard page.recogn_text with
       | some rt => b0.append (.pageRecognText pn) rt
       | none => b0) := by
    intro b0
    cases rtGuard page.recogn_text
    · exact extOnly_refl _ _
    · exact extOnly_append _ _ _ _ rfl
  have h3 : ∀ b0 : NotebookBuilder, ExtOnly (isPageLabel pn) b0
      (match page.recogn_file with
       | some rf => if 0 < rf.length then b0.append (.pageRecognFile pn) rf else b0
       | none => b0) := by
    intro b0
    cases page.recogn_file with
    | none => exact extOnly_refl _ _
    | some rf =>
      by_cases hrf : 0 < rf.length
      · simp only [if_pos hrf]
        exact extOnly_append _ _ _ _ rfl
      · simp only [if_neg hrf]
        exact extOnly_refl _ _
  exact extOnly_trans (h1 b) (extOnly_trans (h2 _) (h3 _))

theorem packPage_extOnly {b : NotebookBuilder} {pn : ℕ} {page : Page}
    {b2 : NotebookBuilder} (h : packPage b pn page = .ok b2) :
    ExtOnly (isPageLabel pn) b b2 := by
  unfold packPage at h
  cases hf : packLayersFold pn page b page.layers with
  | error e => rw [hf] at h; cases h
  | ok b1 =>
    rw [hf] at h
    cases h
    exact extOnly_trans
      (extOnly_mono (fun _ => isLayerLabel_isPageLabel) (packLayers_extOnly hf))
      (extOnly_trans (packPageBlocks_extOnly b1 pn page)
        (extOnly_append _ _ _ _ rfl))

/-! ## Page metadata lemmas -/
theorem kvLookup_foldl_update_ne (keys : List String) (m : SKVs)
    (f : String → MVal) (k : String) (hk : k ∉ keys) :
    kvLookup (keys.foldl (fun m p => kvUpdate m p (f p)) m) k = kvLookup m k := by
  induction keys generalizing m with
  | nil => rfl
  | cons p rest ih =>
    have hkp : k ≠ p := fun he => hk (he ▸ List.mem_cons_self p rest)
    have hkr : k ∉ rest := fun he => hk (List.mem_cons_of_mem p he)
    simp only [List.foldl_cons]
    rw [ih (kvUpdate m p (f p)) hkr, kvLookup_kvUpdate_ne _ _ _ _ hkp]

/-- The rebuilt page metadata's recognition-status entry: `1` when a
recognition-text block was appended (address positive), untouched from the
page's own metadata otherwise. -/
theorem pageMetaKVs_recognStatus (b : NotebookBuilder) (pn : ℕ) (page : Page) :
    kvLookup (pageMetaKVs b pn page) "RECOGNSTATUS" =
      (if 0 < b.get_block_address (.pageRecognText pn) then some (.nat 1)
       else kvLookup page.metadata "RECOGNSTATUS") := by
  unfold pageMetaKVs
  have h1 : kvLookup (LAYER_KEYS.foldl
      (fun m prop => kvUpdate m prop (.nat (b.get_block_address (.pageLayerMeta pn prop))))
      page.metadata) "RECOGNSTATUS" = kvLookup page.metadata "RECOGNSTATUS" := by
    exact kvLookup_foldl_update_ne _ _ _ _ (by decide)
  by_cases hrt : 0 < b.get_block_address (.pageRecognText pn)
  · rw [if_pos hrt]
    simp only [if_pos hrt]
    by_cases hrf : 0 < b.get_block_address (.pageRecognFile pn)
    · simp only [if_pos hrf]
      rw [kvLookup_kvUpdate_ne _ _ _ _ (by decide), kvLookup_kvUpdate_self]
    · simp only [if_neg hrf]
      rw [kvLookup_kvUpdate_self]
  · rw [if_neg hrt]
    simp only [if_neg hrt]
    by_cases hrf : 0 < b.get_block_address (.pageRecognFile pn)
    · simp only [if_pos hrf]
      rw [kvLookup_kvUpdate_ne _ _ _ _ (by decide),
        kvLookup_kvUpdate_ne _ _ _ _ (by decide), h1]
    · simp only [if_neg hrf]
      rw [kvLookup_kvUpdate_ne _ _ _ _ (by decide), h1]

/-- After the per-page block appends, the recognition-text address is
positive exactly when the source's guard passed (given a non-empty buffer
and no prior block under that label). -/
theorem packPageBlocks_rt_addr_pos (b : NotebookBuilder) (pn : ℕ) (page : Page)
    (hne : b.data ≠ []) (hsome : (rtGuard page.recogn_text).isSome) :
    0 < (packPageBlocks b pn page).get_block_address (.pageRecognText pn) := by
  unfold packPageBlocks
  obtain ⟨rt, hrt⟩ := Option.isSome_iff_exists.mp hsome
  rw [hrt]
  set b1 : NotebookBuilder := (match page.totalpath with
    | some tp => b.append (.pageTotalPath pn) tp
    | none => b) with hb1
  have hb1ne : b1.data ≠ [] := by
    rw [hb1]
    cases page.totalpath with
    | none => exact hne
    | some tp =>
      simp only [NotebookBuilder.append]
      intro hcon
      exact hne (List.append_eq_nil.mp hcon).1
  have hmid : 0 < (b1.append (.pageRecognText pn) rt).get_block_address
      (.pageRecognText pn) := gba_append_self_pos b1 _ rt hb1ne
  cases page.recogn_file with
  | none => exact hmid
  | some rf =>
    by_cases hrf : 0 < rf.length
    · simp only [if_pos hrf]
      rw [gba_append_ne _ _ _ _ (by simp)]
      exact hmid
    · simp only [if_neg hrf]
      exact hmid

/-- With no recognition text to append, the recognition-text address is
whatever the incoming builder records. -/
theorem packPageBlocks_rt_addr_none (b : NotebookBuilder) (pn : ℕ) (page : Page)
    (hnone : rtGuard page.recogn_text = none) :
    (packPageBlocks b pn page).get_block_address (.pageRecognText pn) =
      b.get_block_address (.pageRecognText pn) := by
  unfold packPageBlocks
  rw [hnone]
  have h1 : (match page.totalpath with
      | some tp => b.append (.pageTotalPath pn) tp
      | none => b).get_block_address (.pageRecognText pn) =
        b.get_block_address (.pageRecognText pn) := by
    cases page.totalpath with
    | none => rfl
    | some tp => exact gba_append_ne _ _ _ _ (by simp)
  cases page.recogn_file with
  | none => exact h1
  | some rf =>
    by_cases hrf : 0 < rf.length
    · simp only [if_pos hrf]
      rw [gba_append_ne _ _ _ _ (by simp)]
      exact h1
    · simp only [if_neg hrf]
      exact h1

theorem isLayerLabel_ne_rt {pn : ℕ} (l : Label) (h : isLayerLabel pn l) :
    l ≠ .pageRecognText pn := by
  rcases h with ⟨nm, rfl⟩ | ⟨nm, rfl⟩ <;> simp

/-! ## Claim C4 — recognition-status flag -/
/-- C4 counterexample: a page packed by `pack_pages_with_recognition` whose
original metadata already carries `RECOGNSTATUS = 1` but whose
`recognitionText` is absent still has the done-flag set in its rebuilt
metadata block, so "flag set iff text present and non-empty" fails in the
only-if direction (the source never clears a stale flag). -/
theorem recogn_status_iff_counterexample :
    rtIsNonempty pgStale.recogn_text = false ∧
    builtPageMetaStatus bFix 1 pgStale = some (.nat 1) := by decide

/-- C4 (amended): in the rebuilt page metadata the recognition-status flag
is set to the done value whenever `recognitionText` is present and
non-empty (the placeholder counting as absent); when it is not, the flag
entry is carried over from the page's original metadata unchanged — so the
claimed "iff" holds exactly for pages whose original metadata is
consistent with their recognition text. -/
theorem pack_page_recogn_status (b : NotebookBuilder) (pn : ℕ) (page : Page)
    (hok : ∃ b2, packPage b pn page = Except.ok b2)
    (hfresh : b.get_block_address (.pageRecognText pn) = 0)
    (hne : b.data ≠ []) :
    builtPageMetaStatus b pn page =
      (if rtIsNonempty page.recogn_text then some (MVal.nat 1)
       else kvLookup page.metadata "RECOGNSTATUS") := by
  obtain ⟨b2, hb2⟩ := hok
  unfold builtPageMetaStatus
  rw [hb2]
  unfold packPage at hb2
  cases hf : packLayersFold pn page b page.layers with
  | error e => rw [hf] at hb2; cases hb2
  | ok b1 =>
    rw [hf] at hb2
    cases hb2
    simp only [NotebookBuilder.append, List.getLast?_concat, decodeMetaS_encodeMetaS]
    rw [pageMetaKVs_recognStatus]
    have hext := packLayers_extOnly hf
    have hb1ne : b1.data ≠ [] := by
      have hlen := extOnly_data_length hext
      have : 0 < b1.data.length := lt_of_lt_of_le (List.length_pos.mpr hne) hlen
      exact List.length_pos.mp this
    cases hsome : rtGuard page.recogn_text with
    | some rt =>
      have hpos := packPageBlocks_rt_addr_pos b1 pn page hb1ne (by rw [hsome]; rfl)
      rw [if_pos hpos]
      have : rtIsNonempty page.recogn_text = true := by
        unfold rtIsNonempty
        rw [hsome]; rfl
      rw [this, if_pos rfl]
    | none =>
      have hz : (packPageBlocks b1 pn page).get_block_address (.pageRecognText pn) = 0 := by
        rw [packPageBlocks_rt_addr_none b1 pn page hsome,
          gba_of_extOnly hext _ (fun l hl => isLayerLabel_ne_rt l hl), hfresh]
      rw [hz]
      simp only [lt_irrefl, if_false]
      have : rtIsNonempty page.recogn_text = false := by
        unfold rtIsNonempty
        rw [hsome]; rfl
      rw [this]
      simp

/-- Witness for `pack_page_recogn_status` at a concrete builder and page
with non-empty recognition text. -/
theorem pack_page_recogn_status_witness :
    builtPageMetaStatus bFix 1 pgWithRec =
      (if rtIsNonempty pgWithRec.recogn_text then some (MVal.nat 1)
       else kvLookup pgWithRec.metadata "RECOGNSTATUS") :=
  pack_page_recogn_status bFix 1 pgWithRec ⟨_, rfl⟩ (by decide) (by decide)

/-! ## Claim C3 — footer field preservation -/
/-- C3 counterexample: the original parsed footer carries a field `FOOBAR`
that the codec does not recompute, yet the rebuilt footer drops it — the
source's footer packer copies only `DIRTY`, not every uninterpreted
field. -/
theorem footer_extras_counterexample :
    kvLookup nbFooterFix.footer (.extra "FOOBAR") = some (.str "x") ∧
    kvLookup (footerKVsOf NotebookBuilder.emptyB nbFooterFix) (.extra "FOOBAR") =
      none := by decide

/-- C3 (amended): of the original footer's uninterpreted fields, exactly
the resume-page flag `DIRTY` is preserved: whenever it equals `V` before
injection it equals `V` in the rebuilt footer, for every builder state. -/
theorem pack_footer_preserves_dirty (b : NotebookBuilder) (nb : Notebook)
    (v : MVal) (h : kvLookup nb.footer (.extra "DIRTY") = some v) :
    kvLookup (footerKVsOf b nb) (.extra "DIRTY") = some v := by
  simp only [footerKVsOf, h, kvLookup_kvUpdate_self]

/-- Witness for `pack_footer_preserves_dirty`. -/
theorem pack_footer_preserves_dirty_witness :
    kvLookup (footerKVsOf NotebookBuilder.emptyB nbFooterFix) (.extra "DIRTY") =
      some (.str "7") :=
  pack_footer_preserves_dirty NotebookBuilder.emptyB nbFooterFix (.str "7") (by decide)

/-! ## Claim C5 — tri-state recognition-type flag -/
theorem normalizeHeader_lang_keeps_type (h : SKVs) :
    kvLookup (if kvLookup h "FILE_RECOGN_LANGUAGE" ≠ some (.str "en_US") then
        kvUpdate h "FILE_RECOGN_LANGUAGE" (.str "en_US") else h) "FILE_RECOGN_TYPE"
      = kvLookup h "FILE_RECOGN_TYPE" := by
  by_cases hc : kvLookup h "FILE_RECOGN_LANGUAGE" = some (.str "en_US")
  · simp [hc]
  · simp only [ne_eq, hc, not_false_iff, if_pos]
    exact kvLookup_kvUpdate_ne _ _ _ _ (by decide)

/-- C5 (confirmed): the recognition-type header flag is tri-state.  `"keep"`
leaves the header value identical (and warns nothing); `"0"`/`"1"`
overwrite the effective value only when it differs (absence defaulting to
`"1"`); any other input logs a warning and results in value `"1"` — and the
normalization itself is a total function, so no exception is raised. -/
theorem recogn_type_tristate (h : SKVs) (rt : String) :
    (rt = "keep" →
      kvLookup (normalizeHeader h rt).1 "FILE_RECOGN_TYPE" =
        kvLookup h "FILE_RECOGN_TYPE" ∧ (normalizeHeader h rt).2 = []) ∧
    ((rt = "0" ∨ rt = "1") →
      kvLookup (normalizeHeader h rt).1 "FILE_RECOGN_TYPE" =
        (if (kvLookup h "FILE_RECOGN_TYPE").getD (.str "1") = .str rt
         then kvLookup h "FILE_RECOGN_TYPE" else some (.str rt)) ∧
      (normalizeHeader h rt).2 = []) ∧
    (rt ≠ "keep" → rt ≠ "0" → rt ≠ "1" →
      kvLookup (normalizeHeader h rt).1 "FILE_RECOGN_TYPE" = some (.str "1") ∧
      (normalizeHeader h rt).2 ≠ []) := by
  have hl := normalizeHeader_lang_keeps_type h
  refine ⟨?_, ?_, ?_⟩
  · intro hk
    subst hk
    simp only [normalizeHeader, if_pos rfl]
    exact ⟨hl, rfl⟩
  · intro h01
    have hne : rt ≠ "keep" := by
      rcases h01 with rfl | rfl <;> decide
    by_cases heq : (kvLookup h "FILE_RECOGN_TYPE").getD (.str "1") = .str rt
    · refine ⟨?_, ?_⟩
      · rw [if_pos heq]
        simp only [normalizeHeader, if_neg hne, if_pos h01]
        have hcur : (kvLookup
            (if kvLookup h "FILE_RECOGN_LANGUAGE" ≠ some (.str "en_US") then
              kvUpdate h "FILE_RECOGN_LANGUAGE" (.str "en_US") else h)
            "FILE_RECOGN_TYPE").getD (.str "1") = .str rt := by
          rw [hl]; exact heq
        rw [if_neg (not_not_intro hcur)]
        exact hl
      · simp only [normalizeHeader, if_neg hne, if_pos h01]
    · refine ⟨?_, ?_⟩
      · rw [if_neg heq]
        simp only [normalizeHeader, if_neg hne, if_pos h01]
        have hcur : ¬ (kvLookup
            (if kvLookup h "FILE_RECOGN_LANGUAGE" ≠ some (.str "en_US") then
              kvUpdate h "FILE_RECOGN_LANGUAGE" (.str "en_US") else h)
            "FILE_RECOGN_TYPE").getD (.str "1") = .str rt := by
          rw [hl]; exact heq
        rw [if_pos hcur]
        exact kvLookup_kvUpdate_self _ _ _
      · simp only [normalizeHeader, if_neg hne, if_pos h01]
  · intro hk h0 h1
    simp only [normalizeHeader, if_neg hk]
    have : ¬ (rt = "0" ∨ rt = "1") := by
      rintro (rfl | rfl)
      · exact h0 rfl
      · exact h1 rfl
    simp only [if_neg this]
    refine ⟨kvLookup_kvUpdate_self _ _ _, by simp⟩

/-- Witness for `recogn_type_tristate`: the `"bogus"` scenario — the
resulting header value is `"1"` and a warning is recorded. -/
theorem recogn_type_tristate_witness :
    kvLookup (normalizeHeader [("FILE_RECOGN_LANGUAGE", .str "en_US")] "bogus").1
      "FILE_RECOGN_TYPE" = some (.str "1") ∧
    (normalizeHeader [("FILE_RECOGN_LANGUAGE", .str "en_US")] "bogus").2 ≠ [] :=
  (recogn_type_tristate [("FILE_RECOGN_LANGUAGE", .str "en_US")] "bogus").2.2
    (by decide) (by decide) (by decide)

/-! ## Injection-loop lemmas -/
theorem setPageRecogn_length (pages : List Page) (j : ℕ) (d : Bytes) :
    (setPageRecogn pages j d).length = pages.length := by
  simp [setPageRecogn]

/-- Unfolding equation for the skip branch. -/
theorem applyResults_cons_skip {nb : Notebook} {pr : PageResult}
    {rest : List PageResult} (hge : (nb.pages.length : ℤ) ≤ pr.idx) :
    applyResults nb (pr :: rest) =
      (match applyResults nb rest with
       | .error e => .error e
       | .ok r => .ok (r.1, .warnedOutOfRange pr.idx :: r.2)) := by
  conv_lhs => unfold applyResults
  rw [if_pos hge]

/-- Unfolding equation for an in-range entry. -/
theorem applyResults_cons_hit {nb : Notebook} {pr : PageResult}
    {rest : List PageResult} {j : ℕ} (hge : ¬ (nb.pages.length : ℤ) ≤ pr.idx)
    (hpy : pyIdx nb.pages.length pr.idx = some j) :
    applyResults nb (pr :: rest) =
      applyResults { nb with pages := (setPageRecogn nb.pages j
        (convert_ocr_to_supernote_format pr.res pr.width pr.height)) } rest := by
  conv_lhs => unfold applyResults
  rw [if_neg hge, hpy]

/-- Unfolding equation for a Python `IndexError`. -/
theorem applyResults_cons_oob {nb : Notebook} {pr : PageResult}
    {rest : List PageResult} (hge : ¬ (nb.pages.length : ℤ) ≤ pr.idx)
    (hpy : pyIdx nb.pages.length pr.idx = none) :
    applyResults nb (pr :: rest) = .error "IndexError: list index out of range" := by
  conv_lhs => unfold applyResults
  rw [if_neg hge, hpy]

theorem applyResults_length {rs : List PageResult} :
    ∀ {nb : Notebook} {r : Notebook × List LogEv},
    applyResults nb rs = .ok r → r.1.pages.length = nb.pages.length := by
  induction rs with
  | nil =>
    intro nb r h
    cases h
    rfl
  | cons pr rest ih =>
    intro nb r h
    by_cases hge : (nb.pages.length : ℤ) ≤ pr.idx
    · rw [applyResults_cons_skip hge] at h
      cases har : applyResults nb rest with
      | error e => rw [har] at h; cases h
      | ok r0 =>
        rw [har] at h
        cases h
        simpa using ih har
    · cases hpy : pyIdx nb.pages.length pr.idx with
      | none => rw [applyResults_cons_oob hge hpy] at h; cases h
      | some j =>
        rw [applyResults_cons_hit hge hpy] at h
        have hr := ih h
        rw [hr]
        exact setPageRecogn_length _ _ _

theorem applyResults_skip_middle (xs : List PageResult) :
    ∀ (nb : Notebook) (ys : List PageResult) (pr : PageResult),
    (nb.pages.length : ℤ) ≤ pr.idx →
    (applyResults nb (xs ++ pr :: ys)).map Prod.fst =
      (applyResults nb (xs ++ ys)).map Prod.fst := by
  induction xs with
  | nil =>
    intro nb ys pr hge
    simp only [List.nil_append]
    rw [applyResults_cons_skip hge]
    cases har : applyResults nb ys with
    | error e => rfl
    | ok r => rfl
  | cons x xs ih =>
    intro nb ys pr hge
    simp only [List.cons_append]
    by_cases hx : (nb.pages.length : ℤ) ≤ x.idx
    · rw [applyResults_cons_skip hx, applyResults_cons_skip hx]
      have hih := ih nb ys pr hge
      cases h1 : applyResults nb (xs ++ pr :: ys) with
      | error e1 =>
        cases h2 : applyResults nb (xs ++ ys) with
        | error e2 =>
          rw [h1, h2] at hih
          simp only [Except.map] at hih
          cases hih
          rfl
        | ok r2 =>
          rw [h1, h2] at hih
          simp [Except.map] at hih
      | ok r1 =>
        cases h2 : applyResults nb (xs ++ ys) with
        | error e2 =>
          rw [h1, h2] at hih
          simp [Except.map] at hih
        | ok r2 =>
          rw [h1, h2] at hih
          simp only [Except.map, Except.ok.injEq] at hih
          simp [Except.map, hih]
    · cases hpy : pyIdx nb.pages.length x.idx with
      | none =>
        rw [applyResults_cons_oob hx hpy, applyResults_cons_oob hx hpy]
      | some j =>
        rw [applyResults_cons_hit hx hpy, applyResults_cons_hit hx hpy]
        refine ih _ ys pr ?_
        have hlen : (setPageRecogn nb.pages j
            (convert_ocr_to_supernote_format x.res x.width x.height)).length =
            nb.pages.length := setPageRecogn_length _ _ _
        simpa [hlen] using hge

theorem applyResults_skip_warns (xs : List PageResult) :
    ∀ (nb : Notebook) (ys : List PageResult) (pr : PageResult),
    (nb.pages.length : ℤ) ≤ pr.idx →
    ∀ r, applyResults nb (xs ++ pr :: ys) = .ok r →
      LogEv.warnedOutOfRange pr.idx ∈ r.2 := by
  induction xs with
  | nil =>
    intro nb ys pr hge r h
    simp only [List.nil_append] at h
    rw [applyResults_cons_skip hge] at h
    cases har : applyResults nb ys with
    | error e => rw [har] at h; cases h
    | ok r0 =>
      rw [har] at h
      cases h
      exact List.mem_cons_self _ _
  | cons x xs ih =>
    intro nb ys pr hge r h
    simp only [List.cons_append] at h
    by_cases hx : (nb.pages.length : ℤ) ≤ x.idx
    · rw [applyResults_cons_skip hx] at h
      cases har : applyResults nb (xs ++ pr :: ys) with
      | error e => rw [har] at h; cases h
      | ok r0 =>
        rw [har] at h
        cases h
        exact List.mem_cons_of_mem _ (ih nb ys pr hge r0 har)
    · cases hpy : pyIdx nb.pages.length x.idx with
      | none => rw [applyResults_cons_oob hx hpy] at h; cases h
      | some j =>
        rw [applyResults_cons_hit hx hpy] at h
        refine ih _ ys pr ?_ r h
        have hlen : (setPageRecogn nb.pages j
            (convert_ocr_to_supernote_format x.res x.width x.height)).length =
            nb.pages.length := setPageRecogn_length _ _ _
        simpa [hlen] using hge

/-! ## Claim C6 — out-of-range page indices are skipped -/
/-- C6 (confirmed): an injection-map entry whose page index is at or past
the page count never raises: the run equals the run without that entry
(so the remaining entries are processed and every other page's payload is
exactly what it would have been), the entry is logged as skipped, and on
success the output page count equals the input page count. -/
theorem inject_out_of_range_skipped (nb : Notebook) (xs ys : List PageResult)
    (pr : PageResult) (hge : (nb.pages.length : ℤ) ≤ pr.idx) :
    ((applyResults nb (xs ++ pr :: ys)).map Prod.fst =
      (applyResults nb (xs ++ ys)).map Prod.fst) ∧
    (∀ r, applyResults nb (xs ++ pr :: ys) = .ok r →
      r.1.pages.length = nb.pages.length ∧
      LogEv.warnedOutOfRange pr.idx ∈ r.2) :=
  ⟨applyResults_skip_middle xs nb ys pr hge,
   fun r hr => ⟨applyResults_length hr, applyResults_skip_warns xs nb ys pr hge r hr⟩⟩

/-- Witness for `inject_out_of_range_skipped`: page index 7 on the two-page
fixture notebook. -/
theorem inject_out_of_range_skipped_witness :
    ((applyResults nbFix2 ([] ++ (⟨7, emptyOCR, 5, 5⟩ : PageResult) :: [])).map Prod.fst =
      (applyResults nbFix2 ([] ++ [])).map Prod.fst) ∧
    (∀ r, applyResults nbFix2 ([] ++ (⟨7, emptyOCR, 5, 5⟩ : PageResult) :: []) = .ok r →
      r.1.pages.length = nbFix2.pages.length ∧
      LogEv.warnedOutOfRange (7 : ℤ) ∈ r.2) :=
  inject_out_of_range_skipped nbFix2 [] [] ⟨7, emptyOCR, 5, 5⟩ (by decide)

/-! ## Claim C10 — negative page indices wrap around -/
/-- C10 (confirmed): an entry with a negative page index `p`,
`-pageCount ≤ p ≤ -1`, is not treated as out of range — the bound check
only rejects indices ≥ page count — and the run continues with the page at
position `pageCount + p` overwritten (Python wrap-around indexing), with
no out-of-range warning for the entry. -/
theorem inject_negative_index_wraps (nb : Notebook) (pr : PageResult)
    (rest : List PageResult) (h1 : -(nb.pages.length : ℤ) ≤ pr.idx)
    (h2 : pr.idx ≤ -1) :
    applyResults nb (pr :: rest) =
      applyResults { nb with pages := (setPageRecogn nb.pages
        ((nb.pages.length : ℤ) + pr.idx).toNat
        (convert_ocr_to_supernote_format pr.res pr.width pr.height)) } rest := by
  have hnotle : ¬ ((nb.pages.length : ℤ) ≤ pr.idx) := by omega
  have hpy : pyIdx nb.pages.length pr.idx =
      some ((nb.pages.length : ℤ) + pr.idx).toNat := by
    have hi : pr.idx < 0 := by omega
    simp only [pyIdx, if_pos hi]
    rw [if_pos ⟨by omega, by omega⟩]
  exact applyResults_cons_hit hnotle hpy

/-- Witness for `inject_negative_index_wraps`: index −1 on the two-page
fixture overwrites the page at position 1. -/
theorem inject_negative_index_wraps_witness :
    applyResults nbFix2 [⟨-1, emptyOCR, 5, 5⟩] =
      applyResults { nbFix2 with pages := (setPageRecogn nbFix2.pages
        ((nbFix2.pages.length : ℤ) + (-1 : ℤ)).toNat
        (convert_ocr_to_supernote_format emptyOCR 5 5)) } [] :=
  inject_negative_index_wraps nbFix2 ⟨-1, emptyOCR, 5, 5⟩ [] (by decide) (by decide)

set_option maxRecDepth 8000 in
/-- C7 counterexample: a successful injection that updates two pages
returns `True` — numeric value 1 — not the count 2 of pages actually
updated, so the claimed return value is wrong whenever the count is not
one. -/
theorem inject_return_value_counterexample :
    (inject_ocr_results fsFix argsTwoPages).1 = .ok true ∧
    (parseNotebook fileFix).toOption.map
      (fun nb => pagesActuallyUpdated nb argsTwoPages.page_results) = some 2 ∧
    pyBoolToNat true ≠ 2 := by
  refine ⟨by decide, by decide, by decide⟩

theorem injectCore_returns_true (fs1 : FileState) (log1 : List LogEv)
    (args : InjectArgs) (bv : Bool) (fs2 : FileState) (lg : List LogEv)
    (h : injectCore fs1 log1 args = (.ok bv, fs2, lg)) : bv = true := by
  unfold injectCore at h
  split at h
  · have := congrArg (fun t => t.1) h
    simp at this
  · split at h
    · have := congrArg (fun t => t.1) h
      simp at this
    · split at h
      · have := congrArg (fun t => t.1) h
        simp only [Except.ok.injEq] at this
        exact this.symm
      · split at h
        · have := congrArg (fun t => t.1) h
          simp at this
        · have := congrArg (fun t => t.1) h
          simp at this

/-- C7 (amended): every successful `inject_ocr_results` call returns the
boolean `True` (the source's documented "True if successful"), regardless
of how many pages were updated. -/
theorem inject_returns_true_on_success (fs : FileState) (args : InjectArgs)
    (bv : Bool) (fs2 : FileState) (lg : List LogEv)
    (h : inject_ocr_results fs args = (.ok bv, fs2, lg)) : bv = true := by
  unfold inject_ocr_results at h
  exact injectCore_returns_true _ _ _ _ _ _ h

set_option maxRecDepth 8000 in
/-- Witness for `inject_returns_true_on_success` at the concrete
successful two-page injection. -/
theorem inject_returns_true_on_success_witness : true = true :=
  inject_returns_true_on_success fsFix argsTwoPages true _ _ rfl

/-! ## Claim C2 — failed build/validation writes nothing -/
theorem injectCore_failed_build (fs1 : FileState) (log1 : List LogEv)
    (args : InjectArgs) (nb : Notebook) (r : Notebook × List LogEv) (e : String)
    (hp : parseNotebook fs1.target = .ok nb)
    (ha : applyResults nb args.page_results = .ok r)
    (hr : reconstruct_with_recognition r.1 args.recogn_type = .error e) :
    (injectCore fs1 log1 args).1 = .error e ∧
    ((if args.use_backup then fs1.backup else none) = none →
      (injectCore fs1 log1 args).2.1.target = fs1.target) ∧
    (∀ bk, (if args.use_backup then fs1.backup else none) = some bk →
      LogEv.restoredBackup ∈ (injectCore fs1 log1 args).2.2 ∧
      (injectCore fs1 log1 args).2.1.target = bk) := by
  unfold injectCore
  simp only [hp, ha, hr]
  cases hbo : (if args.use_backup then fs1.backup else none) with
  | none =>
    refine ⟨?_, fun _ => ?_, fun bk hbk => by cases hbk⟩ <;> trivial
  | some bk0 =>
    refine ⟨?_, ?_, ?_⟩
    · trivial
    · intro hcon
      cases hcon
    · intro bk hbk
      cases hbk
      exact ⟨by simp, rfl⟩

/-- C2 (confirmed): whenever the build-and-validate step of an injection
fails — in particular whenever re-parsing the freshly built bytes fails —
the error is raised to the caller, the target file's content on disk is
unchanged (zero bytes written), and when a backup was taken it is restored
over the target. -/
theorem inject_failed_build_preserves_target (fs : FileState) (args : InjectArgs)
    (nb : Notebook) (r : Notebook × List LogEv) (e : String)
    (hp : parseNotebook fs.target = .ok nb)
    (ha : applyResults nb args.page_results = .ok r)
    (hr : reconstruct_with_recognition r.1 args.recogn_type = .error e) :
    (inject_ocr_results fs args).1 = .error e ∧
    (inject_ocr_results fs args).2.1.target = fs.target ∧
    (args.use_backup = true →
      LogEv.restoredBackup ∈ (inject_ocr_results fs args).2.2) := by
  unfold inject_ocr_results
  cases hub : args.use_backup
  · simp only [Bool.false_eq_true, if_false]
    have h := injectCore_failed_build fs [] args nb r e hp ha hr
    refine ⟨h.1, h.2.1 ?_, fun hcon => by cases hcon⟩
    rw [hub]
    rfl
  · simp only [if_true]
    have h := injectCore_failed_build { fs with backup := some fs.target }
      [LogEv.createdBackup] args nb r e hp ha hr
    have h3 := h.2.2 fs.target (by rw [hub]; rfl)
    exact ⟨h.1, h3.2, fun _ => h3.1⟩

set_option maxRecDepth 8000 in
/-- Witness for `inject_failed_build_preserves_target`: injecting into a
file of an older format version parses fine but fails the rebuild, leaving
the target bytes untouched. -/
theorem inject_failed_build_preserves_target_witness :
    (inject_ocr_results fsOld argsOld).1 =
      .error "Only latest file format version is supported" ∧
    (inject_ocr_results fsOld argsOld).2.1.target = fsOld.target ∧
    (argsOld.use_backup = true →
      LogEv.restoredBackup ∈ (inject_ocr_results fsOld argsOld).2.2) :=
  inject_failed_build_preserves_target fsOld argsOld _ _ _ rfl rfl rfl

/-- C8 (confirmed): for the two same-row blocks `"Hello"` at
`[10,10,50,30]` and `"World"` at `[60,10,100,30]` under scale factor 11.9,
the encoder emits exactly one text-line element labelled `"Hello World"`
whose words are Glyph(0.84, 0.84, 3.36, 1.68, "Hello"), a Spacer, then
Glyph(5.04, 0.84, 3.36, 1.68, "World") — and no spacer after the last
glyph. -/
theorem convert_two_blocks_scenario :
    (convertElements [helloBlock, worldBlock]).1 =
      [Element.rawContent,
       Element.textLine "Hello World"
         [Word.glyph ⟨0.84, 0.84, 3.36, 1.68⟩ "Hello",
          Word.spacer,
          Word.glyph ⟨5.04, 0.84, 3.36, 1.68⟩ "World"]] := by
  with_unfolding_all rfl

theorem sepBy_symm (thr : ℚ) : Symmetric (sepBy thr) := by
  intro a b h
  rcases h with h | h
  · exact Or.inr h
  · exact Or.inl h

theorem sortByLeft_single (b : TextBlock) : sortByLeft [b] = [b] := by
  with_unfolding_all rfl

theorem groupLoop_all_separated (thr : ℚ) (hthr : 0 ≤ thr) :
    ∀ (rest : List (TextBlock × ℚ)) (b0 : TextBlock),
    (∀ p ∈ rest, p.2 = p.1.top) →
    (∀ p ∈ rest, p.1.top ≤ p.1.bottom) →
    b0.top ≤ b0.bottom →
    (∀ p ∈ rest, b0.top ≤ p.2) →
    List.Pairwise (fun a b : TextBlock × ℚ => a.2 ≤ b.2) rest →
    (∀ p ∈ rest, sepBy thr b0 p.1) →
    List.Pairwise (fun a b : TextBlock × ℚ => sepBy thr a.1 b.1) rest →
    groupLoop thr [b0] b0.top rest = [b0] :: rest.map (fun p => [p.1]) := by
  intro rest
  induction rest with
  | nil =>
    intro b0 _ _ _ _ _ _ _
    simp [groupLoop, sortByLeft_single]
  | cons p rest ih =>
    intro b0 hy hval hb0v hge hsorted hsep hpw
    obtain ⟨b, y⟩ := p
    have hyb : y = b.top := hy (b, y) (List.mem_cons_self _ _)
    have hbv : b.top ≤ b.bottom := hval (b, y) (List.mem_cons_self _ _)
    have hgey : b0.top ≤ y := hge (b, y) (List.mem_cons_self _ _)
    have hgey' : b0.top ≤ b.top := by rw [hyb] at hgey; exact hgey
    have hgap : thr < |y - b0.top| := by
      rw [hyb, abs_of_nonneg (by linarith)]
      rcases hsep (b, y) (List.mem_cons_self _ _) with hcase | hcase
      · linarith
      · exfalso
        linarith
    have hstep : groupLoop thr [b0] b0.top ((b, y) :: rest) =
        sortByLeft [b0] :: groupLoop thr [b] y rest := by
      conv_lhs => unfold groupLoop
      rw [if_pos hgap]
    rw [hstep, sortByLeft_single]
    simp only [List.map_cons]
    congr 1
    rw [hyb]
    exact ih b
      (fun q hq => hy q (List.mem_cons_of_mem _ hq))
      (fun q hq => hval q (List.mem_cons_of_mem _ hq))
      hbv
      (fun q hq => by
        have hq2 := (List.pairwise_cons.mp hsorted).1 q hq
        rw [hyb] at hq2
        exact hq2)
      (List.pairwise_cons.mp hsorted).2
      (fun q hq => (List.pairwise_cons.mp hpw).1 q hq)
      (List.pairwise_cons.mp hpw).2

/-- C9 (confirmed): if every pair of (non-blank, well-formed) text blocks
has vertical ranges separated by more than the computed threshold (half
the mean block height), `_group_words_into_lines` returns exactly one line
per block. -/
theorem group_separated_blocks_one_line_each (blocks : List TextBlock)
    (hne : blocks ≠ [])
    (htext : ∀ b ∈ blocks, strTrim b.text ≠ "")
    (hvalid : ∀ b ∈ blocks, b.top ≤ b.bottom)
    (hsep : List.Pairwise (sepBy (groupThreshold blocks)) blocks) :
    (group_words_into_lines blocks (1 / 2)).length = blocks.length ∧
    ∀ l ∈ group_words_into_lines blocks (1 / 2), l.length = 1 := by
  have hfil : blocks.filter (fun b => strTrim b.text ≠ "") = blocks := by
    rw [List.filter_eq_self]
    intro a ha
    simpa using htext a ha
  have hvp : validPairs blocks = blocks.map (fun b => (b, b.top)) := by
    unfold validPairs
    rw [hfil]
  have hperm : (sortByTop (validPairs blocks)).Perm (validPairs blocks) :=
    List.mergeSort_perm _ _
  have hlenv : (validPairs blocks).length = blocks.length := by
    rw [hvp, List.length_map]
  have hmapperm : ((sortByTop (validPairs blocks)).map
      (fun p : TextBlock × ℚ => p.1.bottom - p.1.top)).Perm
      (blocks.map (fun b => b.bottom - b.top)) := by
    have h1 := hperm.map (fun p : TextBlock × ℚ => p.1.bottom - p.1.top)
    have h2 : (validPairs blocks).map (fun p : TextBlock × ℚ => p.1.bottom - p.1.top) =
        blocks.map (fun b => b.bottom - b.top) := by
      rw [hvp, List.map_map]
      rfl
    rw [h2] at h1
    exact h1
  have hBne : blocks.map (fun b => b.bottom - b.top) ≠ [] := by
    simpa using hne
  have hAne : (sortByTop (validPairs blocks)).map
      (fun p : TextBlock × ℚ => p.1.bottom - p.1.top) ≠ [] := by
    intro hcon
    apply hBne
    have hl := hmapperm.length_eq
    rw [hcon] at hl
    exact List.length_eq_zero.mp hl.symm
  have hthr_eq : groupAvgHeight (sortByTop (validPairs blocks)) * (1 / 2) =
      groupThreshold blocks := by
    unfold groupAvgHeight groupThreshold
    rw [if_neg (by simpa [List.isEmpty_iff] using hAne),
      if_neg (by simpa [List.isEmpty_iff] using hBne),
      hmapperm.sum_eq, hmapperm.length_eq]
  have hthr0 : 0 ≤ groupThreshold blocks := by
    unfold groupThreshold
    have hsum : 0 ≤ (blocks.map (fun b => b.bottom - b.top)).sum := by
      apply List.sum_nonneg
      intro x hx
      obtain ⟨b, hb, rfl⟩ := List.mem_map.mp hx
      linarith [hvalid b hb]
    rw [if_neg (by simpa [List.isEmpty_iff] using hBne)]
    apply mul_nonneg
    · exact div_nonneg hsum (by positivity)
    · norm_num
  have hmem : ∀ p ∈ sortByTop (validPairs blocks), p.2 = p.1.top ∧ p.1 ∈ blocks := by
    intro p hp
    have hp2 : p ∈ validPairs blocks := hperm.mem_iff.mp hp
    rw [hvp] at hp2
    obtain ⟨b, hb, rfl⟩ := List.mem_map.mp hp2
    exact ⟨rfl, hb⟩
  have hsorted : List.Pairwise (fun a b : TextBlock × ℚ => a.2 ≤ b.2)
      (sortByTop (validPairs blocks)) := by
    have h := @List.sorted_mergeSort (TextBlock × ℚ)
      (fun a b : TextBlock × ℚ => decide (a.2 ≤ b.2))
      (fun a b c hab hbc => by
        simp only [decide_eq_true_eq] at *
        exact le_trans hab hbc)
      (fun a b => by
        simp only [Bool.or_eq_true, decide_eq_true_eq]
        exact le_total a.2 b.2)
      (validPairs blocks)
    exact h.imp (fun hab => by simpa using hab)
  have hsep2 : List.Pairwise
      (fun a b : TextBlock × ℚ => sepBy (groupThreshold blocks) a.1 b.1)
      (sortByTop (validPairs blocks)) := by
    have hmapped : List.Pairwise
        (fun a b : TextBlock × ℚ => sepBy (groupThreshold blocks) a.1 b.1)
        (validPairs blocks) := by
      rw [hvp]
      exact hsep.map _ (fun a b h => h)
    exact (List.Perm.pairwise_iff
      (fun {x y} h => sepBy_symm (groupThreshold blocks) h) hperm).mpr hmapped
  have hvpne : ¬ (validPairs blocks).isEmpty = true := by
    simp only [List.isEmpty_iff]
    intro hcon
    rw [hcon] at hlenv
    exact hne (List.length_eq_zero.mp hlenv.symm)
  cases hsort : sortByTop (validPairs blocks) with
  | nil =>
    exfalso
    have hl := hperm.length_eq
    rw [hsort] at hl
    rw [hlenv] at hl
    exact hne (List.length_eq_zero.mp hl.symm)
  | cons p0 rest =>
    obtain ⟨b0, y0⟩ := p0
    rw [hsort] at hmem hsorted hsep2
    have hy0 : y0 = b0.top ∧ b0 ∈ blocks :=
      hmem (b0, y0) (List.mem_cons_self _ _)
    have hrun : group_words_into_lines blocks (1 / 2) =
        [b0] :: rest.map (fun p => [p.1]) := by
      unfold group_words_into_lines
      rw [if_neg hvpne, hthr_eq, hsort, hy0.1]
      exact groupLoop_all_separated (groupThreshold blocks) hthr0 rest b0
        (fun q hq => (hmem q (List.mem_cons_of_mem _ hq)).1)
        (fun q hq => hvalid q.1 (hmem q (List.mem_cons_of_mem _ hq)).2)
        (hvalid b0 hy0.2)
        (fun q hq => by
          have h2 := (List.pairwise_cons.mp hsorted).1 q hq
          rw [hy0.1] at h2
          exact h2)
        (List.pairwise_cons.mp hsorted).2
        (fun q hq => (List.pairwise_cons.mp hsep2).1 q hq)
        (List.pairwise_cons.mp hsep2).2
    rw [hrun]
    constructor
    · have hl := hperm.length_eq
      rw [hsort, hlenv] at hl
      simp only [List.length_cons, List.length_map]
      rw [← hl]
      simp
    · intro l hl
      rcases List.mem_cons.mp hl with rfl | hl2
      · rfl
      · obtain ⟨q, _, rfl⟩ := List.mem_map.mp hl2
        rfl

/-- Witness for `group_separated_blocks_one_line_each`: two far-apart
blocks yield two singleton lines. -/
theorem group_separated_blocks_one_line_each_witness :
    (group_words_into_lines [blkA, blkB] (1 / 2)).length = [blkA, blkB].length ∧
    ∀ l ∈ group_words_into_lines [blkA, blkB] (1 / 2), l.length = 1 :=
  group_separated_blocks_one_line_each [blkA, blkB]
    (by decide) (by decide) (by decide) (by with_unfolding_all decide)

/-! ## More key-value lemmas -/
theorem kvLookup_kvSetdefault_ne {K V : Type} [DecidableEq K] (m : List (K × V)) (k k' : K) (v : V)
    (h : k ≠ k') : kvLookup (kvSetdefault m k' v) k = kvLookup m k := by
  unfold kvSetdefault
  by_cases hc : kvContains m k'
  · rw [if_pos hc]
  · rw [if_neg hc]
    cases hk : kvLookup m k with
    | some w => rw [kvLookup_append_left _ _ _ (by rw [hk]; rfl), hk]
    | none =>
      rw [kvLookup_append_right _ _ _ hk]
      simp [kvLookup, h]

theorem kvLookup_kvSetdefault_isSome {K V : Type} [DecidableEq K] (m : List (K × V)) (k k' : K) (v : V)
    (h : (kvLookup m k).isSome) :
    kvLookup (kvSetdefault m k' v) k = kvLookup m k := by
  unfold kvSetdefault
  by_cases hc : kvContains m k'
  · rw [if_pos hc]
  · rw [if_neg hc]
    exact kvLookup_append_left _ _ _ h

/-- A setdefault at a fresh key appends the canonical value. -/
theorem kvLookup_kvSetdefault_self_none {K V : Type} [DecidableEq K] (m : List (K × V)) (k : K) (v : V)
    (h : kvLookup m k = none) :
    kvLookup (kvSetdefault m k v) k = some v := by
  unfold kvSetdefault kvContains
  rw [h]
  simp only [Option.isSome_none, Bool.false_eq_true, if_false]
  rw [kvLookup_append_right _ _ _ h]
  simp [kvLookup]

theorem kvLookup_kvEraseFirst_ne {K V : Type} [DecidableEq K] (m : List (K × V)) (k k' : K) (h : k' ≠ k) :
    kvLookup (kvEraseFirst m k) k' = kvLookup m k' := by
  induction m with
  | nil => rfl
  | cons p rest ih =>
    by_cases hk : k = p.1
    · simp only [kvEraseFirst, if_pos hk, kvLookup]
      rw [if_neg (by rw [← hk]; exact h)]
    · by_cases hk' : k' = p.1
      · simp [kvEraseFirst, hk, kvLookup, hk']
      · simp [kvEraseFirst, hk, kvLookup, hk', ih]

theorem kvEraseFirst_length {K V : Type} [DecidableEq K] (m : List (K × V)) (k : K)
    (h : (kvLookup m k).isSome) :
    m.length = (kvEraseFirst m k).length + 1 := by
  induction m with
  | nil => simp [kvLookup] at h
  | cons p rest ih =>
    by_cases hk : k = p.1
    · simp [kvEraseFirst, hk]
    · simp only [kvLookup, if_neg hk] at h
      simp [kvEraseFirst, hk, ih h]

theorem length_ge_of_distinct_lookups {K V : Type} [DecidableEq K] (ks : List K) :
    ∀ (m : List (K × V)), ks.Nodup →
    (∀ k ∈ ks, (kvLookup m k).isSome) → ks.length ≤ m.length := by
  induction ks with
  | nil => intro m _ _; simp
  | cons k0 rest ih =>
    intro m hnd h
    have h0 := h k0 (List.mem_cons_self _ _)
    have hlen := kvEraseFirst_length m k0 h0
    have hrest : ∀ k ∈ rest, (kvLookup (kvEraseFirst m k0) k).isSome := by
      intro k hk
      have hne : k ≠ k0 := by
        intro hcon
        exact (List.nodup_cons.mp hnd).1 (hcon ▸ hk)
      rw [kvLookup_kvEraseFirst_ne _ _ _ hne]
      exact h k (List.mem_cons_of_mem _ hk)
    have := ih (kvEraseFirst m k0) (List.nodup_cons.mp hnd).2 hrest
    simp only [List.length_cons]
    omega

theorem kvLookup_foldl_update_notmem {K V : Type} [DecidableEq K] (keys : List K) :
    ∀ (m : List (K × V)) (f : K → V) (k : K), k ∉ keys →
    kvLookup (keys.foldl (fun m p => kvUpdate m p (f p)) m) k = kvLookup m k := by
  induction keys with
  | nil => intro m f k _; rfl
  | cons k0 rest ih =>
    intro m f k hk
    simp only [List.foldl_cons]
    rw [ih _ f k (fun h => hk (List.mem_cons_of_mem _ h)),
      kvLookup_kvUpdate_ne _ _ _ _
        (fun h => hk (by rw [h]; exact List.mem_cons_self _ _))]

theorem kvLookup_foldl_update_mem {K V : Type} [DecidableEq K] (keys : List K) :
    ∀ (m : List (K × V)) (f : K → V) (k : K), keys.Nodup → k ∈ keys →
    kvLookup (keys.foldl (fun m p => kvUpdate m p (f p)) m) k = some (f k) := by
  induction keys with
  | nil => intro m f k _ hk; cases hk
  | cons k0 rest ih =>
    intro m f k hnd hk
    simp only [List.foldl_cons]
    rcases List.mem_cons.mp hk with rfl | hk2
    · rw [kvLookup_foldl_update_notmem _ _ _ _ (List.nodup_cons.mp hnd).1,
        kvLookup_kvUpdate_self]
    · exact ih _ f k (List.nodup_cons.mp hnd).2 hk2

theorem kvStripKeys_foldl_update {K V : Type} [DecidableEq K] (ks : List K) (keys : List K) :
    ∀ (m : List (K × V)) (f : K → V), (∀ k ∈ keys, k ∈ ks) →
    kvStripKeys ks (keys.foldl (fun m p => kvUpdate m p (f p)) m) =
      kvStripKeys ks m := by
  induction keys with
  | nil => intro m f _; rfl
  | cons k0 rest ih =>
    intro m f hsub
    simp only [List.foldl_cons]
    rw [ih _ f (fun k hk => hsub k (List.mem_cons_of_mem _ hk)),
      kvStripKeys_kvUpdate _ _ _ _ (hsub k0 (List.mem_cons_self _ _))]

theorem readsAt_final {b : NotebookBuilder} {a : ℕ} {c : Bytes}
    (h : ReadsAt b a c) : readBlock b.data a = some c := by
  have := h []
  rwa [List.append_nil] at this

theorem readsAt_extOnly {P : Label → Prop} {b b' : NotebookBuilder} {a : ℕ}
    {c : Bytes} (hext : ExtOnly P b b') (h : ReadsAt b a c) : ReadsAt b' a c := by
  obtain ⟨d, _, hd, _, _⟩ := hext
  intro t
  rw [hd, List.append_assoc]
  exact h (d ++ t)

theorem readsAt_append (b : NotebookBuilder) (l : Label) (c : Bytes) :
    ReadsAt (b.append l c) b.data.length c := by
  intro t
  exact readBlock_at_append b.data c t

theorem addrRead_append (b : NotebookBuilder) (l : Label) (c : Bytes)
    (h : b.data ≠ []) : AddrRead (b.append l c) l c := by
  constructor
  · exact gba_append_self_pos b l c h
  · rw [gba_append_self]
    exact readsAt_append b l c

theorem addrRead_extOnly {P : Label → Prop} {b b' : NotebookBuilder}
    {l : Label} {c : Bytes} (hext : ExtOnly P b b')
    (hne : ∀ l', P l' → l' ≠ l) (h : AddrRead b l c) : AddrRead b' l c := by
  refine ⟨?_, ?_⟩
  · rw [gba_of_extOnly hext l hne]; exact h.1
  · rw [gba_of_extOnly hext l hne]; exact readsAt_extOnly hext h.2

theorem extOnly_data_ne_nil {P : Label → Prop} {b b' : NotebookBuilder}
    (hext : ExtOnly P b b') (h : b.data ≠ []) : b'.data ≠ [] := by
  obtain ⟨d, _, hd, _, _⟩ := hext
  rw [hd]
  intro hcon
  exact h (List.append_eq_nil.mp hcon).1

theorem gba_eq_zero_of_noPageLabels {pn : ℕ} {b : NotebookBuilder}
    (h : NoPageLabelsFrom pn b) (l : Label) (m : ℕ)
    (hl : l.pageNum = some m) (hm : pn ≤ m) : b.get_block_address l = 0 := by
  unfold NotebookBuilder.get_block_address
  have hf : b.entries.filter (fun e => e.label = l) = [] := by
    rw [List.filter_eq_nil]
    intro x hx
    simp only [decide_eq_true_eq]
    intro hcon
    have := h x hx m (by rw [hcon]; exact hl)
    omega
  rw [hf]
  rfl

theorem noPageLabelsFrom_extOnly {P : Label → Prop} {b b' : NotebookBuilder}
    {pn : ℕ} (hext : ExtOnly P b b')
    (hP : ∀ l, P l → ∀ m, l.pageNum = some m → m < pn)
    (h : NoPageLabelsFrom pn b) : NoPageLabelsFrom pn b' := by
  obtain ⟨d, e, hd, he, hp⟩ := hext
  intro x hx m hm
  rw [he] at hx
  rcases List.mem_append.mp hx with hx1 | hx2
  · exact h x hx1 m hm
  · exact hP x.label (hp x hx2) m hm

theorem noPageLabelsFrom_mono {pn pn' : ℕ} {b : NotebookBuilder}
    (hle : pn ≤ pn') (h : NoPageLabelsFrom pn b) : NoPageLabelsFrom pn' b := by
  intro x hx m hm
  have := h x hx m hm
  omega

/-- A fold of appends whose labels all satisfy `P` is an extension by `P`
alone, keeps entries readable, and keeps the buffer non-empty. -/
theorem extOnly_foldl_append {α : Type} (P : Label → Prop)
    (lf : α → Label) (cf : α → Bytes) (hP : ∀ a, P (lf a)) :
    ∀ (l : List α) (b : NotebookBuilder),
    ExtOnly P b (l.foldl (fun b a => b.append (lf a) (cf a)) b) ∧
      (EntriesReadable b →
        EntriesReadable (l.foldl (fun b a => b.append (lf a) (cf a)) b)) := by
  intro l
  induction l with
  | nil => intro b; exact ⟨extOnly_refl P b, fun h => h⟩
  | cons a rest ih =>
    intro b
    simp only [List.foldl_cons]
    refine ⟨extOnly_trans (extOnly_append P b (lf a) (cf a) (hP a)) (ih _).1,
      fun h => (ih _).2 (entriesReadable_append h _ _)⟩

theorem auxLabel_headLabel : ∀ l, auxLabel l → headLabel l := by
  intro l
  cases l <;> simp [auxLabel, headLabel]

theorem headLabel_no_pageNum :
    ∀ l, headLabel l → ∀ m, l.pageNum = some m → False := by
  intro l
  cases l <;> simp [headLabel, Label.pageNum]

theorem packPrefix_facts (nb : Notebook) :
    ExtOnly headLabel .emptyB (packPrefix nb) ∧
    EntriesReadable (packPrefix nb) ∧
    (packPrefix nb).data ≠ [] ∧
    ReadsAt (packPrefix nb) 0 nb.typeMark ∧
    ReadsAt (packPrefix nb) (nb.typeMark.length + 1) [.s nb.signature] ∧
    AddrRead (packPrefix nb) .headerL (encodeMetaS nb.header) := by
  have E1 : ExtOnly headLabel .emptyB (pack_type .emptyB nb) :=
    extOnly_append _ _ _ _ trivial
  have R1 : EntriesReadable (pack_type .emptyB nb) :=
    entriesReadable_append entriesReadable_empty _ _
  have D1 : (pack_type .emptyB nb).data ≠ [] := by
    simp [pack_type, NotebookBuilder.append, NotebookBuilder.emptyB, blockBytes]
  have T1 : ReadsAt (pack_type .emptyB nb) 0 nb.typeMark := by
    intro t
    simpa using readBlock_at_append [] nb.typeMark t
  have L1 : (pack_type .emptyB nb).data.length = nb.typeMark.length + 1 := by
    simp [pack_type, NotebookBuilder.append, NotebookBuilder.emptyB, blockBytes]
  have E2 : ExtOnly headLabel (pack_type .emptyB nb)
      (pack_signature (pack_type .emptyB nb) nb) :=
    extOnly_append _ _ _ _ trivial
  have R2 : EntriesReadable (pack_signature (pack_type .emptyB nb) nb) :=
    entriesReadable_append R1 _ _
  have S2 : ReadsAt (pack_signature (pack_type .emptyB nb) nb)
      (nb.typeMark.length + 1) [.s nb.signature] := by
    rw [← L1]
    exact readsAt_append _ _ _
  have E3 : ExtOnly headLabel (pack_signature (pack_type .emptyB nb) nb)
      (pack_header (pack_signature (pack_type .emptyB nb) nb) nb) :=
    extOnly_append _ _ _ _ trivial
  have R3 : EntriesReadable
      (pack_header (pack_signature (pack_type .emptyB nb) nb) nb) :=
    entriesReadable_append R2 _ _
  have H3 : AddrRead (pack_header (pack_signature (pack_type .emptyB nb) nb) nb)
      .headerL (encodeMetaS nb.header) :=
    addrRead_append _ _ _ (extOnly_data_ne_nil E2 D1)
  set b3 := pack_header (pack_signature (pack_type .emptyB nb) nb) nb with hb3
  have E4 : ExtOnly auxLabel b3 (pack_cover b3 nb) := by
    unfold pack_cover
    cases nb.cover with
    | some c => exact extOnly_append _ _ _ _ trivial
    | none => exact extOnly_refl _ _
  have R4 : EntriesReadable (pack_cover b3 nb) := by
    unfold pack_cover
    cases nb.cover with
    | some c => exact entriesReadable_append R3 _ _
    | none => exact R3
  have E5 : ExtOnly auxLabel (pack_cover b3 nb)
      (pack_keywords (pack_cover b3 nb) nb) :=
    (extOnly_foldl_append auxLabel (fun kc : ℕ × Bytes => Label.keywordMeta kc.1)
      (fun kc => kc.2) (fun _ => trivial) nb.keywords _).1
  have R5 : EntriesReadable (pack_keywords (pack_cover b3 nb) nb) :=
    (extOnly_foldl_append auxLabel (fun kc : ℕ × Bytes => Label.keywordMeta kc.1)
      (fun kc => kc.2) (fun _ => trivial) nb.keywords _).2 R4
  have E6 : ExtOnly auxLabel (pack_keywords (pack_cover b3 nb) nb)
      (pack_titles (pack_keywords (pack_cover b3 nb) nb) nb) :=
    (extOnly_foldl_append auxLabel (fun kc : ℕ × Bytes => Label.titleMeta kc.1)
      (fun kc => kc.2) (fun _ => trivial) nb.titles _).1
  have R6 : EntriesReadable
      (pack_titles (pack_keywords (pack_cover b3 nb) nb) nb) :=
    (extOnly_foldl_append auxLabel (fun kc : ℕ × Bytes => Label.titleMeta kc.1)
      (fun kc => kc.2) (fun _ => trivial) nb.titles _).2 R5
  have E7 : ExtOnly auxLabel
      (pack_titles (pack_keywords (pack_cover b3 nb) nb) nb)
      (pack_links (pack_titles (pack_keywords (pack_cover b3 nb) nb) nb) nb) :=
    (extOnly_foldl_append auxLabel (fun kc : ℕ × Bytes => Label.linkMeta kc.1)
      (fun kc => kc.2) (fun _ => trivial) nb.links _).1
  have R7 : EntriesReadable
      (pack_links (pack_titles (pack_keywords (pack_cover b3 nb) nb) nb) nb) :=
    (extOnly_foldl_append auxLabel (fun kc : ℕ × Bytes => Label.linkMeta kc.1)
      (fun kc => kc.2) (fun _ => trivial) nb.links _).2 R6
  have E47 : ExtOnly auxLabel b3
      (pack_links (pack_titles (pack_keywords (pack_cover b3 nb) nb) nb) nb) :=
    extOnly_trans E4 (extOnly_trans E5 (extOnly_trans E6 E7))
  have E17 : ExtOnly headLabel .emptyB
      (pack_links (pack_titles (pack_keywords (pack_cover b3 nb) nb) nb) nb) :=
    extOnly_trans E1 (extOnly_trans E2 (extOnly_trans E3
      (extOnly_mono auxLabel_headLabel E47)))
  have hgoal : packPrefix nb =
      pack_links (pack_titles (pack_keywords (pack_cover b3 nb) nb) nb) nb := by
    rw [hb3]; rfl
  rw [hgoal]
  refine ⟨E17, R7, ?_, ?_, ?_, ?_⟩
  · exact extOnly_data_ne_nil E47 (extOnly_data_ne_nil E3 (extOnly_data_ne_nil E2 D1))
  · exact readsAt_extOnly E47 (readsAt_extOnly E3 (readsAt_extOnly E2 T1))
  · exact readsAt_extOnly E47 (readsAt_extOnly E3 S2)
  · refine addrRead_extOnly E47 ?_ H3
    intro l hl
    cases l <;> simp [auxLabel] at hl ⊢

/-! ## C1: validity extraction lemmas -/
theorem validPage_parts (p : Page) (h : validPage p = true) :
    (p.layers.map Layer.get_name = LAYER_KEYS.map some) ∧
    (match p.get_style with
      | some st => !(strStartsWith st "user_") || (p.get_style_hash).isSome
      | none => false) = true ∧
    (if rtIsNonempty p.recogn_text then
        decide (kvLookup p.metadata "RECOGNSTATUS" = some (.nat 1))
      else
        (match kvLookup p.metadata "RECOGNTEXT" with
         | none => true
         | some (.nat 0) => true
         | _ => false)) = true ∧
    (match p.recogn_text with
      | .placeholder => false
      | .data b => decide (0 < b.length)
      | .absent => true) = true ∧
    (match p.recogn_file with
      | some rf => decide (0 < rf.length)
      | none => true) = true ∧
    (if p.recogn_file.isSome then true
      else (match kvLookup p.metadata "RECOGNFILE" with
         | none => true
         | some (.nat 0) => true
         | _ => false)) = true := by
  simp only [validPage, Bool.and_eq_true] at h
  obtain ⟨⟨⟨⟨⟨h1, h2⟩, h3⟩, h4⟩, h5⟩, h6⟩ := h
  exact ⟨of_decide_eq_true h1, h2, h3, h4, h5, h6⟩

theorem validPage_styleLabel (p : Page) (h : validPage p = true) :
    ∃ lbl, styleLabelOf p = .ok lbl := by
  have h2 := (validPage_parts p h).2.1
  cases hst : p.get_style with
  | none => rw [hst] at h2; simp at h2
  | some st =>
    rw [hst] at h2
    simp only [Bool.or_eq_true, Bool.not_eq_true',
      Option.isSome_iff_exists] at h2
    by_cases hu : strStartsWith st "user_"
    · rcases h2 with hfalse | ⟨hash, hh⟩
      · rw [hu] at hfalse; cases hfalse
      · exact ⟨st ++ hash, by simp [styleLabelOf, hst, hu, hh]⟩
    · exact ⟨st, by simp [styleLabelOf, hst, hu]⟩

theorem styleCoherent_eq (nb : Notebook) (h : styleCoherent nb = true)
    (p q : Page) (hp : p ∈ nb.pages) (hq : q ∈ nb.pages) (lbl : String)
    (h1 : styleLabelOf p = .ok lbl) (h2 : styleLabelOf q = .ok lbl) :
    bgContent p = bgContent q := by
  unfold styleCoherent at h
  rw [List.all_eq_true] at h
  have hpq := h p hp
  rw [List.all_eq_true] at hpq
  have h3 := hpq q hq
  rw [h1, h2] at h3
  simp at h3
  exact h3

theorem gba_eq_zero_of_extOnly_empty {P : Label → Prop} {b : NotebookBuilder}
    (hext : ExtOnly P .emptyB b) (l : Label) (hl : ∀ l', P l' → l' ≠ l) :
    b.get_block_address l = 0 := by
  obtain ⟨d, e, _, he, hp⟩ := hext
  unfold NotebookBuilder.get_block_address
  have hfe : b.entries.filter (fun x => x.label = l) = [] := by
    rw [List.filter_eq_nil]
    intro x hx
    rw [he] at hx
    simp only [NotebookBuilder.emptyB, List.nil_append] at hx
    simpa using hl x.label (hp x hx)
  rw [hfe]
  rfl

theorem packBackgroundsFold_gba_stable (s : String) :
    ∀ (ps : List Page) (b b8 : NotebookBuilder),
    packBackgroundsFold b ps = .ok b8 →
    0 < b.get_block_address (.style s) →
    b8.get_block_address (.style s) = b.get_block_address (.style s) := by
  intro ps
  induction ps with
  | nil =>
    intro b b8 hok _
    simp only [packBackgroundsFold] at hok
    cases hok
    rfl
  | cons p rest ih =>
    intro b b8 hok hpos
    simp only [packBackgroundsFold] at hok
    cases hob : packOneBackground b p with
    | error e => rw [hob] at hok; cases hok
    | ok b1 =>
      rw [hob] at hok
      have hgba : b1.get_block_address (.style s) = b.get_block_address (.style s) := by
        unfold packOneBackground at hob
        cases hst : p.get_style with
        | none => simp only [hst] at hob; cases hob; rfl
        | some st =>
          cases hsl : styleLabelOf p with
          | error e => simp only [hst, hsl] at hob; cases hob
          | ok lbl =>
            simp only [hst, hsl] at hob
            by_cases hz : b.get_block_address (.style lbl) = 0
            · rw [if_pos hz] at hob
              cases hob
              have hne : s ≠ lbl := by
                intro hcon
                rw [hcon, hz] at hpos
                omega
              exact gba_append_ne b _ _ _ (by simpa using hne)
            · rw [if_neg hz] at hob
              cases hob
              rfl
      rw [ih b1 b8 hok (by rw [hgba]; exact hpos), hgba]

theorem get_style_isSome_of_styleLabel {p : Page} {lbl : String}
    (h : styleLabelOf p = .ok lbl) : ∃ st, p.get_style = some st := by
  unfold styleLabelOf at h
  cases hst : p.get_style with
  | none => rw [hst] at h; cases h
  | some st => exact ⟨st, rfl⟩

theorem packBackgroundsFold_spec (nb : Notebook) :
    ∀ (ps : List Page) (b : NotebookBuilder),
    (∀ p ∈ ps, p ∈ nb.pages) →
    (∀ p ∈ ps, validPage p = true) →
    EntriesReadable b → b.data ≠ [] → BgInv nb b →
    ∃ b8, packBackgroundsFold b ps = .ok b8 ∧
      ExtOnly styleOnly b b8 ∧ EntriesReadable b8 ∧ BgInv nb b8 ∧
      (∀ p ∈ ps, ∀ lbl, styleLabelOf p = .ok lbl →
        0 < b8.get_block_address (.style lbl)) := by
  intro ps
  induction ps with
  | nil =>
    intro b _ _ hr hd hinv
    exact ⟨b, rfl, extOnly_refl _ _, hr, hinv, by simp⟩
  | cons p rest ih =>
    intro b hmem hval hr hd hinv
    obtain ⟨lbl0, hsl⟩ := validPage_styleLabel p (hval p (List.mem_cons_self _ _))
    obtain ⟨st, hst⟩ := get_style_isSome_of_styleLabel hsl
    by_cases hz : b.get_block_address (.style lbl0) = 0
    · -- fresh style template: appended now
      have hob : packOneBackground b p = .ok (b.append (.style lbl0) (bgContent p)) := by
        simp only [packOneBackground, hst, hsl, if_pos hz]
      have hE1 : ExtOnly styleOnly b (b.append (.style lbl0) (bgContent p)) :=
        extOnly_append _ _ _ _ trivial
      have hinv1 : BgInv nb (b.append (.style lbl0) (bgContent p)) := by
        intro s hspos
        by_cases hs : s = lbl0
        · subst hs
          refine ⟨p, hmem p (List.mem_cons_self _ _), hsl, ?_⟩
          rw [gba_append_self]
          exact readsAt_append b _ _
        · rw [gba_append_ne b _ _ _ (by simpa using hs)] at hspos ⊢
          obtain ⟨q, hq, hql, hqr⟩ := hinv s hspos
          exact ⟨q, hq, hql, readsAt_extOnly hE1 hqr⟩
      obtain ⟨b8, hok8, E18, R8, Inv8, claims8⟩ :=
        ih (b.append (.style lbl0) (bgContent p))
          (fun q hq => hmem q (List.mem_cons_of_mem _ hq))
          (fun q hq => hval q (List.mem_cons_of_mem _ hq))
          (entriesReadable_append hr _ _)
          (extOnly_data_ne_nil hE1 hd) hinv1
      refine ⟨b8, ?_, extOnly_trans hE1 E18, R8, Inv8, ?_⟩
      · simp only [packBackgroundsFold, hob]
        exact hok8
      · intro q hq lbl hql
        rcases List.mem_cons.mp hq with rfl | hq2
        · have hlbl : lbl = lbl0 := by
            rw [hsl] at hql
            exact (Except.ok.injEq _ _).mp hql.symm
          rw [hlbl]
          rw [packBackgroundsFold_gba_stable lbl0 rest _ b8 hok8
            (by rw [gba_append_self]; exact List.length_pos.mpr hd),
            gba_append_self]
          exact List.length_pos.mpr hd
        · exact claims8 q hq2 lbl hql
    · -- template already present: skipped
      have hob : packOneBackground b p = .ok b := by
        simp only [packOneBackground, hst, hsl, if_neg hz]
      obtain ⟨b8, hok8, E18, R8, Inv8, claims8⟩ :=
        ih b (fun q hq => hmem q (List.mem_cons_of_mem _ hq))
          (fun q hq => hval q (List.mem_cons_of_mem _ hq)) hr hd hinv
      refine ⟨b8, ?_, E18, R8, Inv8, ?_⟩
      · simp only [packBackgroundsFold, hob]
        exact hok8
      · intro q hq lbl hql
        rcases List.mem_cons.mp hq with rfl | hq2
        · have hlbl : lbl = lbl0 := by
            rw [hsl] at hql
            exact (Except.ok.injEq _ _).mp hql.symm
          rw [hlbl]
          rw [packBackgroundsFold_gba_stable lbl0 rest b b8 hok8
            (Nat.pos_of_ne_zero hz)]
          exact Nat.pos_of_ne_zero hz
        · exact claims8 q hq2 lbl hql

theorem styleFacts_extOnly {P : Label → Prop} {nb : Notebook}
    {b b' : NotebookBuilder} (hext : ExtOnly P b b')
    (hP : ∀ l, P l → ∀ s, l ≠ .style s) (h : StyleFacts nb b) :
    StyleFacts nb b' := by
  intro p hp lbl hl
  obtain ⟨hpos, hread⟩ := h p hp lbl hl
  have hne : ∀ l', P l' → l' ≠ .style lbl := fun l' hl' => hP l' hl' lbl
  rw [gba_of_extOnly hext _ hne]
  exact ⟨hpos, readsAt_extOnly hext hread⟩

theorem pack_backgrounds_styleFacts (nb : Notebook) (b : NotebookBuilder)
    (hval : ∀ p ∈ nb.pages, validPage p = true)
    (hcoh : styleCoherent nb = true)
    (hr : EntriesReadable b) (hd : b.data ≠ []) (hinv : BgInv nb b) :
    ∃ b8, pack_backgrounds b nb = .ok b8 ∧
      ExtOnly styleOnly b b8 ∧ EntriesReadable b8 ∧ b8.data ≠ [] ∧
      StyleFacts nb b8 := by
  obtain ⟨b8, hok, E, R, Inv, claims⟩ :=
    packBackgroundsFold_spec nb nb.pages b (fun _ h => h) hval hr hd hinv
  refine ⟨b8, hok, E, R, extOnly_data_ne_nil E hd, ?_⟩
  intro p hp lbl hl
  have hpos := claims p hp lbl hl
  obtain ⟨q, hq, hql, hqr⟩ := Inv lbl hpos
  refine ⟨hpos, ?_⟩
  rw [styleCoherent_eq nb hcoh p q hp hq lbl hl hql]
  exact hqr

theorem layerParsed_extOnly {P : Label → Prop} {b b' : NotebookBuilder}
    {pn : ℕ} {name : String} {layer : Layer} (hext : ExtOnly P b b')
    (hne : ∀ l, P l → l ≠ .pageLayerMeta pn name)
    (h : LayerParsed b pn name layer) : LayerParsed b' pn name layer := by
  obtain ⟨hpos, lb, hmeta, hlb, hcont⟩ := h
  rw [← gba_of_extOnly hext _ hne] at hpos hmeta
  exact ⟨hpos, lb, readsAt_extOnly hext hmeta, hlb, readsAt_extOnly hext hcont⟩

theorem packLayer_spec (pn : ℕ) (page : Page) (b : NotebookBuilder)
    (layer : Layer) (name : String) (hname : layer.get_name = some name)
    (hr : EntriesReadable b) (hd : b.data ≠ [])
    (hbgstyle : name = "BGLAYER" → ∃ lbl, styleLabelOf page = .ok lbl ∧
      0 < b.get_block_address (.style lbl) ∧
      ReadsAt b (b.get_block_address (.style lbl)) layer.content) :
    ∃ b1, packLayer pn page b layer = .ok b1 ∧
      ExtOnly (fun l => l = .pageLayerBitmap pn name ∨ l = .pageLayerMeta pn name)
        b b1 ∧
      EntriesReadable b1 ∧ b1.data ≠ [] ∧ LayerParsed b1 pn name layer := by
  by_cases hbg : name = "BGLAYER"
  · subst hbg
    obtain ⟨lbl, hsl, hpos, hread⟩ := hbgstyle rfl
    refine ⟨b.append (.pageLayerMeta pn "BGLAYER")
        (encodeMetaS (kvUpdate (kvUpdate layer.metadata "LAYERNAME"
          (.str "BGLAYER")) "LAYERBITMAP"
          (.nat (b.get_block_address (.style lbl))))), ?_, ?_, ?_, ?_, ?_⟩
    · simp [packLayer, hname, hsl]
    · exact extOnly_append _ _ _ _ (Or.inr rfl)
    · exact entriesReadable_append hr _ _
    · exact extOnly_data_ne_nil (extOnly_append (fun _ => True) b _ _ trivial) hd
    · refine ⟨gba_append_self_pos b _ _ hd, b.get_block_address (.style lbl),
        ?_, hpos, ?_⟩
      · rw [gba_append_self]
        exact readsAt_append b _ _
      · exact readsAt_extOnly (extOnly_append (fun _ => True) b _ _ trivial) hread
  · refine ⟨(b.append (.pageLayerBitmap pn name) layer.content).append
        (.pageLayerMeta pn name)
        (encodeMetaS (kvUpdate (kvUpdate layer.metadata "LAYERNAME" (.str name))
          "LAYERBITMAP" (.nat ((b.append (.pageLayerBitmap pn name)
            layer.content).get_block_address (.pageLayerBitmap pn name))))),
      ?_, ?_, ?_, ?_, ?_⟩
    · simp only [packLayer, hname, if_neg hbg]
    · exact extOnly_trans
        (extOnly_append _ _ _ _ (Or.inl rfl))
        (extOnly_append _ _ _ _ (Or.inr rfl))
    · exact entriesReadable_append (entriesReadable_append hr _ _) _ _
    · exact extOnly_data_ne_nil (extOnly_append (fun _ => True) _ _ _ trivial)
        (extOnly_data_ne_nil (extOnly_append (fun _ => True) b _ _ trivial) hd)
    · refine ⟨gba_append_self_pos _ _ _
        (extOnly_data_ne_nil (extOnly_append (fun _ => True) b _ _ trivial) hd),
        (b.append (.pageLayerBitmap pn name)
          layer.content).get_block_address (.pageLayerBitmap pn name), ?_, ?_, ?_⟩
      · rw [gba_append_self (b.append (.pageLayerBitmap pn name) layer.content)
          (.pageLayerMeta pn name)]
        exact readsAt_append _ _ _
      · rw [gba_append_self]
        exact List.length_pos.mpr hd
      · rw [gba_append_self]
        exact readsAt_extOnly (extOnly_append (fun _ => True) _ _ _ trivial)
          (readsAt_append b _ _)

theorem packLayersFold_spec (pn : ℕ) (page : Page) :
    ∀ (keys : List String) (layers : List Layer) (b : NotebookBuilder),
    layers.map Layer.get_name = keys.map some →
    keys.Nodup →
    EntriesReadable b → b.data ≠ [] →
    (∀ layer ∈ layers, layer.get_name = some "BGLAYER" →
      ∃ lbl, styleLabelOf page = .ok lbl ∧
        0 < b.get_block_address (.style lbl) ∧
        ReadsAt b (b.get_block_address (.style lbl)) layer.content) →
    ∃ b1, packLayersFold pn page b layers = .ok b1 ∧
      ExtOnly (layerLabelsOf pn keys) b b1 ∧
      EntriesReadable b1 ∧ b1.data ≠ [] ∧
      List.Forall₂ (fun name layer => LayerParsed b1 pn name layer) keys layers := by
  intro keys
  induction keys with
  | nil =>
    intro layers b hmap _ hr hd _
    have hlen : layers = [] := by
      cases layers with
      | nil => rfl
      | cons l ls => simp at hmap
    subst hlen
    exact ⟨b, rfl, extOnly_refl _ _, hr, hd, List.Forall₂.nil⟩
  | cons k ks ih =>
    intro layers b hmap hnd hr hd hbg
    cases layers with
    | nil => simp at hmap
    | cons l ls =>
      simp only [List.map_cons, List.cons.injEq] at hmap
      obtain ⟨hname, hmapr⟩ := hmap
      obtain ⟨b1, hok1, E1, R1, D1, LP1⟩ :=
        packLayer_spec pn page b l k hname hr hd
        (fun hk => hbg l (List.mem_cons_self _ _) (by rw [hname, hk]))
      have hbg1 : ∀ layer ∈ ls, layer.get_name = some "BGLAYER" →
          ∃ lbl, styleLabelOf page = .ok lbl ∧
            0 < b1.get_block_address (.style lbl) ∧
            ReadsAt b1 (b1.get_block_address (.style lbl)) layer.content := by
        intro layer hl hln
        obtain ⟨lbl, hsl, hpos, hread⟩ :=
          hbg layer (List.mem_cons_of_mem _ hl) hln
        have hne : ∀ x, (x = Label.pageLayerBitmap pn k ∨
            x = Label.pageLayerMeta pn k) → x ≠ .style lbl := by
          intro x hx
          rcases hx with rfl | rfl <;> simp
        rw [← gba_of_extOnly E1 _ hne] at hpos hread
        exact ⟨lbl, hsl, hpos, readsAt_extOnly E1 hread⟩
      obtain ⟨bf, hokf, Ef, Rf, Df, LPf⟩ :=
        ih ls b1 hmapr (List.nodup_cons.mp hnd).2 R1 D1 hbg1
      have hknotks : k ∉ ks := (List.nodup_cons.mp hnd).1
      refine ⟨bf, ?_, ?_, Rf, Df, ?_⟩
      · simp only [packLayersFold, hok1]
        exact hokf
      · refine extOnly_trans (extOnly_mono ?_ E1) (extOnly_mono ?_ Ef)
        · intro x hx
          rcases hx with rfl | rfl
          · exact Or.inl ⟨k, List.mem_cons_self _ _, rfl⟩
          · exact Or.inr ⟨k, List.mem_cons_self _ _, rfl⟩
        · intro x hx
          rcases hx with ⟨nm, hnm, rfl⟩ | ⟨nm, hnm, rfl⟩
          · exact Or.inl ⟨nm, List.mem_cons_of_mem _ hnm, rfl⟩
          · exact Or.inr ⟨nm, List.mem_cons_of_mem _ hnm, rfl⟩
      · refine List.Forall₂.cons ?_ LPf
        refine layerParsed_extOnly Ef ?_ LP1
        intro x hx
        rcases hx with ⟨nm, hnm, rfl⟩ | ⟨nm, hnm, rfl⟩
        · simp
        · simp only [ne_eq, Label.pageLayerMeta.injEq, not_and]
          intro _
          intro hcon
          exact hknotks (hcon ▸ hnm)

/-! ## C1: the per-page block appends -/
theorem condAppend_facts (b b' : NotebookBuilder) (l : Label) (o : Option Bytes)
    (hb' : b' = match o with | some c => b.append l c | none => b)
    (hr : EntriesReadable b) (hd : b.data ≠ [])
    (hz : b.get_block_address l = 0) :
    ExtOnly (· = l) b b' ∧ EntriesReadable b' ∧ b'.data ≠ [] ∧
    (∀ c, o = some c → AddrRead b' l c) ∧
    (o = none → b'.get_block_address l = 0) := by
  cases o with
  | none =>
    subst hb'
    exact ⟨extOnly_refl _ _, hr, hd, by simp, fun _ => hz⟩
  | some c =>
    subst hb'
    refine ⟨extOnly_append _ _ _ _ rfl, entriesReadable_append hr _ _,
      extOnly_data_ne_nil (extOnly_append (fun _ => True) b _ _ trivial) hd,
      ?_, by simp⟩
    intro c' hc'
    cases hc'
    exact addrRead_append b l c hd

theorem packPageBlocks_spec (b1 : NotebookBuilder) (pn : ℕ) (page : Page)
    (hr : EntriesReadable b1) (hd : b1.data ≠ [])
    (hz_tp : b1.get_block_address (.pageTotalPath pn) = 0)
    (hz_rt : b1.get_block_address (.pageRecognText pn) = 0)
    (hz_rf : b1.get_block_address (.pageRecognFile pn) = 0)
    (hrf_ne : ∀ rf, page.recogn_file = some rf → 0 < rf.length) :
    ExtOnly (pblockLabel pn) b1 (packPageBlocks b1 pn page) ∧
    EntriesReadable (packPageBlocks b1 pn page) ∧
    (packPageBlocks b1 pn page).data ≠ [] ∧
    (∀ tp, page.totalpath = some tp →
      AddrRead (packPageBlocks b1 pn page) (.pageTotalPath pn) tp) ∧
    (page.totalpath = none →
      (packPageBlocks b1 pn page).get_block_address (.pageTotalPath pn) = 0) ∧
    (∀ c, rtGuard page.recogn_text = some c →
      AddrRead (packPageBlocks b1 pn page) (.pageRecognText pn) c) ∧
    (rtGuard page.recogn_text = none →
      (packPageBlocks b1 pn page).get_block_address (.pageRecognText pn) = 0) ∧
    (∀ rf, page.recogn_file = some rf →
      AddrRead (packPageBlocks b1 pn page) (.pageRecognFile pn) rf) ∧
    (page.recogn_file = none →
      (packPageBlocks b1 pn page).get_block_address (.pageRecognFile pn) = 0) := by
  obtain ⟨EA, RA, DA, FA, ZA⟩ :=
    condAppend_facts b1
      (match page.totalpath with
        | some tp => b1.append (.pageTotalPath pn) tp
        | none => b1)
      (.pageTotalPath pn) page.totalpath rfl hr hd hz_tp
  set bA := (match page.totalpath with
    | some tp => b1.append (.pageTotalPath pn) tp
    | none => b1) with hbA
  obtain ⟨EB, RB, DB, FB, ZB⟩ :=
    condAppend_facts bA
      (match rtGuard page.recogn_text with
        | some c => bA.append (.pageRecognText pn) c
        | none => bA)
      (.pageRecognText pn) (rtGuard page.recogn_text) rfl RA DA
      (by rw [gba_of_extOnly EA _ (by intro l' hl'; subst hl'; simp)]
          exact hz_rt)
  set bB := (match rtGuard page.recogn_text with
    | some c => bA.append (.pageRecognText pn) c
    | none => bA) with hbB
  have hz_rfB : bB.get_block_address (.pageRecognFile pn) = 0 := by
    rw [gba_of_extOnly EB _ (by intro l' hl'; subst hl'; simp),
      gba_of_extOnly EA _ (by intro l' hl'; subst hl'; simp)]
    exact hz_rf
  have hbc : (match page.recogn_file with
      | some rf => if 0 < rf.length then bB.append (.pageRecognFile pn) rf else bB
      | none => bB) =
    (match page.recogn_file with
      | some rf => bB.append (.pageRecognFile pn) rf
      | none => bB) := by
    cases hrfc : page.recogn_file with
    | none => rfl
    | some rf => simp only [if_pos (hrf_ne rf hrfc)]
  obtain ⟨EC, RC, DC, FC, ZC⟩ :=
    condAppend_facts bB
      (match page.recogn_file with
        | some rf => if 0 < rf.length then bB.append (.pageRecognFile pn) rf else bB
        | none => bB)
      (.pageRecognFile pn) page.recogn_file hbc RB DB hz_rfB
  set bC := (match page.recogn_file with
    | some rf => if 0 < rf.length then bB.append (.pageRecognFile pn) rf else bB
    | none => bB) with hbC
  have hpp : packPageBlocks b1 pn page = bC := by
    rw [hbC, hbB, hbA]
    unfold packPageBlocks
    rfl
  rw [hpp]
  have hEBC : ExtOnly
      (fun l => l = .pageRecognText pn ∨ l = .pageRecognFile pn) bA bC :=
    extOnly_trans (extOnly_mono (fun l h => Or.inl h) EB)
      (extOnly_mono (fun l h => Or.inr h) EC)
  have hEAC : ExtOnly (pblockLabel pn) b1 bC :=
    extOnly_trans (extOnly_mono (fun l h => Or.inl h) EA)
      (extOnly_mono (fun l h => Or.inr h) hEBC)
  refine ⟨hEAC, RC, DC, ?_, ?_, ?_, ?_, FC, ZC⟩
  · intro tp htp
    refine addrRead_extOnly hEBC ?_ (FA tp htp)
    intro l' hl'
    rcases hl' with rfl | rfl <;> simp
  · intro htp
    rw [gba_of_extOnly hEBC _ (by intro l' hl'; rcases hl' with rfl | rfl <;> simp)]
    exact ZA htp
  · intro c hc
    refine addrRead_extOnly EC ?_ (FB c hc)
    intro l' hl'
    subst hl'
    simp
  · intro hc
    rw [gba_of_extOnly EC _ (by intro l' hl'; subst hl'; simp)]
    exact ZB hc

/-! ## C1: the rebuilt page-metadata block, field by field -/
theorem pageMetaKVs_lookup_layer (b : NotebookBuilder) (pn : ℕ) (page : Page)
    (name : String) (hmem : name ∈ LAYER_KEYS) :
    kvLookup (pageMetaKVs b pn page) name =
      some (.nat (b.get_block_address (.pageLayerMeta pn name))) := by
  have hne_tp : name ≠ "TOTALPATH" := fun h => by
    rw [h] at hmem; revert hmem; decide
  have hne_rt : name ≠ "RECOGNTEXT" := fun h => by
    rw [h] at hmem; revert hmem; decide
  have hne_rs : name ≠ "RECOGNSTATUS" := fun h => by
    rw [h] at hmem; revert hmem; decide
  have hne_rf : name ≠ "RECOGNFILE" := fun h => by
    rw [h] at hmem; revert hmem; decide
  have hknd : LAYER_KEYS.Nodup := by decide
  simp only [pageMetaKVs]
  split
  · rw [kvLookup_kvUpdate_ne _ _ _ _ hne_rf]
    split
    · rw [kvLookup_kvUpdate_ne _ _ _ _ hne_rs, kvLookup_kvUpdate_ne _ _ _ _ hne_rt,
        kvLookup_kvUpdate_ne _ _ _ _ hne_tp,
        kvLookup_foldl_update_mem _ _ _ _ hknd hmem]
    · rw [kvLookup_kvUpdate_ne _ _ _ _ hne_tp,
        kvLookup_foldl_update_mem _ _ _ _ hknd hmem]
  · split
    · rw [kvLookup_kvUpdate_ne _ _ _ _ hne_rs, kvLookup_kvUpdate_ne _ _ _ _ hne_rt,
        kvLookup_kvUpdate_ne _ _ _ _ hne_tp,
        kvLookup_foldl_update_mem _ _ _ _ hknd hmem]
    · rw [kvLookup_kvUpdate_ne _ _ _ _ hne_tp,
        kvLookup_foldl_update_mem _ _ _ _ hknd hmem]

theorem pageMetaKVs_lookup_totalpath (b : NotebookBuilder) (pn : ℕ) (page : Page) :
    kvLookup (pageMetaKVs b pn page) "TOTALPATH" =
      some (.nat (b.get_block_address (.pageTotalPath pn))) := by
  simp only [pageMetaKVs]
  split
  · rw [kvLookup_kvUpdate_ne _ _ _ _ (by decide)]
    split
    · rw [kvLookup_kvUpdate_ne _ _ _ _ (by decide),
        kvLookup_kvUpdate_ne _ _ _ _ (by decide), kvLookup_kvUpdate_self]
    · rw [kvLookup_kvUpdate_self]
  · split
    · rw [kvLookup_kvUpdate_ne _ _ _ _ (by decide),
        kvLookup_kvUpdate_ne _ _ _ _ (by decide), kvLookup_kvUpdate_self]
    · rw [kvLookup_kvUpdate_self]

theorem pageMetaKVs_lookup_rt_pos (b : NotebookBuilder) (pn : ℕ) (page : Page)
    (h : 0 < b.get_block_address (.pageRecognText pn)) :
    kvLookup (pageMetaKVs b pn page) "RECOGNTEXT" =
      some (.nat (b.get_block_address (.pageRecognText pn))) := by
  simp only [pageMetaKVs]
  rw [if_pos h]
  split
  · rw [kvLookup_kvUpdate_ne _ _ _ _ (by decide),
      kvLookup_kvUpdate_ne _ _ _ _ (by decide), kvLookup_kvUpdate_self]
  · rw [kvLookup_kvUpdate_ne _ _ _ _ (by decide), kvLookup_kvUpdate_self]

theorem pageMetaKVs_lookup_rt_zero (b : NotebookBuilder) (pn : ℕ) (page : Page)
    (h : b.get_block_address (.pageRecognText pn) = 0) :
    kvLookup (pageMetaKVs b pn page) "RECOGNTEXT" =
      kvLookup page.metadata "RECOGNTEXT" := by
  simp only [pageMetaKVs]
  rw [h, if_neg (Nat.lt_irrefl 0)]
  split
  · rw [kvLookup_kvUpdate_ne _ _ _ _ (by decide),
      kvLookup_kvUpdate_ne _ _ _ _ (by decide),
      kvLookup_foldl_update_notmem LAYER_KEYS page.metadata
        (fun prop => MVal.nat (b.get_block_address (.pageLayerMeta pn prop)))
        "RECOGNTEXT" (by decide)]
  · rw [kvLookup_kvUpdate_ne _ _ _ _ (by decide),
      kvLookup_foldl_update_notmem LAYER_KEYS page.metadata
        (fun prop => MVal.nat (b.get_block_address (.pageLayerMeta pn prop)))
        "RECOGNTEXT" (by decide)]

theorem pageMetaKVs_lookup_rf_pos (b : NotebookBuilder) (pn : ℕ) (page : Page)
    (h : 0 < b.get_block_address (.pageRecognFile pn)) :
    kvLookup (pageMetaKVs b pn page) "RECOGNFILE" =
      some (.nat (b.get_block_address (.pageRecognFile pn))) := by
  simp only [pageMetaKVs]
  rw [if_pos h, kvLookup_kvUpdate_self]

theorem pageMetaKVs_lookup_rf_zero (b : NotebookBuilder) (pn : ℕ) (page : Page)
    (h : b.get_block_address (.pageRecognFile pn) = 0) :
    kvLookup (pageMetaKVs b pn page) "RECOGNFILE" =
      kvLookup page.metadata "RECOGNFILE" := by
  simp only [pageMetaKVs]
  rw [h, if_neg (Nat.lt_irrefl 0)]
  split
  · rw [kvLookup_kvUpdate_ne _ _ _ _ (by decide),
      kvLookup_kvUpdate_ne _ _ _ _ (by decide),
      kvLookup_kvUpdate_ne _ _ _ _ (by decide),
      kvLookup_foldl_update_notmem LAYER_KEYS page.metadata
        (fun prop => MVal.nat (b.get_block_address (.pageLayerMeta pn prop)))
        "RECOGNFILE" (by decide)]
  · rw [kvLookup_kvUpdate_ne _ _ _ _ (by decide),
      kvLookup_foldl_update_notmem LAYER_KEYS page.metadata
        (fun prop => MVal.nat (b.get_block_address (.pageLayerMeta pn prop)))
        "RECOGNFILE" (by decide)]

theorem pageMetaKVs_strip (b : NotebookBuilder) (pn : ℕ) (page : Page)
    (hst : 0 < b.get_block_address (.pageRecognText pn) →
      kvLookup page.metadata "RECOGNSTATUS" = some (.nat 1)) :
    kvStripKeys ADDR_KEYS (pageMetaKVs b pn page) =
      kvStripKeys ADDR_KEYS page.metadata := by
  simp only [pageMetaKVs]
  split
  · rw [kvStripKeys_kvUpdate _ _ _ _ (by decide)]
    split
    · next hrt =>
      have hlook : kvLookup (kvUpdate (kvUpdate (LAYER_KEYS.foldl
          (fun m prop => kvUpdate m prop
            (.nat (b.get_block_address (.pageLayerMeta pn prop)))) page.metadata)
          "TOTALPATH" (.nat (b.get_block_address (.pageTotalPath pn))))
          "RECOGNTEXT" (.nat (b.get_block_address (.pageRecognText pn))))
          "RECOGNSTATUS" = some (.nat 1) := by
        rw [kvLookup_kvUpdate_ne _ _ _ _ (by decide),
          kvLookup_kvUpdate_ne _ _ _ _ (by decide),
          kvLookup_foldl_update_notmem LAYER_KEYS page.metadata
            (fun prop => MVal.nat (b.get_block_address (.pageLayerMeta pn prop)))
            "RECOGNSTATUS" (by decide)]
        exact hst hrt
      rw [kvUpdate_self _ _ _ hlook, kvStripKeys_kvUpdate _ _ _ _ (by decide),
        kvStripKeys_kvUpdate _ _ _ _ (by decide),
        kvStripKeys_foldl_update ADDR_KEYS LAYER_KEYS page.metadata
          (fun prop => MVal.nat (b.get_block_address (.pageLayerMeta pn prop)))
          (by decide)]
    · rw [kvStripKeys_kvUpdate _ _ _ _ (by decide),
        kvStripKeys_foldl_update ADDR_KEYS LAYER_KEYS page.metadata
          (fun prop => MVal.nat (b.get_block_address (.pageLayerMeta pn prop)))
          (by decide)]
  · split
    · next hrt =>
      have hlook : kvLookup (kvUpdate (kvUpdate (LAYER_KEYS.foldl
          (fun m prop => kvUpdate m prop
            (.nat (b.get_block_address (.pageLayerMeta pn prop)))) page.metadata)
          "TOTALPATH" (.nat (b.get_block_address (.pageTotalPath pn))))
          "RECOGNTEXT" (.nat (b.get_block_address (.pageRecognText pn))))
          "RECOGNSTATUS" = some (.nat 1) := by
        rw [kvLookup_kvUpdate_ne _ _ _ _ (by decide),
          kvLookup_kvUpdate_ne _ _ _ _ (by decide),
          kvLookup_foldl_update_notmem LAYER_KEYS page.metadata
            (fun prop => MVal.nat (b.get_block_address (.pageLayerMeta pn prop)))
            "RECOGNSTATUS" (by decide)]
        exact hst hrt
      rw [kvUpdate_self _ _ _ hlook, kvStripKeys_kvUpdate _ _ _ _ (by decide),
        kvStripKeys_kvUpdate _ _ _ _ (by decide),
        kvStripKeys_foldl_update ADDR_KEYS LAYER_KEYS page.metadata
          (fun prop => MVal.nat (b.get_block_address (.pageLayerMeta pn prop)))
          (by decide)]
    · rw [kvStripKeys_kvUpdate _ _ _ _ (by decide),
        kvStripKeys_foldl_update ADDR_KEYS LAYER_KEYS page.metadata
          (fun prop => MVal.nat (b.get_block_address (.pageLayerMeta pn prop)))
          (by decide)]

/-! ## C1: parsing a packed page back -/
theorem layerCore_parsed (layer : Layer) (name : String) (lb : ℕ)
    (hname : layer.get_name = some name) :
    layerCore ⟨layer.content,
      kvUpdate (kvUpdate layer.metadata "LAYERNAME" (.str name))
        "LAYERBITMAP" (.nat lb)⟩ = layerCore layer := by
  have hlk : kvLookup layer.metadata "LAYERNAME" = some (.str name) := by
    unfold Layer.get_name at hname
    cases hl : kvLookup layer.metadata "LAYERNAME" with
    | none => rw [hl] at hname; cases hname
    | some v =>
      cases v with
      | str s =>
        rw [hl] at hname
        simp only [Option.some.injEq] at hname
        rw [hname]
      | nat n => rw [hl] at hname; cases hname
      | natList l => rw [hl] at hname; cases hname
  have h2 : kvUpdate layer.metadata "LAYERNAME" (.str name) = layer.metadata :=
    kvUpdate_self _ _ _ hlk
  have hgn : (Layer.mk layer.content
      (kvUpdate (kvUpdate layer.metadata "LAYERNAME" (.str name))
        "LAYERBITMAP" (.nat lb))).get_name = some name := by
    unfold Layer.get_name
    rw [kvLookup_kvUpdate_ne _ _ _ _ (by decide), kvLookup_kvUpdate_self]
  simp only [layerCore, Prod.mk.injEq, true_and, and_true]
  refine ⟨?_, ?_⟩
  · rw [hgn, hname]
  · rw [kvStripKeys_kvUpdate _ _ _ _ (by simp), h2]

theorem parseSlots_build (pmeta : SKVs) (b : NotebookBuilder) (pn : ℕ) :
    ∀ (keys : List String) (layers : List Layer),
    layers.map Layer.get_name = keys.map some →
    List.Forall₂ (fun name layer => LayerParsed b pn name layer) keys layers →
    (∀ name ∈ keys, kvLookup pmeta name =
      some (.nat (b.get_block_address (.pageLayerMeta pn name)))) →
    ∃ ls2, (∀ t, parseSlots (b.data ++ t) pmeta keys = some ls2) ∧
      ls2.map layerCore = layers.map layerCore := by
  intro keys
  induction keys with
  | nil =>
    intro layers hmap _ _
    have hlen : layers = [] := by
      cases layers with
      | nil => rfl
      | cons l ls => simp at hmap
    subst hlen
    refine ⟨[], fun t => rfl, ?_⟩
    rfl
  | cons k ks ih =>
    intro layers hmap hfa hlk
    cases layers with
    | nil => simp at hmap
    | cons l ls =>
      simp only [List.map_cons, List.cons.injEq] at hmap
      obtain ⟨hname, hmapr⟩ := hmap
      have LP := List.forall₂_cons.mp hfa
      obtain ⟨hpos, lb, hmeta, hlbpos, hcont⟩ := LP.1
      obtain ⟨ls2, hsl2, hcore2⟩ := ih ls hmapr LP.2
        (fun nm hnm => hlk nm (List.mem_cons_of_mem _ hnm))
      refine ⟨⟨l.content,
        kvUpdate (kvUpdate l.metadata "LAYERNAME" (.str k))
          "LAYERBITMAP" (.nat lb)⟩ :: ls2, ?_, ?_⟩
      · intro t
        have hone : parseOneLayer (b.data ++ t)
            (b.get_block_address (.pageLayerMeta pn k)) =
            some ⟨l.content,
              kvUpdate (kvUpdate l.metadata "LAYERNAME" (.str k))
                "LAYERBITMAP" (.nat lb)⟩ := by
          unfold parseOneLayer readMetaS
          rw [hmeta t]
          simp only [Option.bind, decodeMetaS_encodeMetaS]
          simp only [kvLookup_kvUpdate_self, if_pos hlbpos, hcont t]
        simp only [parseSlots, hlk k (List.mem_cons_self _ _), if_pos hpos,
          hone, hsl2 t]
      · simp only [List.map_cons, hcore2, List.cons.injEq, and_true]
        exact layerCore_parsed l k lb hname

theorem rtGuard_none_cases (rt : RecText) (h : rtGuard rt = none) :
    rt = .absent ∨ rt = .placeholder ∨ ∃ b, rt = .data b ∧ b.length = 0 := by
  cases rt with
  | absent => exact Or.inl rfl
  | placeholder => exact Or.inr (Or.inl rfl)
  | data b =>
    refine Or.inr (Or.inr ⟨b, rfl, ?_⟩)
    simp only [rtGuard] at h
    by_cases hb : 0 < b.length
    · rw [if_pos hb] at h; cases h
    · omega

theorem rtGuard_some_eq (rt : RecText) (c : Bytes) (h : rtGuard rt = some c) :
    rt = .data c := by
  cases rt with
  | absent => cases h
  | placeholder => cases h
  | data b =>
    simp only [rtGuard] at h
    by_cases hb : 0 < b.length
    · rw [if_pos hb] at h
      cases h
      rfl
    · rw [if_neg hb] at h; cases h

theorem parseTotalpath_packed (b2' bF : NotebookBuilder) (pn : ℕ) (page : Page)
    (hEF : ExtOnly (· = Label.pageMeta pn) b2' bF)
    (Ftp : ∀ tp, page.totalpath = some tp → AddrRead b2' (.pageTotalPath pn) tp)
    (Ztp : page.totalpath = none →
      b2'.get_block_address (.pageTotalPath pn) = 0) :
    ∀ t, parseTotalpath (bF.data ++ t) (pageMetaKVs b2' pn page) =
      some page.totalpath := by
  intro t
  cases htp : page.totalpath with
  | some tp =>
    have hA : AddrRead bF (.pageTotalPath pn) tp :=
      addrRead_extOnly hEF (by intro l hl; subst hl; simp) (Ftp tp htp)
    have hgba : bF.get_block_address (.pageTotalPath pn) =
        b2'.get_block_address (.pageTotalPath pn) :=
      gba_of_extOnly hEF _ (by intro l hl; subst hl; simp)
    have hApos := hA.1
    have hAread := hA.2
    rw [hgba] at hApos hAread
    simp only [parseTotalpath, pageMetaKVs_lookup_totalpath b2' pn page,
      if_pos hApos, hAread t]
    rfl
  | none =>
    simp only [parseTotalpath, pageMetaKVs_lookup_totalpath b2' pn page,
      Ztp htp, Nat.lt_irrefl, if_false]

theorem parseRecText_packed (b2' bF : NotebookBuilder) (pn : ℕ) (page : Page)
    (hEF : ExtOnly (· = Label.pageMeta pn) b2' bF)
    (Frt : ∀ c, rtGuard page.recogn_text = some c →
      AddrRead b2' (.pageRecognText pn) c)
    (Zrt : rtGuard page.recogn_text = none →
      b2'.get_block_address (.pageRecognText pn) = 0)
    (hrs : (if rtIsNonempty page.recogn_text then
        decide (kvLookup page.metadata "RECOGNSTATUS" = some (.nat 1))
      else
        (match kvLookup page.metadata "RECOGNTEXT" with
         | none => true
         | some (.nat 0) => true
         | _ => false)) = true)
    (hshape : (match page.recogn_text with
      | .placeholder => false
      | .data b => decide (0 < b.length)
      | .absent => true) = true) :
    ∀ t, parseRecText (bF.data ++ t) (pageMetaKVs b2' pn page) =
      page.recogn_text := by
  intro t
  cases hg : rtGuard page.recogn_text with
  | some c =>
    have hA : AddrRead bF (.pageRecognText pn) c :=
      addrRead_extOnly hEF (by intro l hl; subst hl; simp) (Frt c hg)
    have hgba : bF.get_block_address (.pageRecognText pn) =
        b2'.get_block_address (.pageRecognText pn) :=
      gba_of_extOnly hEF _ (by intro l hl; subst hl; simp)
    have hApos := hA.1
    have hAread := hA.2
    rw [hgba] at hApos hAread
    simp only [parseRecText, pageMetaKVs_lookup_rt_pos b2' pn page hApos,
      if_pos hApos, hAread t]
    exact (rtGuard_some_eq _ _ hg).symm
  | none =>
    have habs : page.recogn_text = .absent := by
      rcases rtGuard_none_cases _ hg with h | h | ⟨bb, hbb, hlen⟩
      · exact h
      · rw [h] at hshape; cases hshape
      · rw [hbb] at hshape
        simp only [decide_eq_true_eq] at hshape
        omega
    have hrtne : rtIsNonempty page.recogn_text = false := by
      unfold rtIsNonempty
      rw [hg]
      rfl
    rw [hrtne, if_neg (by simp)] at hrs
    rw [habs]
    simp only [parseRecText, pageMetaKVs_lookup_rt_zero b2' pn page (Zrt hg)]
    cases hlook : kvLookup page.metadata "RECOGNTEXT" with
    | none => rfl
    | some v =>
      rw [hlook] at hrs
      cases v with
      | nat n =>
        cases n with
        | zero => simp
        | succ m => cases hrs
      | str s => cases hrs
      | natList l => cases hrs

theorem parseRecFile_packed (b2' bF : NotebookBuilder) (pn : ℕ) (page : Page)
    (hEF : ExtOnly (· = Label.pageMeta pn) b2' bF)
    (Frf : ∀ rf, page.recogn_file = some rf →
      AddrRead b2' (.pageRecognFile pn) rf)
    (Zrf : page.recogn_file = none →
      b2'.get_block_address (.pageRecognFile pn) = 0)
    (hstale : (if page.recogn_file.isSome then true
      else (match kvLookup page.metadata "RECOGNFILE" with
         | none => true
         | some (.nat 0) => true
         | _ => false)) = true) :
    ∀ t, parseRecFile (bF.data ++ t) (pageMetaKVs b2' pn page) =
      page.recogn_file := by
  intro t
  cases hrf : page.recogn_file with
  | some rf =>
    have hA : AddrRead bF (.pageRecognFile pn) rf :=
      addrRead_extOnly hEF (by intro l hl; subst hl; simp) (Frf rf hrf)
    have hgba : bF.get_block_address (.pageRecognFile pn) =
        b2'.get_block_address (.pageRecognFile pn) :=
      gba_of_extOnly hEF _ (by intro l hl; subst hl; simp)
    have hApos := hA.1
    have hAread := hA.2
    rw [hgba] at hApos hAread
    simp only [parseRecFile, pageMetaKVs_lookup_rf_pos b2' pn page hApos,
      if_pos hApos, hAread t]
  | none =>
    rw [hrf] at hstale
    simp only [Option.isSome_none, Bool.false_eq_true, if_false] at hstale
    simp only [parseRecFile, pageMetaKVs_lookup_rf_zero b2' pn page (Zrf hrf)]
    cases hlook : kvLookup page.metadata "RECOGNFILE" with
    | none => rfl
    | some v =>
      rw [hlook] at hstale
      cases v with
      | nat n =>
        cases n with
        | zero => simp
        | succ m => cases hstale
      | str s => cases hstale
      | natList l => cases hstale

theorem bg_layer_content (page : Page)
    (hmap : page.layers.map Layer.get_name = LAYER_KEYS.map some) :
    ∀ layer ∈ page.layers, layer.get_name = some "BGLAYER" →
      layer.content = bgContent page := by
  intro layer hmem hln
  have hnd : (page.layers.map Layer.get_name).Nodup := by
    rw [hmap]; decide
  cases hfd : page.layers.find? (fun l => l.get_name = some "BGLAYER") with
  | none =>
    have := List.find?_eq_none.mp hfd layer hmem
    simp [hln] at this
  | some fl =>
    have hfl_mem := List.mem_of_find?_eq_some hfd
    have hfl_name := List.find?_some hfd
    simp only [decide_eq_true_eq] at hfl_name
    have heq : layer = fl :=
      List.inj_on_of_nodup_map hnd hmem hfl_mem (by rw [hln, hfl_name])
    unfold bgContent
    rw [hfd, heq]

/-- Packing one valid page appends only labels of that page, and the page
metadata block it files parses back (under any extension of the buffer) to
a page with the same structural core. -/
theorem packPage_parses (b : NotebookBuilder) (pn : ℕ) (page : Page)
    (hval : validPage page = true)
    (hr : EntriesReadable b) (hd : b.data ≠ [])
    (hnp : NoPageLabelsFrom pn b)
    (hstyle : ∀ lbl, styleLabelOf page = .ok lbl →
      0 < b.get_block_address (.style lbl) ∧
      ReadsAt b (b.get_block_address (.style lbl)) (bgContent page)) :
    ∃ b2, packPage b pn page = .ok b2 ∧
      ExtOnly (fun l => l.pageNum = some pn) b b2 ∧
      EntriesReadable b2 ∧ b2.data ≠ [] ∧
      0 < b2.get_block_address (.pageMeta pn) ∧
      ∃ pg2, pageCore pg2 = pageCore page ∧
        ∀ t, parsePageAt (b2.data ++ t) (b2.get_block_address (.pageMeta pn)) =
          some pg2 := by
  obtain ⟨hmap', hsty', hrs', hrt', hrf', hrfm'⟩ := validPage_parts page hval
  have hbg : ∀ layer ∈ page.layers, layer.get_name = some "BGLAYER" →
      ∃ lbl, styleLabelOf page = .ok lbl ∧
        0 < b.get_block_address (.style lbl) ∧
        ReadsAt b (b.get_block_address (.style lbl)) layer.content := by
    intro layer hm hn
    obtain ⟨lbl, hsl⟩ := validPage_styleLabel page hval
    obtain ⟨hpos, hread⟩ := hstyle lbl hsl
    refine ⟨lbl, hsl, hpos, ?_⟩
    rw [bg_layer_content page hmap' layer hm hn]
    exact hread
  obtain ⟨b1, hok1, E1, R1, D1, LPs⟩ :=
    packLayersFold_spec pn page LAYER_KEYS page.layers b hmap' (by decide)
      hr hd hbg
  have hE1ne : ∀ x, layerLabelsOf pn LAYER_KEYS x →
      x ≠ .pageTotalPath pn ∧ x ≠ .pageRecognText pn ∧
      x ≠ .pageRecognFile pn ∧ x ≠ .pageMeta pn := by
    intro x hx
    rcases hx with ⟨nm, _, rfl⟩ | ⟨nm, _, rfl⟩ <;>
      exact ⟨by simp, by simp, by simp, by simp⟩
  have hz_tp : b1.get_block_address (.pageTotalPath pn) = 0 := by
    rw [gba_of_extOnly E1 _ (fun l hl => (hE1ne l hl).1)]
    exact gba_eq_zero_of_noPageLabels hnp _ pn rfl (le_refl pn)
  have hz_rt : b1.get_block_address (.pageRecognText pn) = 0 := by
    rw [gba_of_extOnly E1 _ (fun l hl => (hE1ne l hl).2.1)]
    exact gba_eq_zero_of_noPageLabels hnp _ pn rfl (le_refl pn)
  have hz_rf : b1.get_block_address (.pageRecognFile pn) = 0 := by
    rw [gba_of_extOnly E1 _ (fun l hl => (hE1ne l hl).2.2.1)]
    exact gba_eq_zero_of_noPageLabels hnp _ pn rfl (le_refl pn)
  have hrf_ne : ∀ rf, page.recogn_file = some rf → 0 < rf.length := by
    intro rf hrf
    rw [hrf] at hrf'
    simpa using hrf'
  obtain ⟨E2, R2, D2, Ftp, Ztp, Frt, Zrt, Frf, Zrf⟩ :=
    packPageBlocks_spec b1 pn page R1 D1 hz_tp hz_rt hz_rf hrf_ne
  set b2' := packPageBlocks b1 pn page with hb2'
  set bF := b2'.append (.pageMeta pn) (encodeMetaS (pageMetaKVs b2' pn page))
    with hbF
  have hokF : packPage b pn page = .ok bF := by
    rw [hbF, hb2']
    simp only [packPage, hok1]
  have hEF : ExtOnly (· = Label.pageMeta pn) b2' bF := by
    rw [hbF]
    exact extOnly_append _ _ _ _ rfl
  have RF : EntriesReadable bF := by
    rw [hbF]
    exact entriesReadable_append R2 _ _
  have DF : bF.data ≠ [] := extOnly_data_ne_nil hEF D2
  have hMF : AddrRead bF (.pageMeta pn) (encodeMetaS (pageMetaKVs b2' pn page)) := by
    rw [hbF]
    exact addrRead_append b2' _ _ D2
  have hE2Fne : ∀ x, (pblockLabel pn x ∨ x = Label.pageMeta pn) →
      ∀ nm, x ≠ .pageLayerMeta pn nm := by
    intro x hx nm
    rcases hx with (rfl | rfl | rfl) | rfl <;> simp
  have hE2F : ExtOnly (fun l => pblockLabel pn l ∨ l = Label.pageMeta pn) b1 bF :=
    extOnly_trans (extOnly_mono (fun l h => Or.inl h) E2)
      (extOnly_mono (fun l h => Or.inr h) hEF)
  have LPsF : List.Forall₂ (fun name layer => LayerParsed bF pn name layer)
      LAYER_KEYS page.layers :=
    LPs.imp (fun {a c} hlp => layerParsed_extOnly hE2F
      (fun l hl => hE2Fne l hl a) hlp)
  have hlkF : ∀ nm ∈ LAYER_KEYS, kvLookup (pageMetaKVs b2' pn page) nm =
      some (.nat (bF.get_block_address (.pageLayerMeta pn nm))) := by
    intro nm hnm
    have hgba : bF.get_block_address (.pageLayerMeta pn nm) =
        b2'.get_block_address (.pageLayerMeta pn nm) :=
      gba_of_extOnly hEF _ (by intro l hl; subst hl; simp)
    rw [hgba]
    exact pageMetaKVs_lookup_layer b2' pn page nm hnm
  obtain ⟨ls2, hsl2, hcore2⟩ :=
    parseSlots_build (pageMetaKVs b2' pn page) bF pn LAYER_KEYS page.layers
      hmap' LPsF hlkF
  have hmetaRead : ∀ t, readMetaS (bF.data ++ t)
      (bF.get_block_address (.pageMeta pn)) =
      some (pageMetaKVs b2' pn page) := by
    intro t
    unfold readMetaS
    rw [hMF.2 t]
    simp [decodeMetaS_encodeMetaS]
  have htp2 := parseTotalpath_packed b2' bF pn page hEF Ftp Ztp
  have hrt2 := parseRecText_packed b2' bF pn page hEF Frt Zrt hrs' hrt'
  have hrf2 := parseRecFile_packed b2' bF pn page hEF Frf Zrf hrfm'
  refine ⟨bF, hokF, ?_, RF, DF, hMF.1,
    ⟨⟨pageMetaKVs b2' pn page, ls2, page.totalpath, page.recogn_text,
      page.recogn_file⟩, ?_, ?_⟩⟩
  · have hlay : ExtOnly (fun l => l.pageNum = some pn) b b1 :=
      extOnly_mono (fun l hl => by
        rcases hl with ⟨nm, _, rfl⟩ | ⟨nm, _, rfl⟩ <;> rfl) E1
    have hblocks : ExtOnly (fun l => l.pageNum = some pn) b1 bF :=
      extOnly_mono (fun l hl => by
        rcases hl with (rfl | rfl | rfl) | rfl <;> rfl) hE2F
    exact extOnly_trans hlay hblocks
  · -- the parsed page has the same core
    simp only [pageCore, Prod.mk.injEq, true_and, and_true]
    refine ⟨hcore2, ?_⟩
    refine pageMetaKVs_strip b2' pn page ?_
    intro hpos
    cases hg : rtGuard page.recogn_text with
    | none =>
      rw [Zrt hg] at hpos
      omega
    | some c =>
      have hrtne : rtIsNonempty page.recogn_text = true := by
        unfold rtIsNonempty
        rw [hg]
        rfl
      rw [hrtne, if_pos rfl] at hrs'
      exact of_decide_eq_true hrs'
  · intro t
    simp only [parsePageAt, hmetaRead t, hsl2 t, htp2 t, hrt2 t, hrf2 t]

theorem packPagesFrom_spec (nb : Notebook) :
    ∀ (ps : List Page) (pn : ℕ) (b : NotebookBuilder),
    (∀ p ∈ ps, p ∈ nb.pages) →
    (∀ p ∈ ps, validPage p = true) →
    StyleFacts nb b →
    EntriesReadable b → b.data ≠ [] →
    NoPageLabelsFrom pn b →
    ∃ b9, packPagesFrom pn ps b = .ok b9 ∧
      ExtOnly (fun l => ∃ m, pn ≤ m ∧ m < pn + ps.length ∧
        l.pageNum = some m) b b9 ∧
      EntriesReadable b9 ∧ b9.data ≠ [] ∧
      ∃ ps2 : List Page, ps2.map pageCore = ps.map pageCore ∧
        ∀ i, i < ps.length →
          0 < b9.get_block_address (.pageMeta (pn + i)) ∧
          ∀ t, parsePageAt (b9.data ++ t)
            (b9.get_block_address (.pageMeta (pn + i))) =
            some (ps2.getD i emptyPage) := by
  intro ps
  induction ps with
  | nil =>
    intro pn b _ _ _ hr hd _
    refine ⟨b, rfl, extOnly_refl _ _, hr, hd, [], rfl, ?_⟩
    intro i hi
    cases hi
  | cons p rest ih =>
    intro pn b hmem hval hsf hr hd hnp
    obtain ⟨b2, hok2, E2, R2, D2, hMpos, pg2, hcore, hparse⟩ :=
      packPage_parses b pn p (hval p (List.mem_cons_self _ _)) hr hd hnp
        (fun lbl hl => hsf p (hmem p (List.mem_cons_self _ _)) lbl hl)
    have hsf2 : StyleFacts nb b2 :=
      styleFacts_extOnly E2 (fun (l : Label) hl (s : String) => by
        intro hcon
        rw [hcon] at hl
        simp [Label.pageNum] at hl) hsf
    have hnp2 : NoPageLabelsFrom (pn + 1) b2 :=
      noPageLabelsFrom_extOnly E2
        (fun l hl m hm => by
          rw [hl] at hm
          cases hm
          omega)
        (noPageLabelsFrom_mono (Nat.le_succ pn) hnp)
    obtain ⟨b9, hok9, E9, R9, D9, ps2', hcore', hfacts'⟩ :=
      ih (pn + 1) b2 (fun q hq => hmem q (List.mem_cons_of_mem _ hq))
        (fun q hq => hval q (List.mem_cons_of_mem _ hq)) hsf2 R2 D2 hnp2
    have hE9ne : ∀ l : Label, (∃ m, pn + 1 ≤ m ∧ m < pn + 1 + rest.length ∧
        l.pageNum = some m) → l ≠ .pageMeta pn := by
      intro l hl hcon
      obtain ⟨m, hm1, _, hm3⟩ := hl
      rw [hcon] at hm3
      simp only [Label.pageNum, Option.some.injEq] at hm3
      omega
    have hgba9 : b9.get_block_address (.pageMeta pn) =
        b2.get_block_address (.pageMeta pn) :=
      gba_of_extOnly E9 _ hE9ne
    have E9c := E9
    obtain ⟨d9, _, hd9, _, _⟩ := E9c
    refine ⟨b9, ?_, ?_, R9, D9, pg2 :: ps2', ?_, ?_⟩
    · simp only [packPagesFrom, hok2]
      exact hok9
    · refine extOnly_trans (extOnly_mono ?_ E2) (extOnly_mono ?_ E9)
      · intro l hl
        exact ⟨pn, le_refl pn, by simp, hl⟩
      · intro l hl
        obtain ⟨m, hm1, hm2, hm3⟩ := hl
        exact ⟨m, by omega, by simp only [List.length_cons]; omega, hm3⟩
    · simp only [List.map_cons, hcore', List.cons.injEq, and_true]
      exact hcore
    · intro i hi
      cases i with
      | zero =>
        simp only [Nat.add_zero]
        refine ⟨by rw [hgba9]; exact hMpos, ?_⟩
        intro t
        rw [hgba9, hd9, List.append_assoc]
        exact hparse (d9 ++ t)
      | succ j =>
        have hj : j < rest.length := by
          simp only [List.length_cons] at hi
          omega
        have hidx : pn + (j + 1) = (pn + 1) + j := by omega
        rw [hidx]
        exact hfacts' j hj

/-! ## C1: the rebuilt footer, key by key -/
theorem pageFold_preserves_nonpage (b : NotebookBuilder) (key : FKey)
    (hkey : ∀ i, key ≠ .page i) :
    ∀ (ls : List Label) (mf : FKVs),
    kvLookup (ls.foldl (fun mf l => match l with
      | .pageMeta nidx =>
        kvSetdefault mf (.page nidx) (.nat (b.get_block_address (.pageMeta nidx)))
      | _ => mf) mf) key = kvLookup mf key := by
  intro ls
  induction ls with
  | nil => intro mf; rfl
  | cons l ls ih =>
    intro mf
    simp only [List.foldl_cons]
    rw [ih]
    cases l with
    | pageMeta nidx => exact kvLookup_kvSetdefault_ne _ _ _ _ (hkey nidx)
    | typeMark => rfl
    | signatureL => rfl
    | headerL => rfl
    | cover2L => rfl
    | titleMeta i => rfl
    | keywordMeta i => rfl
    | linkMeta i => rfl
    | style s => rfl
    | pageLayerBitmap p nm => rfl
    | pageLayerMeta p nm => rfl
    | pageTotalPath p => rfl
    | pageRecognText p => rfl
    | pageRecognFile p => rfl
    | footerL => rfl
    | tailL => rfl

theorem pageFold_lookup_notmem (b : NotebookBuilder) :
    ∀ (ls : List Label) (mf : FKVs) (k : ℕ), Label.pageMeta k ∉ ls →
    kvLookup (ls.foldl (fun mf l => match l with
      | .pageMeta nidx =>
        kvSetdefault mf (.page nidx) (.nat (b.get_block_address (.pageMeta nidx)))
      | _ => mf) mf) (.page k) = kvLookup mf (.page k) := by
  intro ls
  induction ls with
  | nil => intro mf k _; rfl
  | cons l ls ih =>
    intro mf k hk
    simp only [List.foldl_cons]
    rw [ih _ k (fun h => hk (List.mem_cons_of_mem _ h))]
    cases l with
    | pageMeta nidx =>
      have hne : nidx ≠ k := fun h => hk (by rw [h]; exact List.mem_cons_self _ _)
      exact kvLookup_kvSetdefault_ne _ _ _ _ (by
        intro hcon
        rw [FKey.page.injEq] at hcon
        exact hne hcon.symm)
    | typeMark => rfl
    | signatureL => rfl
    | headerL => rfl
    | cover2L => rfl
    | titleMeta i => rfl
    | keywordMeta i => rfl
    | linkMeta i => rfl
    | style s => rfl
    | pageLayerBitmap p nm => rfl
    | pageLayerMeta p nm => rfl
    | pageTotalPath p => rfl
    | pageRecognText p => rfl
    | pageRecognFile p => rfl
    | footerL => rfl
    | tailL => rfl

theorem pageFold_preserves_some (b : NotebookBuilder) :
    ∀ (ls : List Label) (mf : FKVs) (k : ℕ) (v : MVal),
    kvLookup mf (.page k) = some v →
    kvLookup (ls.foldl (fun mf l => match l with
      | .pageMeta nidx =>
        kvSetdefault mf (.page nidx) (.nat (b.get_block_address (.pageMeta nidx)))
      | _ => mf) mf) (.page k) = some v := by
  intro ls
  induction ls with
  | nil => intro mf k v h; exact h
  | cons l ls ih =>
    intro mf k v h
    simp only [List.foldl_cons]
    refine ih _ k v ?_
    cases l with
    | pageMeta nidx =>
      rw [kvLookup_kvSetdefault_isSome _ _ _ _ (by rw [h]; rfl)]
      exact h
    | typeMark => exact h
    | signatureL => exact h
    | headerL => exact h
    | cover2L => exact h
    | titleMeta i => exact h
    | keywordMeta i => exact h
    | linkMeta i => exact h
    | style s => exact h
    | pageLayerBitmap p nm => exact h
    | pageLayerMeta p nm => exact h
    | pageTotalPath p => exact h
    | pageRecognText p => exact h
    | pageRecognFile p => exact h
    | footerL => exact h
    | tailL => exact h

theorem pageFold_lookup_mem (b : NotebookBuilder) :
    ∀ (ls : List Label) (mf : FKVs) (k : ℕ),
    (∀ k', kvLookup mf (.page k') = none ∨
      kvLookup mf (.page k') =
        some (.nat (b.get_block_address (.pageMeta k')))) →
    Label.pageMeta k ∈ ls →
    kvLookup (ls.foldl (fun mf l => match l with
      | .pageMeta nidx =>
        kvSetdefault mf (.page nidx) (.nat (b.get_block_address (.pageMeta nidx)))
      | _ => mf) mf) (.page k) =
      some (.nat (b.get_block_address (.pageMeta k))) := by
  intro ls
  induction ls with
  | nil => intro mf k _ hk; cases hk
  | cons l ls ih =>
    intro mf k hcanon hk
    simp only [List.foldl_cons]
    by_cases hl : l = Label.pageMeta k
    · subst hl
      rcases hcanon k with hnone | hsome
      · refine pageFold_preserves_some b ls _ k _ ?_
        exact kvLookup_kvSetdefault_self_none _ _ _ hnone
      · refine pageFold_preserves_some b ls _ k _ ?_
        rw [kvLookup_kvSetdefault_isSome _ _ _ _ (by rw [hsome]; rfl)]
        exact hsome
    · have hk2 : Label.pageMeta k ∈ ls := by
        rcases List.mem_cons.mp hk with h | h
        · exact absurd h.symm hl
        · exact h
      refine ih _ k ?_ hk2
      intro k'
      cases l with
      | pageMeta nidx =>
        by_cases hkk : (FKey.page k' : FKey) = .page nidx
        · have : k' = nidx := by
            simpa [FKey.page.injEq] using hkk
          subst this
          rcases hcanon k' with hnone | hsome
          · right
            exact kvLookup_kvSetdefault_self_none _ _ _ hnone
          · right
            rw [kvLookup_kvSetdefault_isSome _ _ _ _ (by rw [hsome]; rfl)]
            exact hsome
        · rw [kvLookup_kvSetdefault_ne _ _ _ _ hkk]
          exact hcanon k'
      | typeMark => exact hcanon k'
      | signatureL => exact hcanon k'
      | headerL => exact hcanon k'
      | cover2L => exact hcanon k'
      | titleMeta i => exact hcanon k'
      | keywordMeta i => exact hcanon k'
      | linkMeta i => exact hcanon k'
      | style s => exact hcanon k'
      | pageLayerBitmap p nm => exact hcanon k'
      | pageLayerMeta p nm => exact hcanon k'
      | pageTotalPath p => exact hcanon k'
      | pageRecognText p => exact hcanon k'
      | pageRecognFile p => exact hcanon k'
      | footerL => exact hcanon k'
      | tailL => exact hcanon k'

theorem foldl_lookup_preserved {β : Type} (g : FKVs → β → FKVs) (key : FKey)
    (hg : ∀ mf x, kvLookup (g mf x) key = kvLookup mf key) :
    ∀ (ls : List β) (mf : FKVs),
    kvLookup (ls.foldl g mf) key = kvLookup mf key := by
  intro ls
  induction ls with
  | nil => intro mf; rfl
  | cons x ls ih =>
    intro mf
    simp only [List.foldl_cons]
    rw [ih, hg]

theorem titleFoldFn_preserves (b : NotebookBuilder) (key : FKey)
    (hkey : ∀ i, key ≠ .title i) (mf : FKVs) (l : Label) :
    kvLookup (match l with
      | Label.titleMeta nidx =>
        let addrs := b.get_duplicate_block_address_list (.titleMeta nidx)
        if addrs.length = 1 then
          kvSetdefault mf (.title nidx) (.nat (addrs.headD 0))
        else kvUpdate mf (.title nidx) (.natList addrs)
      | _ => mf) key = kvLookup mf key := by
  cases l
  case titleMeta nidx =>
    simp only
    split
    · exact kvLookup_kvSetdefault_ne _ _ _ _ (hkey nidx)
    · exact kvLookup_kvUpdate_ne _ _ _ _ (hkey nidx)
  all_goals rfl

theorem keywordFoldFn_preserves (b : NotebookBuilder) (key : FKey)
    (hkey : ∀ i, key ≠ .keyword i) (mf : FKVs) (l : Label) :
    kvLookup (match l with
      | Label.keywordMeta nidx =>
        let addrs := b.get_duplicate_block_address_list (.keywordMeta nidx)
        if addrs.length = 1 then
          kvSetdefault mf (.keyword nidx) (.nat (addrs.headD 0))
        else kvUpdate mf (.keyword nidx) (.natList addrs)
      | _ => mf) key = kvLookup mf key := by
  cases l
  case keywordMeta nidx =>
    simp only
    split
    · exact kvLookup_kvSetdefault_ne _ _ _ _ (hkey nidx)
    · exact kvLookup_kvUpdate_ne _ _ _ _ (hkey nidx)
  all_goals rfl

theorem linkFoldFn_preserves (b : NotebookBuilder) (key : FKey)
    (hkey : ∀ i, key ≠ .link i) (mf : FKVs) (l : Label) :
    kvLookup (match l with
      | Label.linkMeta nidx =>
        let addrs := b.get_duplicate_block_address_list (.linkMeta nidx)
        if addrs.length = 1 then
          kvSetdefault mf (.link nidx) (.nat (addrs.headD 0))
        else kvUpdate mf (.link nidx) (.natList addrs)
      | _ => mf) key = kvLookup mf key := by
  cases l
  case linkMeta nidx =>
    simp only
    split
    · exact kvLookup_kvSetdefault_ne _ _ _ _ (hkey nidx)
    · exact kvLookup_kvUpdate_ne _ _ _ _ (hkey nidx)
  all_goals rfl

theorem styleFoldFn_preserves (b : NotebookBuilder) (key : FKey)
    (hkey : ∀ s, key ≠ .styleKey s) (mf : FKVs) (l : Label) :
    kvLookup (match l with
      | Label.style s =>
        kvSetdefault mf (.styleKey s) (.nat (b.get_block_address (.style s)))
      | _ => mf) key = kvLookup mf key := by
  cases l
  case style s => exact kvLookup_kvSetdefault_ne _ _ _ _ (hkey s)
  all_goals rfl

theorem footerKVs_to_pageStage (b : NotebookBuilder) (nb : Notebook) (key : FKey)
    (htitle : ∀ i, key ≠ .title i) (hkw : ∀ i, key ≠ .keyword i)
    (hlink : ∀ i, key ≠ .link i) (hc0 : key ≠ .cover0) (hc2 : key ≠ .cover2)
    (hstyle : ∀ s, key ≠ .styleKey s) (hdirty : key ≠ .extra "DIRTY") :
    kvLookup (footerKVsOf b nb) key =
      kvLookup (b.get_labels.foldl (fun mf l => match l with
        | Label.pageMeta nidx =>
          kvSetdefault mf (.page nidx)
            (.nat (b.get_block_address (.pageMeta nidx)))
        | _ => mf)
        (kvSetdefault [] .fileFeature
          (.nat (b.get_block_address .headerL)))) key := by
  simp only [footerKVsOf]
  have hstyles := foldl_lookup_preserved
    (fun mf l => match l with
      | Label.style s =>
        kvSetdefault mf (.styleKey s) (.nat (b.get_block_address (.style s)))
      | _ => mf) key (styleFoldFn_preserves b key hstyle)
  have htitles := foldl_lookup_preserved
    (fun mf l => match l with
      | Label.titleMeta nidx =>
        let addrs := b.get_duplicate_block_address_list (.titleMeta nidx)
        if addrs.length = 1 then
          kvSetdefault mf (.title nidx) (.nat (addrs.headD 0))
        else kvUpdate mf (.title nidx) (.natList addrs)
      | _ => mf) key (titleFoldFn_preserves b key htitle)
  have hkws := foldl_lookup_preserved
    (fun mf l => match l with
      | Label.keywordMeta nidx =>
        let addrs := b.get_duplicate_block_address_list (.keywordMeta nidx)
        if addrs.length = 1 then
          kvSetdefault mf (.keyword nidx) (.nat (addrs.headD 0))
        else kvUpdate mf (.keyword nidx) (.natList addrs)
      | _ => mf) key (keywordFoldFn_preserves b key hkw)
  have hlinks := foldl_lookup_preserved
    (fun mf l => match l with
      | Label.linkMeta nidx =>
        let addrs := b.get_duplicate_block_address_list (.linkMeta nidx)
        if addrs.length = 1 then
          kvSetdefault mf (.link nidx) (.nat (addrs.headD 0))
        else kvUpdate mf (.link nidx) (.natList addrs)
      | _ => mf) key (linkFoldFn_preserves b key hlink)
  cases hd : kvLookup nb.footer (.extra "DIRTY") with
  | some v =>
    rw [kvLookup_kvUpdate_ne _ _ _ _ hdirty, hstyles]
    split
    · rw [kvLookup_kvUpdate_ne _ _ _ _ hc0, hlinks, hkws, htitles]
    · rw [kvLookup_kvUpdate_ne _ _ _ _ hc2, hlinks, hkws, htitles]
  | none =>
    rw [hstyles]
    split
    · rw [kvLookup_kvUpdate_ne _ _ _ _ hc0, hlinks, hkws, htitles]
    · rw [kvLookup_kvUpdate_ne _ _ _ _ hc2, hlinks, hkws, htitles]

theorem footerKVs_fileFeature (b : NotebookBuilder) (nb : Notebook) :
    kvLookup (footerKVsOf b nb) .fileFeature =
      some (.nat (b.get_block_address .headerL)) := by
  rw [footerKVs_to_pageStage b nb .fileFeature
    (fun i h => by cases h) (fun i h => by cases h) (fun i h => by cases h)
    (fun h => by cases h) (fun h => by cases h) (fun s h => by cases h)
    (fun h => by cases h)]
  rw [pageFold_preserves_nonpage b .fileFeature (fun i h => by cases h)]
  simp [kvSetdefault, kvContains, kvLookup]

theorem footerKVs_page_mem (b : NotebookBuilder) (nb : Notebook) (k : ℕ)
    (hmem : Label.pageMeta k ∈ b.get_labels) :
    kvLookup (footerKVsOf b nb) (.page k) =
      some (.nat (b.get_block_address (.pageMeta k))) := by
  rw [footerKVs_to_pageStage b nb (.page k)
    (fun i h => by cases h) (fun i h => by cases h) (fun i h => by cases h)
    (fun h => by cases h) (fun h => by cases h) (fun s h => by cases h)
    (fun h => by cases h)]
  refine pageFold_lookup_mem b _ _ k ?_ hmem
  intro k'
  left
  simp [kvSetdefault, kvContains, kvLookup]

theorem footerKVs_page_notmem (b : NotebookBuilder) (nb : Notebook) (k : ℕ)
    (hmem : Label.pageMeta k ∉ b.get_labels) :
    kvLookup (footerKVsOf b nb) (.page k) = none := by
  rw [footerKVs_to_pageStage b nb (.page k)
    (fun i h => by cases h) (fun i h => by cases h) (fun i h => by cases h)
    (fun h => by cases h) (fun h => by cases h) (fun s h => by cases h)
    (fun h => by cases h)]
  rw [pageFold_lookup_notmem b _ _ k hmem]
  simp [kvSetdefault, kvContains, kvLookup]

theorem footerKVs_length (b : NotebookBuilder) (nb : Notebook) (n : ℕ)
    (hmem : ∀ i, i < n → Label.pageMeta (1 + i) ∈ b.get_labels) :
    n + 1 ≤ (footerKVsOf b nb).length := by
  have hnd : (FKey.fileFeature ::
      (List.range n).map (fun i => FKey.page (1 + i))).Nodup := by
    rw [List.nodup_cons]
    constructor
    · simp
    · exact List.Nodup.map (fun a c h => by simpa using h) (List.nodup_range n)
  have hlk : ∀ key ∈ FKey.fileFeature ::
      (List.range n).map (fun i => FKey.page (1 + i)),
      (kvLookup (footerKVsOf b nb) key).isSome := by
    intro key hkey
    rcases List.mem_cons.mp hkey with rfl | hk2
    · rw [footerKVs_fileFeature]
      rfl
    · obtain ⟨i, hi, rfl⟩ := List.mem_map.mp hk2
      rw [footerKVs_page_mem b nb _ (hmem i (List.mem_range.mp hi))]
      rfl
  have h := length_ge_of_distinct_lookups _ (footerKVsOf b nb) hnd hlk
  simpa using h

/-! ## C1: re-reading all pages through the footer -/
theorem parsePagesFrom_build (f : Bytes) (footer : FKVs) :
    ∀ (ps2 : List Page) (start fuel : ℕ),
    (∀ i, i < ps2.length → ∃ a,
      kvLookup footer (.page (start + i)) = some (.nat a) ∧
      parsePageAt f a = some (ps2.getD i emptyPage)) →
    kvLookup footer (.page (start + ps2.length)) = none →
    ps2.length + 1 ≤ fuel →
    parsePagesFrom f footer fuel start = some ps2 := by
  intro ps2
  induction ps2 with
  | nil =>
    intro start fuel _ hnone hfuel
    cases fuel with
    | zero => omega
    | succ fl =>
      simp only [List.length_nil, Nat.add_zero] at hnone
      simp only [parsePagesFrom, hnone]
  | cons q qs ih =>
    intro start fuel hfacts hnone hfuel
    cases fuel with
    | zero => simp at hfuel
    | succ fl =>
      obtain ⟨a, hlk, hpp⟩ := hfacts 0 (by simp)
      rw [Nat.add_zero] at hlk
      simp only [List.getD, List.get?_cons_zero] at hpp
      have hrec : parsePagesFrom f footer fl (start + 1) = some qs := by
        refine ih (start + 1) fl ?_ ?_ ?_
        · intro i hi
          obtain ⟨a2, hlk2, hpp2⟩ := hfacts (i + 1)
            (by simp only [List.length_cons]; omega)
          refine ⟨a2, ?_, ?_⟩
          · rw [show start + 1 + i = start + (i + 1) by omega]
            exact hlk2
          · simpa using hpp2
        · rw [show start + 1 + qs.length = start + (q :: qs).length by
            simp only [List.length_cons]; omega]
          exact hnone
        · simp only [List.length_cons] at hfuel
          omega
      simp only [parsePagesFrom, hlk, hpp, hrec, Option.getD_some]

theorem styleOnly_no_pageNum :
    ∀ l, styleOnly l → ∀ m, l.pageNum = some m → False := by
  intro l
  cases l <;> simp [styleOnly, Label.pageNum]

theorem mem_labels_of_gba_pos (b : NotebookBuilder) (l : Label)
    (h : 0 < b.get_block_address l) : l ∈ b.get_labels := by
  unfold NotebookBuilder.get_block_address at h
  cases hf : (b.entries.filter (fun e => e.label = l)).getLast? with
  | none => rw [hf] at h; cases h
  | some e =>
    have hx : e ∈ (b.entries.filter (fun e => e.label = l)).getLast? :=
      Option.mem_def.mpr hf
    obtain ⟨hne, hex⟩ := List.mem_getLast?_eq_getLast hx
    have hmem : e ∈ b.entries.filter (fun e => e.label = l) := by
      rw [hex]
      exact List.getLast_mem hne
    have hmem2 := List.mem_filter.mp hmem
    have hlab : e.label = l := by simpa using hmem2.2
    unfold NotebookBuilder.get_labels
    rw [← hlab]
    exact List.mem_map_of_mem _ hmem2.1

theorem not_mem_labels_of_noPageLabels {pn : ℕ} {b : NotebookBuilder}
    (hnp : NoPageLabelsFrom pn b) (l : Label) (m : ℕ)
    (hl : l.pageNum = some m) (hm : pn ≤ m) : l ∉ b.get_labels := by
  intro hmem
  unfold NotebookBuilder.get_labels at hmem
  obtain ⟨e, he, hlab⟩ := List.mem_map.mp hmem
  have := hnp e he m (by rw [hlab]; exact hl)
  omega

/-- Building a valid notebook and re-parsing the bytes succeeds and
reproduces every page up to its structural core. -/
theorem buildNotebookBytes_parses (nb : Notebook)
    (hval : ∀ p ∈ nb.pages, validPage p = true)
    (hcoh : styleCoherent nb = true)
    (hsig : SN_SIGNATURES.contains nb.signature = true) :
    ∃ f nb2, buildNotebookBytes nb = .ok f ∧ parseNotebook f = .ok nb2 ∧
      nb2.pages.map pageCore = nb.pages.map pageCore := by
  obtain ⟨E17, R7, D7, T7, S7, H7⟩ := packPrefix_facts nb
  have hinv : BgInv nb (packPrefix nb) := by
    intro s hpos
    rw [gba_eq_zero_of_extOnly_empty E17 (.style s)
      (fun l hl hcon => by rw [hcon] at hl; simp [headLabel] at hl)] at hpos
    exact absurd hpos (Nat.lt_irrefl 0)
  obtain ⟨b8, hok8, E78, R8, D8, SF8⟩ :=
    pack_backgrounds_styleFacts nb (packPrefix nb) hval hcoh R7 D7 hinv
  have T8 : ReadsAt b8 0 nb.typeMark := readsAt_extOnly E78 T7
  have S8 : ReadsAt b8 (nb.typeMark.length + 1) [.s nb.signature] :=
    readsAt_extOnly E78 S7
  have H8 : AddrRead b8 .headerL (encodeMetaS nb.header) :=
    addrRead_extOnly E78
      (fun l hl hcon => by rw [hcon] at hl; simp [styleOnly] at hl) H7
  have E1to8 : ExtOnly (fun l => headLabel l ∨ styleOnly l) .emptyB b8 :=
    extOnly_trans (extOnly_mono (fun _ => Or.inl) E17)
      (extOnly_mono (fun _ => Or.inr) E78)
  have hnp8 : NoPageLabelsFrom 1 b8 := by
    intro x hx m hm
    obtain ⟨d, e, _, he, hp⟩ := E1to8
    rw [he] at hx
    simp only [NotebookBuilder.emptyB, List.nil_append] at hx
    rcases hp x hx with hh | hs
    · exact (headLabel_no_pageNum x.label hh m hm).elim
    · exact (styleOnly_no_pageNum x.label hs m hm).elim
  obtain ⟨b9, hok9, E9, R9, D9, ps2, hcore, hfacts⟩ :=
    packPagesFrom_spec nb nb.pages 1 b8 (fun _ h => h) hval SF8 R8 D8 hnp8
  have hne9 : ∀ l : Label, (∃ m, 1 ≤ m ∧ m < 1 + nb.pages.length ∧
      l.pageNum = some m) → ∀ l0 : Label, l0.pageNum = none → l ≠ l0 := by
    intro l hl l0 h0 hcon
    obtain ⟨m, _, _, hm⟩ := hl
    rw [hcon, h0] at hm
    cases hm
  have T9 : ReadsAt b9 0 nb.typeMark := readsAt_extOnly E9 T8
  have S9 : ReadsAt b9 (nb.typeMark.length + 1) [.s nb.signature] :=
    readsAt_extOnly E9 S8
  have H9 : AddrRead b9 .headerL (encodeMetaS nb.header) :=
    addrRead_extOnly E9 (fun l hl => hne9 l hl .headerL rfl) H8
  have hnp9 : NoPageLabelsFrom (1 + nb.pages.length) b9 :=
    noPageLabelsFrom_extOnly E9
      (fun l hl m hm => by
        obtain ⟨m2, h1, h2, hm2⟩ := hl
        rw [hm] at hm2
        cases hm2
        omega)
      (noPageLabelsFrom_mono (by omega) hnp8)
  -- suffix
  have hFA : AddrRead (pack_footer_preserving_extras b9 nb) .footerL
      (encodeMetaF (footerKVsOf b9 nb)) := addrRead_append b9 _ _ D9
  have E10 : ExtOnly (· = Label.footerL) b9 (pack_footer_preserving_extras b9 nb) :=
    extOnly_append _ _ _ _ rfl
  have E11 : ExtOnly (· = Label.tailL) (pack_footer_preserving_extras b9 nb)
      (pack_tail (pack_footer_preserving_extras b9 nb)) :=
    extOnly_append _ _ _ _ rfl
  have E12 : ExtOnly (fun _ => False)
      (pack_tail (pack_footer_preserving_extras b9 nb))
      (pack_footer_address (pack_tail (pack_footer_preserving_extras b9 nb))) :=
    extOnly_rawAppend _ _ _
  set b11 := pack_tail (pack_footer_preserving_extras b9 nb) with hb11
  set b12 := pack_footer_address b11 with hb12
  set fa := b11.get_block_address .footerL with hfa
  have hfa10 : fa = (pack_footer_preserving_extras b9 nb).get_block_address
      .footerL := by
    rw [hfa, hb11]
    exact gba_of_extOnly E11 _ (fun l hl hcon => by rw [hl] at hcon; cases hcon)
  have hdata12 : b12.data = b11.data ++ [.n fa] := by
    rw [hb12]
    rfl
  have hlast : b12.data.getLast? = some (.n fa) := by
    rw [hdata12]
    exact List.getLast?_concat _
  have E912 : ExtOnly (fun l => l = Label.footerL ∨ l = Label.tailL) b9 b12 := by
    refine extOnly_trans (extOnly_mono (fun l h => Or.inl h) E10)
      (extOnly_trans (extOnly_mono (fun l h => Or.inr h) E11)
        (extOnly_mono (fun l h => h.elim) E12))
  have hRA12 : ReadsAt b12 fa (encodeMetaF (footerKVsOf b9 nb)) := by
    rw [hfa10]
    exact readsAt_extOnly E12 (readsAt_extOnly E11 hFA.2)
  have T12 : ReadsAt b12 0 nb.typeMark := readsAt_extOnly E912 T9
  have S12 : ReadsAt b12 (nb.typeMark.length + 1) [.s nb.signature] :=
    readsAt_extOnly E912 S9
  have H12 : AddrRead b12 .headerL (encodeMetaS nb.header) :=
    addrRead_extOnly E912
      (fun l hl hcon => by rcases hl with rfl | rfl <;> cases hcon) H9
  -- footer lookups
  have hmemlab : ∀ i, i < nb.pages.length →
      Label.pageMeta (1 + i) ∈ b9.get_labels := by
    intro i hi
    exact mem_labels_of_gba_pos b9 _ (hfacts i hi).1
  have hff : kvLookup (footerKVsOf b9 nb) .fileFeature =
      some (.nat (b9.get_block_address .headerL)) := footerKVs_fileFeature b9 nb
  have hpg : ∀ i, i < nb.pages.length →
      kvLookup (footerKVsOf b9 nb) (.page (1 + i)) =
        some (.nat (b9.get_block_address (.pageMeta (1 + i)))) := by
    intro i hi
    exact footerKVs_page_mem b9 nb _ (hmemlab i hi)
  have hnonepg : kvLookup (footerKVsOf b9 nb)
      (.page (1 + nb.pages.length)) = none :=
    footerKVs_page_notmem b9 nb _
      (not_mem_labels_of_noPageLabels hnp9 _ _ rfl (le_refl _))
  have hflen : nb.pages.length + 1 ≤ (footerKVsOf b9 nb).length :=
    footerKVs_length b9 nb _ hmemlab
  have hlen2 : ps2.length = nb.pages.length := by
    have := congrArg List.length hcore
    simpa using this
  have E912c := E912
  obtain ⟨d912, _, hd912, _, _⟩ := E912c
  -- all pages parse from the final buffer
  have hpages : parsePagesFrom b12.data (footerKVsOf b9 nb)
      ((footerKVsOf b9 nb).length + 1) 1 = some ps2 := by
    refine parsePagesFrom_build b12.data (footerKVsOf b9 nb) ps2 1 _ ?_ ?_ ?_
    · intro i hi
      have hi' : i < nb.pages.length := by omega
      refine ⟨b9.get_block_address (.pageMeta (1 + i)), hpg i hi', ?_⟩
      rw [hd912]
      exact (hfacts i hi').2 d912
    · rw [hlen2]
      exact hnonepg
    · omega
  -- reads from the final buffer
  have hfooterRead : readMetaF b12.data fa = some (footerKVsOf b9 nb) := by
    unfold readMetaF
    rw [readsAt_final hRA12]
    simp [decodeMetaF_encodeMetaF]
  have htmRead : readBlock b12.data 0 = some nb.typeMark := readsAt_final T12
  have hsigRead : readBlock b12.data (nb.typeMark.length + 1) =
      some [.s nb.signature] := readsAt_final S12
  have hheaderRead : readMetaS b12.data (b9.get_block_address .headerL) =
      some nb.header := by
    unfold readMetaS
    have hgba : b12.get_block_address .headerL =
        b9.get_block_address .headerL :=
      gba_of_extOnly E912 _
        (fun l hl hcon => by rcases hl with rfl | rfl <;> cases hcon)
    have := H12.2
    rw [hgba] at this
    rw [readsAt_final this]
    simp [decodeMetaS_encodeMetaS]
  -- assemble the parse
  have hparse : parseNotebook b12.data = Except.ok
      { typeMark := nb.typeMark, signature := nb.signature,
        header := nb.header,
        cover := match kvLookup (footerKVsOf b9 nb) .cover2 with
          | some (.nat a) => readBlock b12.data a
          | _ => none
        keywords := collectRefs b12.data (footerKVsOf b9 nb)
          (fun k => match k with | .keyword i => some i | _ => none)
        titles := collectRefs b12.data (footerKVsOf b9 nb)
          (fun k => match k with | .title i => some i | _ => none)
        links := collectRefs b12.data (footerKVsOf b9 nb)
          (fun k => match k with | .link i => some i | _ => none)
        pages := ps2, footer := footerKVsOf b9 nb } := by
    simp only [parseNotebook, hlast, hfooterRead, htmRead, hsigRead, hsig,
      if_true, hff, hheaderRead, hpages]
  have hbuild : buildNotebookBytes nb = .ok b12.data := by
    have h1 : pack_backgrounds (packPrefix nb) nb = .ok b8 := hok8
    have h2 : pack_pages_with_recognition b8 nb 0 = .ok b9 := hok9
    simp only [buildNotebookBytes, h1, h2]
    rw [hb12, hb11]
    rfl
  exact ⟨b12.data, _, hbuild, hparse, by simpa using hcore⟩

/-- C1: for every valid notebook byte string, parsing it, rebuilding it with
`reconstruct_with_recognition` (no page mutated), and parsing the rebuilt
bytes yields a notebook structurally equal to the first parse — same pages,
same layer contents, same recognition payloads (`pageCore`), even though raw
block addresses may differ between the two builds. -/
theorem parse_build_roundtrip (bytes : Bytes) (nb : Notebook) (rt : String)
    (hp : parseNotebook bytes = .ok nb)
    (hv : validNb nb = true) :
    ∃ out nb2, reconstruct_with_recognition nb rt = .ok out ∧
      parseNotebook out = .ok nb2 ∧
      nb2.pages.map pageCore = nb.pages.map pageCore := by
  simp only [validNb, Bool.and_eq_true] at hv
  obtain ⟨⟨hsig, hpages⟩, hcoh⟩ := hv
  have hsig' : nb.signature = expectedSignature := of_decide_eq_true hsig
  have hval : ∀ p ∈ nb.pages, validPage p = true :=
    fun p hp2 => List.all_eq_true.mp hpages p hp2
  obtain ⟨f, nb2, hbuild, hparse2, hcore⟩ :=
    buildNotebookBytes_parses
      { nb with header := (normalizeHeader nb.header rt).1 }
      hval hcoh (by show SN_SIGNATURES.contains nb.signature = true
                    rw [hsig']; decide)
  refine ⟨f, nb2, ?_, hparse2, hcore⟩
  unfold reconstruct_with_recognition
  rw [if_neg (by rw [hsig']; simp)]
  simp only [hbuild, hparse2]

set_option maxRecDepth 10000 in
theorem parse_build_roundtrip_witness :
    ∃ out nb2, reconstruct_with_recognition nbParsedFix "keep" = .ok out ∧
      parseNotebook out = .ok nb2 ∧
      nb2.pages.map pageCore = nbParsedFix.pages.map pageCore :=
  parse_build_roundtrip fileFix nbParsedFix "keep"
    (by with_unfolding_all rfl) (by with_unfolding_all decide)
